import Mathlib

/-!
# Paquerette: the graph reducer of `src/App.js`

A shallow embedding of the pure core of `src/App.js` (`setEquals`, `combinations`,
`makeLabel`, `makeLabelSingle`, `createMergedGraph`) and of the two suggestion functions
(`suggestSimilarNeighborsToMerge`, `suggestSimilarNonneighborsToPair`, as functions of the
displayed graph to the list they hand to `setSuggestedPairs`), together with theorems about
them.

Modelling conventions.

* A JavaScript string is a Lean `String` (a sequence of Unicode scalar values, so strings
  with unpaired surrogates are outside the model); the JavaScript comparison `a < b` on
  strings compares UTF-16 code units and is modelled by `jsLt`.
* A JavaScript `Set` is a duplicate-free list in insertion order (`setAdd`, `setDelete`,
  `setHas`, `setOf`).
* A JavaScript object used as a dictionary is an association list in insertion order
  (`objGet`, `objSet`, `objDelete`); `Object.keys` lists array-index keys first, in
  ascending numeric order, then the other keys in insertion order (`jsKeyOrder`,
  `objectKeys`).
* A `TypeError` raised by `adj[edge.from].add(...)` on a missing key is the result `none`.
* The two `while (changed)` loops are iterated with a fuel equal to the number of live keys;
  `mergeLoop_fixed` shows that this fuel always reaches `changed = false`, and
  `mergeLoop_fuel_stable` that more fuel does not change the result.
* `Array.prototype.sort` is a stable sort (`jsSort`); both comparators of the suggestion
  functions are differences of a numeric key, so every stable sort gives the same array.
-/

namespace Paquerette

/-! ## JavaScript sets -/

section JSSet

variable {α : Type} [DecidableEq α]

/-- The method `Set.prototype.has`. -/
def setHas (s : List α) (x : α) : Bool := decide (x ∈ s)

/-- The method `Set.prototype.add`: a new element goes last. -/
def setAdd (s : List α) (x : α) : List α := if x ∈ s then s else s ++ [x]

/-- The method `Set.prototype.delete`. -/
def setDelete (s : List α) (x : α) : List α := s.filter (fun y => decide (y ≠ x))

/-- The constructor `new Set(iterable)`. -/
def setOf (l : List α) : List α := l.foldl setAdd []

/-- The function `setEquals` of `App.js`:
`if (a.size !== b.size) return false; for (let item of a) if (!b.has(item)) return false; return true`. -/
def setEquals (a b : List α) : Bool :=
  if a.length ≠ b.length then false else a.all (fun item => setHas b item)

end JSSet

/-! ## `combinations` -/

section Combinations

variable {α : Type}

/-- The body of `combinations (arr, k)` for a positive `k`, by recursion on `k`:
the guards `k > arr.length`, `k === arr.length`, `k === 1`, then the loop over
`i < arr.length - k + 1` with `head = arr.slice(i, i + 1)` and
`tailcombs = combinations(arr.slice(i + 1), k - 1)`. -/
def combinationsNat : Nat → List α → List (List α)
  | 0, _ => []
  | k + 1, arr =>
    if k + 1 > arr.length then []
    else if k + 1 = arr.length then [arr]
    else if k + 1 = 1 then arr.map (fun x => [x])
    else
      (List.range (arr.length - (k + 1) + 1)).flatMap (fun i =>
        (combinationsNat k (arr.drop (i + 1))).map (fun t => (arr.drop i).take 1 ++ t))

/-- The function `combinations` of `App.js` at an integer `k`. -/
def combinations (arr : List α) (k : Int) : List (List α) :=
  if k ≤ 0 then [] else combinationsNat k.toNat arr

end Combinations

/-! ## Labels -/

/-- The method `Array.prototype.join`. -/
def join (sep : String) (l : List String) : String := sep.intercalate l

/-- The function `makeLabelSingle` of `App.js`. -/
def makeLabelSingle (list : List String) : String :=
  match list with
  | [x] => x
  | _ => "\x7b" ++ join ", " list ++ "\x7d"

/-- The function `makeLabel` of `App.js`; a cluster (a `Set`) is spread into an array
in insertion order. -/
def makeLabel (list : List (List String)) : String :=
  match list with
  | [c] => makeLabelSingle c
  | _ => "[" ++ join ",\n" (list.map makeLabelSingle) ++ "]"

/-- The method `String.prototype.includes`: `sub` occurs in `s` as a substring. -/
def includes (s sub : String) : Bool :=
  s.data.tails.any (fun t => sub.data.isPrefixOf t)

def MERGED_METANODE_COLOR : String := "#ADD8E6"

def UNMERGED_METANODE_COLOR : String := "#FFB6C1"

/-! ## JavaScript strings and objects -/

/-- The UTF-16 code units of a character. -/
def utf16Char (c : Char) : List Nat :=
  if c.val.toNat < 0x10000 then [c.val.toNat]
  else [0xD800 + (c.val.toNat - 0x10000) / 0x400, 0xDC00 + (c.val.toNat - 0x10000) % 0x400]

/-- The UTF-16 code units of a string. -/
def utf16 (s : String) : List Nat := s.data.flatMap utf16Char

/-- Lexicographic comparison of code unit sequences. -/
def unitsLt : List Nat → List Nat → Bool
  | _, [] => false
  | [], _ :: _ => true
  | a :: as, b :: bs => if a < b then true else if b < a then false else unitsLt as bs

/-- The JavaScript comparison `a < b` of two strings. -/
def jsLt (a b : String) : Bool := unitsLt (utf16 a) (utf16 b)

/-- The numeric value of a string of decimal digits. -/
def digitsValue (cs : List Char) : Nat :=
  cs.foldl (fun n c => 10 * n + (c.toNat - 48)) 0

/-- A property key is an array index when it is the canonical decimal form of an integer
below `2 ^ 32 - 1`; such keys come first in the property order of an object. -/
def isArrayIndex (k : String) : Bool :=
  match k.data with
  | [] => false
  | c :: cs =>
    (c :: cs).all (fun d => decide (48 ≤ d.toNat ∧ d.toNat ≤ 57)) &&
    (decide (c ≠ '0') || cs.isEmpty) &&
    decide (digitsValue (c :: cs) < 4294967295)

/-- The numeric value of an array-index key. -/
def arrayIndexValue (k : String) : Nat := digitsValue k.data

/-- The order in which the own property keys `ks` (given in insertion order) are listed:
array-index keys in ascending numeric order, then the other keys in insertion order. -/
def jsKeyOrder (ks : List String) : List String :=
  (ks.filter isArrayIndex).insertionSort (fun a b => arrayIndexValue a ≤ arrayIndexValue b) ++
    ks.filter (fun k => !isArrayIndex k)

/-- An object used as a dictionary: its own properties in insertion order. -/
abbrev Obj (β : Type) := List (String × β)

section Obj

variable {β : Type}

/-- The own property `o[k]`. -/
def objGet (o : Obj β) (k : String) : Option β :=
  (o.find? (fun e => decide (e.1 = k))).map Prod.snd

/-- The assignment `o[k] = v`: an existing property keeps its place. -/
def objSet (o : Obj β) (k : String) (v : β) : Obj β :=
  if o.any (fun e => decide (e.1 = k)) then o.map (fun e => if e.1 = k then (k, v) else e)
  else o ++ [(k, v)]

/-- The statement `delete o[k]`. -/
def objDelete (o : Obj β) (k : String) : Obj β := o.filter (fun e => decide (e.1 ≠ k))

/-- The function `Object.fromEntries`. -/
def objectFromEntries (es : List (String × β)) : Obj β :=
  es.foldl (fun o e => objSet o e.1 e.2) []

/-- The function `Object.keys`: array-index keys in ascending numeric order, then the
other keys in insertion order. -/
def objectKeys (o : Obj β) : List String := jsKeyOrder (o.map Prod.fst)

end Obj

/-! ## `createMergedGraph` -/

/-- An input edge or an output metaedge `{from, to}`. -/
structure Edge where
  from_ : String
  to_ : String
  deriving DecidableEq

/-- An output metanode `{id, label, color}`. -/
structure MetaNode where
  id : String
  label : String
  color : String
  deriving DecidableEq

/-- The result `{nodes, edges}` of `createMergedGraph`. -/
structure MergedGraph where
  nodes : List MetaNode
  edges : List Edge
  deriving DecidableEq

/-- The working state of `createMergedGraph`: the objects `adj` and `labels`. -/
structure State where
  adj : Obj (List String)
  labels : Obj (List (List String))
  deriving DecidableEq

/-- The set `adj[b]` of a live key `b`. -/
def adjGet (adj : Obj (List String)) (b : String) : List String := (objGet adj b).getD []

/-- The cluster list `labels[b]`. -/
def labelsGet (labels : Obj (List (List String))) (b : String) : List (List String) :=
  (objGet labels b).getD []

/-- The body of `edges.forEach`: `adj[edge.from].add(edge.to); adj[edge.to].add(edge.from)`.
A missing key makes the method call fail. -/
def addEdge (adj : Obj (List String)) (edge : Edge) : Option (Obj (List String)) :=
  match objGet adj edge.from_ with
  | none => none
  | some s =>
    let adj1 := objSet adj edge.from_ (setAdd s edge.to_)
    match objGet adj1 edge.to_ with
    | none => none
    | some t => some (objSet adj1 edge.to_ (setAdd t edge.from_))

/-- The objects `labels` and `adj` before the first loop (lines 140 to 145). -/
def initState (nodes : List String) (edges : List Edge) : Option State :=
  let labels := objectFromEntries (nodes.map (fun node => (node, [setOf [node]])))
  let adj := objectFromEntries (nodes.map (fun node => (node, setOf [node])))
  (edges.foldlM addEdge adj).map (fun adj1 => { adj := adj1, labels := labels })

/-- The statements `delete adj[b1]; Object.values(adj).forEach(set => set.delete(b1))`. -/
def removeKey (adj : Obj (List String)) (b1 : String) : Obj (List String) :=
  (objDelete adj b1).map (fun e => (e.1, setDelete e.2 b1))

/-- The test of the first loop on a pair `[b0, b1]`. -/
def cond1 (adj : Obj (List String)) (b0 b1 : String) : Bool :=
  setHas (adjGet adj b0) b1 && setEquals (adjGet adj b0) (adjGet adj b1)

/-- The test of the second loop on a pair `[b0, b1]`. -/
def cond2 (adj : Obj (List String)) (b0 b1 : String) : Bool :=
  setEquals (adjGet adj b0) (adjGet adj b1)

/-- The first pair `[b0, b1]` of `combinations(Object.keys(adj), 2)` that passes the test
`c`, which is where the `for` loop breaks. -/
def scan (c : Obj (List String) → String → String → Bool) (adj : Obj (List String)) :
    Option (String × String) :=
  (combinations (objectKeys adj) 2).findSome? (fun p =>
    match p with
    | [b0, b1] => if c adj b0 b1 then some (b0, b1) else none
    | _ => none)

/-- The assignment `l[0] = v` on an array. -/
def setFirst {γ : Type} (l : List γ) (v : γ) : List γ :=
  match l with
  | [] => [v]
  | _ :: t => v :: t

/-- The merge of the first loop (lines 152 to 154). -/
def merge1 (s : State) (b0 b1 : String) : State :=
  { labels := objSet s.labels b0
      (setFirst (labelsGet s.labels b0)
        (setOf ((labelsGet s.labels b0).headD [] ++ (labelsGet s.labels b1).headD [])))
    adj := removeKey s.adj b1 }

/-- The merge of the second loop (lines 171 to 173). -/
def merge2 (s : State) (b0 b1 : String) : State :=
  { labels := objSet s.labels b0 (labelsGet s.labels b0 ++ labelsGet s.labels b1)
    adj := removeKey s.adj b1 }

/-- A loop `while (changed)` of `createMergedGraph` with test `c` and merge `m`: each round
scans `combinations(Object.keys(adj), 2)` and merges the first pair that passes the test;
the loop ends at the first round that merges nothing. -/
def mergeLoop (c : Obj (List String) → String → String → Bool)
    (m : State → String → String → State) : Nat → State → State
  | 0, s => s
  | fuel + 1, s =>
    match scan c s.adj with
    | none => s
    | some (b0, b1) => mergeLoop c m fuel (m s b0 b1)

/-- The first `while (changed)` loop (lines 147 to 159). -/
def pass1 (fuel : Nat) (s : State) : State := mergeLoop cond1 merge1 fuel s

/-- The statement `Object.keys(adj).forEach(k => adj[k].delete(k))`. -/
def removeSelfLoops (adj : Obj (List String)) : Obj (List String) :=
  adj.map (fun e => (e.1, setDelete e.2 e.1))

/-- The second `while (changed)` loop (lines 166 to 178). -/
def pass2 (fuel : Nat) (s : State) : State := mergeLoop cond2 merge2 fuel s

/-- The state of `createMergedGraph` after both loops (lines 140 to 178). -/
def reduce (nodes : List String) (edges : List Edge) : Option State :=
  (initState nodes edges).map (fun s0 =>
    let s1 := pass1 s0.adj.length s0
    let s2 : State := { adj := removeSelfLoops s1.adj, labels := s1.labels }
    pass2 s2.adj.length s2)

/-- The array `finalNodes`. -/
def finalNodes (s : State) : List MetaNode :=
  (objectKeys s.adj).map (fun node =>
    { id := node
      label := makeLabel (labelsGet s.labels node)
      color := if includes (makeLabel (labelsGet s.labels node)) "["
        then UNMERGED_METANODE_COLOR else MERGED_METANODE_COLOR })

/-- The array `finalEdges`. -/
def finalEdges (s : State) : List Edge :=
  (objectKeys s.adj).flatMap (fun b =>
    (adjGet s.adj b).filterMap (fun n => if jsLt b n then some { from_ := b, to_ := n } else none))

/-- The function `createMergedGraph` of `App.js`. -/
def createMergedGraph (nodes : List String) (edges : List Edge) : Option MergedGraph :=
  (reduce nodes edges).map (fun s => { nodes := finalNodes s, edges := finalEdges s })

/-- The Label Groups of the output: each metanode id with its cluster list `labels[id]`. -/
def labelGroups (nodes : List String) (edges : List Edge) :
    Option (List (String × List (List String))) :=
  (reduce nodes edges).map (fun s => (objectKeys s.adj).map (fun k => (k, labelsGet s.labels k)))

/-! ## The suggestion functions -/

/-- A node of the displayed graph `graphData`; the suggestion functions read its `id` and
its `label` only. -/
structure GraphNode where
  id : String
  label : String
  deriving DecidableEq

/-- The displayed graph `graphData`. -/
structure GraphData where
  nodes : List GraphNode
  edges : List Edge

/-- The method `Array.prototype.sort` with a comparator `cmp`: the sort is stable, and `a`
stays before `b` when `cmp(a, b) ≤ 0`. -/
def jsSort {α : Type} (cmp : α → α → Int) (l : List α) : List α :=
  l.insertionSort (fun a b => cmp a b ≤ 0)

/-- The object `nodeNeighbors` of `suggestSimilarNonneighborsToPair` (lines 324 to 333):
an empty set for every node id, then both directions of every edge; a missing key makes the
method call fail. -/
def neighborsById (g : GraphData) : Option (Obj (List String)) :=
  g.edges.foldlM addEdge (g.nodes.foldl (fun o node => objSet o node.id []) [])

/-- An entry of `pairs` in `suggestSimilarNonneighborsToPair`. -/
structure PairSuggestion where
  pair : String × String
  commonCount : Nat
  nonCommonCount : Int
  score : Int
  deriving DecidableEq

/-- The object pushed on `pairs` for `node1` and `node2` (lines 339 to 346). -/
def pairRecord (nn : Obj (List String)) (node1 node2 : GraphNode) : PairSuggestion :=
  let commonNeighbors :=
    setOf ((adjGet nn node1.id).filter (fun x => setHas (adjGet nn node2.id) x))
  let nonCommonNeighbors := setOf (adjGet nn node1.id ++ adjGet nn node2.id)
  { pair := (node1.label, node2.label)
    commonCount := commonNeighbors.length
    nonCommonCount := (nonCommonNeighbors.length : Int) - (commonNeighbors.length : Int)
    score := 42 * (commonNeighbors.length : Int) -
      ((nonCommonNeighbors.length : Int) - (commonNeighbors.length : Int)) }

/-- The array `pairs` after the two nested `forEach` (lines 336 to 349). -/
def pairsOf (g : GraphData) (nn : Obj (List String)) : List PairSuggestion :=
  g.nodes.flatMap (fun node1 =>
    g.nodes.filterMap (fun node2 =>
      if jsLt node1.id node2.id && !setHas (adjGet nn node1.id) node2.id then
        some (pairRecord nn node1 node2)
      else none))

/-- The array `topPairs`: `pairs` sorted with `(a, b) => b.score - a.score`, first ten. -/
def topPairs (g : GraphData) : Option (List PairSuggestion) :=
  (neighborsById g).map (fun nn =>
    (jsSort (fun a b => b.score - a.score) (pairsOf g nn)).take 10)

/-- The text of one suggested pair (line 355). -/
def formatPair (p : PairSuggestion) : String :=
  p.pair.1 ++ " x " ++ p.pair.2 ++ " (Common: " ++ toString p.commonCount ++
    ", Non-Common: " ++ toString p.nonCommonCount ++ ")"

/-- The function `suggestSimilarNonneighborsToPair`: the list given to
`setSuggestedPairs`. -/
def suggestSimilarNonneighborsToPair (g : GraphData) : Option (List String) :=
  (topPairs g).map (fun top => top.map formatPair)

/-- The expression `graphData.nodes.find(n => n.id === id).label`, which fails when no node
has the id. -/
def labelOf (nodes : List GraphNode) (id : String) : Option String :=
  (nodes.find? (fun n => decide (n.id = id))).map (fun n => n.label)

/-- The body of `graphData.edges.forEach` in `suggestSimilarNeighborsToMerge`
(lines 283 to 286). -/
def addEdgeByLabel (nodes : List GraphNode) (nn : Obj (List String)) (edge : Edge) :
    Option (Obj (List String)) :=
  match labelOf nodes edge.from_ with
  | none => none
  | some fromLabel =>
    match labelOf nodes edge.to_ with
    | none => none
    | some toLabel => addEdge nn { from_ := fromLabel, to_ := toLabel }

/-- The object `nodeNeighbors` of `suggestSimilarNeighborsToMerge` (lines 276 to 287),
keyed by label. -/
def neighborsByLabel (g : GraphData) : Option (Obj (List String)) :=
  g.edges.foldlM (addEdgeByLabel g.nodes)
    (g.nodes.foldl (fun o node => objSet o node.label []) [])

/-- An entry of `suggestions` in `suggestSimilarNeighborsToMerge`. -/
structure Suggestion where
  nodeA : String
  nodeB : String
  nodeC : String
  commonNeighbors : Nat
  uniqueNeighborsOfB : Int
  deriving DecidableEq

/-- The array `suggestions` after the nested `forEach` (lines 290 to 307). -/
def suggestionsOf (g : GraphData) (nn : Obj (List String)) : List Suggestion :=
  g.nodes.flatMap (fun nodeA =>
    (adjGet nn nodeA.label).flatMap (fun nodeBLabel =>
      let commonNeighbors :=
        setOf ((adjGet nn nodeA.label).filter (fun x => setHas (adjGet nn nodeBLabel) x))
      let uniqueNeighborsOfB :=
        setOf ((adjGet nn nodeBLabel).filter (fun x => !setHas (adjGet nn nodeA.label) x))
      uniqueNeighborsOfB.filterMap (fun nodeCLabel =>
        if nodeCLabel ≠ nodeA.label ∧ nodeCLabel ≠ nodeBLabel then
          some { nodeA := nodeA.label
                 nodeB := nodeBLabel
                 nodeC := nodeCLabel
                 commonNeighbors := commonNeighbors.length
                 uniqueNeighborsOfB := (uniqueNeighborsOfB.length : Int) - 1 }
        else none)))

/-- The comparator of `suggestions.sort` (line 311). -/
def compareSuggestions (a b : Suggestion) : Int :=
  ((b.commonNeighbors : Int) - (a.commonNeighbors : Int)) +
    42 * (a.uniqueNeighborsOfB - b.uniqueNeighborsOfB)

/-- The array `topSuggestions`: `suggestions` sorted, first ten. -/
def topSuggestions (g : GraphData) : Option (List Suggestion) :=
  (neighborsByLabel g).map (fun nn =>
    (jsSort compareSuggestions (suggestionsOf g nn)).take 10)

/-- The text of one suggestion (line 317). -/
def formatSuggestion (s : Suggestion) : String :=
  s.nodeC ++ " x " ++ s.nodeA ++ " (which is similar to " ++ s.nodeB ++
    " - Common neighbors: " ++ toString s.commonNeighbors ++ ", Unique extras: " ++
    toString s.uniqueNeighborsOfB ++ ")"

/-- The function `suggestSimilarNeighborsToMerge`: the list given to
`setSuggestedPairs`. -/
def suggestSimilarNeighborsToMerge (g : GraphData) : Option (List String) :=
  (topSuggestions g).map (fun top => top.map formatSuggestion)

/-- The displayed graph when merging is off (`updateGraph`, lines 130 to 131): every node
labelled with its id, the edges as parsed. -/
def plainGraph (nodes : List String) (edges : List Edge) : GraphData :=
  { nodes := nodes.map (fun node => { id := node, label := node }), edges := edges }

/-! ## Specification-side definitions -/

/-- The `k`-element subsequences of a list, as the specification words them: the elements
keep their order in the list, and the subsequences that select the first element come
before all those that skip it, which is the lexicographic order of the selected positions. -/
def subseqs {α : Type} : Nat → List α → List (List α)
  | 0, _ => [[]]
  | _ + 1, [] => []
  | k + 1, a :: l => (subseqs k l).map (fun t => a :: t) ++ subseqs (k + 1) l

/-- The elements of a list separated by `sep`, as the specification writes a joined
string `n1, n2, ..., nk`. -/
def joinWith (sep : String) : List String → String
  | [] => ""
  | [x] => x
  | x :: y :: l => x ++ sep ++ joinWith sep (y :: l)

/-- The rendering of one cluster in the specification: the plain identifier of a one-node
cluster, a brace-set otherwise. -/
def renderCluster (c : List String) : String :=
  if c.length = 1 then c.headD "" else "\x7b" ++ joinWith ", " c ++ "\x7d"

/-- The own property keys of an object, in insertion order. -/
def keys {β : Type} (o : Obj β) : List String := o.map Prod.fst

/-- The keys `a` and `b` have the same neighbours in `adj`. -/
def Sib (adj : Obj (List String)) (a b : String) : Prop :=
  ∀ x, x ∈ adjGet adj a ↔ x ∈ adjGet adj b

/-- An adjacency object is a graph on its keys: the keys are distinct, every adjacency set
is duplicate-free and mentions keys only, and adjacency is symmetric. -/
structure GraphWF (adj : Obj (List String)) : Prop where
  nodupKeys : (keys adj).Nodup
  nodup : ∀ k, (adjGet adj k).Nodup
  closed : ∀ k x, x ∈ adjGet adj k → x ∈ keys adj
  symm : ∀ k x, x ∈ adjGet adj k → k ∈ adjGet adj x

/-- The object `adj` is the subgraph of `base` induced on the keys of `adj`. -/
structure Induced (base adj : Obj (List String)) : Prop where
  sub : (keys adj).Sublist (keys base)
  get : ∀ k ∈ keys adj,
    adjGet adj k = (adjGet base k).filter (fun x => decide (x ∈ keys adj))

/-- The invariant of a merge loop over the graph `base` it started from. Every key `r` of
`base` owns the items `own r`; the live key `k` holds the items `grp labels k`.
The live graph is the induced subgraph, the items held by the live keys are the owned items
(each once), and every base key is represented by a live key with the same neighbours in
`base` that holds its items. -/
structure Inv {ι : Type} (base : Obj (List String)) (own : String → List ι)
    (grp : Obj (List (List String)) → String → List ι) (s : State) : Prop where
  induced : Induced base s.adj
  perm : ((keys s.adj).flatMap (grp s.labels)).Perm ((keys base).flatMap own)
  sound : ∀ k ∈ keys s.adj, ∀ i ∈ grp s.labels k, ∃ r ∈ keys base, i ∈ own r ∧ Sib base r k
  cover : ∀ r ∈ keys base, ∃ k ∈ keys s.adj, Sib base r k ∧ ∀ i ∈ own r, i ∈ grp s.labels k

/-- The nodes `u` and `v` are neighbours in the input graph: some input edge joins them,
in one direction or the other. -/
def adjacent (edges : List Edge) (u v : String) : Prop :=
  ∃ e ∈ edges, (e.from_ = u ∧ e.to_ = v) ∨ (e.to_ = u ∧ e.from_ = v)

/-- The input is well formed: both endpoints of every edge are in the node list. -/
def WellFormed (nodes : List String) (edges : List Edge) : Prop :=
  ∀ e ∈ edges, e.from_ ∈ nodes ∧ e.to_ ∈ nodes

/-- The nodes held by the live key `k`: the members of all clusters of `labels[k]`. -/
def members (labels : Obj (List (List String))) (k : String) : List String :=
  (labelsGet labels k).flatten

/-- A run of `reduce`: `s0` is the state before the first loop, `s1` the state after it and
`s2` the final state, with the facts that hold at each of them. -/
structure Run (nodes : List String) (edges : List Edge) (s0 s1 s2 : State) : Prop where
  result : reduce nodes edges = some s2
  wf0 : GraphWF s0.adj
  keys0 : ∀ k, k ∈ keys s0.adj ↔ k ∈ nodes
  adj0 : ∀ k x, x ∈ adjGet s0.adj k ↔ k ∈ nodes ∧ (x = k ∨ adjacent edges k x)
  inv1 : Inv s0.adj (fun r => [r]) members s1
  single1 : ∀ k ∈ keys s1.adj, ∃ c, labelsGet s1.labels k = [c]
  fixed1 : scan cond1 s1.adj = none
  wf1 : GraphWF (removeSelfLoops s1.adj)
  inv2 : Inv (removeSelfLoops s1.adj) (labelsGet s1.labels) labelsGet s2
  fixed2 : scan cond2 s2.adj = none

/-- The metanode that `finalNodes` builds for a Label Group. -/
def metaNodeOf (g : String × List (List String)) : MetaNode :=
  { id := g.1
    label := makeLabel g.2
    color := if includes (makeLabel g.2) "[" then UNMERGED_METANODE_COLOR
      else MERGED_METANODE_COLOR }

/-- The nodes `u` and `v` lie in one cluster (brace-set) of some Label Group. -/
def sameCluster (groups : List (String × List (List String))) (u v : String) : Prop :=
  ∃ g ∈ groups, ∃ c ∈ g.2, u ∈ c ∧ v ∈ c

/-- The nodes `u` and `v` lie in one Label Group, in two different clusters of it. -/
def siblingsIn (groups : List (String × List (List String))) (u v : String) : Prop :=
  ∃ g ∈ groups, ∃ cu ∈ g.2, ∃ cv ∈ g.2, u ∈ cu ∧ v ∈ cv ∧ cu ≠ cv ∧ v ∉ cu ∧ u ∉ cv

/-- The closed neighbourhoods `{u} ∪ neighbours(u)` and `{v} ∪ neighbours(v)` of the input
graph are equal. -/
def closedTwins (edges : List Edge) (u v : String) : Prop :=
  ∀ x, (x = u ∨ adjacent edges u x) ↔ (x = v ∨ adjacent edges v x)

/-- The open neighbour sets of `u` and `v` in the input graph are equal. -/
def openTwins (edges : List Edge) (u v : String) : Prop :=
  ∀ x, adjacent edges u x ↔ adjacent edges v x

instance (edges : List Edge) (u v : String) : Decidable (adjacent edges u v) := by
  unfold adjacent
  infer_instance

/-- The number of rounds of a merge loop that merge a pair, that is, that set `changed`. -/
def mergeSteps (c : Obj (List String) → String → String → Bool)
    (m : State → String → String → State) : Nat → State → Nat
  | 0, _ => 0
  | fuel + 1, s =>
    match scan c s.adj with
    | none => 0
    | some (b0, b1) => mergeSteps c m fuel (m s b0 b1) + 1

/-- The state of `createMergedGraph` when the second loop starts: the result of the first
loop with the self-references removed. -/
def startPass2 (s0 : State) : State :=
  { adj := removeSelfLoops (pass1 s0.adj.length s0).adj
    labels := (pass1 s0.adj.length s0).labels }

/-- The first loop with its test reduced to `setEquals(adj[b0], adj[b1])` alone. -/
def pass1SetEquals (fuel : Nat) (s : State) : State := mergeLoop cond2 merge1 fuel s

/-- The function `createMergedGraph` with the test of the first loop reduced to
`setEquals(adj[b0], adj[b1])` alone, everything else unchanged. -/
def createMergedGraphSetEquals (nodes : List String) (edges : List Edge) :
    Option MergedGraph :=
  ((initState nodes edges).map (fun s0 =>
    let s1 := pass1SetEquals s0.adj.length s0
    let s2 : State := { adj := removeSelfLoops s1.adj, labels := s1.labels }
    pass2 s2.adj.length s2)).map
    (fun s => { nodes := finalNodes s, edges := finalEdges s })

/-- The nodes `u` and `v` lie in one Label Group. -/
def sameGroup (groups : List (String × List (List String))) (u v : String) : Prop :=
  ∃ g ∈ groups, u ∈ g.2.flatten ∧ v ∈ g.2.flatten

/-- The nodes `u` and `v` have the same neighbours up to twins: a node is a neighbour of `u`
with another closed neighbourhood than `u` exactly when it is a neighbour of `v` with
another closed neighbourhood than `v`. This relation depends on the set of edges only. -/
def groupTwins (edges : List Edge) (u v : String) : Prop :=
  ∀ y, (adjacent edges u y ∧ ¬ closedTwins edges u y) ↔
    (adjacent edges v y ∧ ¬ closedTwins edges v y)

/-- The Label Groups `groups` partition `nodes` into non-empty groups of non-empty
clusters. -/
structure Partitioned (nodes : List String) (groups : List (String × List (List String))) :
    Prop where
  nodup : (groups.flatMap (fun g => g.2.flatten)).Nodup
  cover : ∀ u ∈ nodes, ∃ g ∈ groups, ∃ c ∈ g.2, u ∈ c
  sound : ∀ g ∈ groups, ∀ c ∈ g.2, ∀ u ∈ c, u ∈ nodes
  nonempty : ∀ g ∈ groups, ∀ c ∈ g.2, ∃ u, u ∈ c
  groupNonempty : ∀ g ∈ groups, ∃ c, c ∈ g.2

/-- Every edge of the displayed graph joins two of its node ids. -/
def EdgesBetweenNodes (g : GraphData) : Prop :=
  ∀ e ∈ g.edges, e.from_ ∈ g.nodes.map (fun n => n.id) ∧ e.to_ ∈ g.nodes.map (fun n => n.id)

/-- The pairs of nodes for which `suggestSimilarNonneighborsToPair` pushes an entry on
`pairs`, in the order of the two nested loops. -/
def candidatePairs (g : GraphData) (nn : Obj (List String)) : List (GraphNode × GraphNode) :=
  g.nodes.flatMap (fun node1 =>
    (g.nodes.filter (fun node2 =>
      jsLt node1.id node2.id && !setHas (adjGet nn node1.id) node2.id)).map
      (fun node2 => (node1, node2)))

/-- The edges of the displayed graph with both endpoints replaced by the label of the
first node that has the id. -/
def labelEdges (nodes : List GraphNode) (edges : List Edge) : List Edge :=
  edges.filterMap (fun e =>
    match labelOf nodes e.from_, labelOf nodes e.to_ with
    | some a, some b => some { from_ := a, to_ := b }
    | _, _ => none)

/-- The neighbour set `N(k)` of a node id in the displayed graph, as the specification
words it: the ids that an edge joins to `k`, in one direction or the other. -/
def specNeighbours (g : GraphData) (k : String) : Finset String :=
  ((g.edges.flatMap (fun e => [e.from_, e.to_])).filter
    (fun x => decide (adjacent g.edges k x))).toFinset

/-- The candidate pairs of the non-neighbour heuristic, as the specification words them: the
pairs of nodes `(node1, node2)` with `node1.id < node2.id` that have no edge between them. -/
def specCandidatePairs (g : GraphData) : List (GraphNode × GraphNode) :=
  (g.nodes.product g.nodes).filter (fun p =>
    jsLt p.1.id p.2.id && !decide (adjacent g.edges p.1.id p.2.id))

/-- The entry of a candidate pair, as the specification words it: the two labels, Common
`|N(n1) ∩ N(n2)|`, Non-Common `|N(n1) ∪ N(n2)| − |N(n1) ∩ N(n2)|` and score
`42 × Common − Non-Common`. -/
def specPairEntry (g : GraphData) (p : GraphNode × GraphNode) : PairSuggestion :=
  { pair := (p.1.label, p.2.label)
    commonCount := (specNeighbours g p.1.id ∩ specNeighbours g p.2.id).card
    nonCommonCount := ((specNeighbours g p.1.id ∪ specNeighbours g p.2.id).card : Int) -
      ((specNeighbours g p.1.id ∩ specNeighbours g p.2.id).card : Int)
    score := 42 * ((specNeighbours g p.1.id ∩ specNeighbours g p.2.id).card : Int) -
      (((specNeighbours g p.1.id ∪ specNeighbours g p.2.id).card : Int) -
        ((specNeighbours g p.1.id ∩ specNeighbours g p.2.id).card : Int)) }

/-! ## Sets: basic facts -/

section JSSetLemmas

variable {α : Type} [DecidableEq α]

theorem setHas_iff (s : List α) (x : α) : setHas s x = true ↔ x ∈ s := by
  simp [setHas]

theorem mem_setAdd (s : List α) (x y : α) : y ∈ setAdd s x ↔ y ∈ s ∨ y = x := by
  unfold setAdd
  split
  · constructor
    · intro h; exact Or.inl h
    · rintro (h | h)
      · exact h
      · subst h; assumption
  · simp

theorem nodup_setAdd {s : List α} (x : α) (h : s.Nodup) : (setAdd s x).Nodup := by
  unfold setAdd
  split
  · exact h
  · rename_i hx
    exact List.nodup_append.2 ⟨h, List.nodup_singleton x, by
      intro a ha hb
      rw [List.mem_singleton] at hb
      subst hb
      exact hx ha⟩

theorem mem_setDelete (s : List α) (x y : α) : y ∈ setDelete s x ↔ y ∈ s ∧ y ≠ x := by
  simp [setDelete]

theorem nodup_setDelete {s : List α} (x : α) (h : s.Nodup) : (setDelete s x).Nodup :=
  h.filter _

theorem foldl_setAdd_of_nodup (l acc : List α) (h : (acc ++ l).Nodup) :
    l.foldl setAdd acc = acc ++ l := by
  induction l generalizing acc with
  | nil => simp
  | cons a l ih =>
    have ha : a ∉ acc := by
      intro hmem
      have := (List.nodup_append.1 h).2.2
      exact this hmem (List.mem_cons_self a l)
    have hacc : setAdd acc a = acc ++ [a] := by simp [setAdd, ha]
    rw [List.foldl_cons, hacc, ih (acc ++ [a]) (by simpa using h)]
    simp

theorem setOf_of_nodup {l : List α} (h : l.Nodup) : setOf l = l := by
  have := foldl_setAdd_of_nodup l [] (by simpa using h)
  simpa [setOf] using this

theorem setEquals_eq_true_iff (a b : List α) :
    setEquals a b = true ↔ a.length = b.length ∧ ∀ x ∈ a, x ∈ b := by
  unfold setEquals
  by_cases h : a.length = b.length
  · simp [h, setHas]
  · simp [h]

/-- On duplicate-free lists the size test and the one-directional scan decide equality of
the sets of elements. -/
theorem setEquals_iff_of_nodup {a b : List α} (ha : a.Nodup) (hb : b.Nodup) :
    setEquals a b = true ↔ ∀ x, x ∈ a ↔ x ∈ b := by
  rw [setEquals_eq_true_iff]
  constructor
  · rintro ⟨hlen, hsub⟩ x
    refine ⟨hsub x, fun hx => ?_⟩
    have hsp : a.Subperm b := List.subperm_of_subset ha hsub
    have hperm : a.Perm b := hsp.perm_of_length_le (le_of_eq hlen.symm)
    exact hperm.mem_iff.2 hx
  · intro h
    have hperm : a.Perm b := (List.perm_ext_iff_of_nodup ha hb).2 h
    exact ⟨hperm.length_eq, fun x hx => (h x).1 hx⟩

end JSSetLemmas

/-- C10: on JavaScript sets (duplicate-free lists of elements) `setEquals a b` is true
exactly when `a` and `b` have the same elements. -/
theorem setEquals_correct {α : Type} [DecidableEq α] (a b : List α)
    (ha : a.Nodup) (hb : b.Nodup) :
    setEquals a b = true ↔ ∀ x, x ∈ a ↔ x ∈ b :=
  setEquals_iff_of_nodup ha hb

theorem setEquals_correct_witness :
    ([1, 2, 3] : List Nat).Nodup ∧ ([3, 1, 2] : List Nat).Nodup ∧
      (setEquals [1, 2, 3] [3, 1, 2] = true ↔ ∀ x, x ∈ [1, 2, 3] ↔ x ∈ [3, 1, 2]) :=
  ⟨by decide, by decide, setEquals_correct [1, 2, 3] [3, 1, 2] (by decide) (by decide)⟩

/-! ## `combinations` against the subsequences of the specification -/

section CombinationsLemmas

variable {α : Type}

theorem subseqs_of_length_lt : ∀ (k : Nat) (l : List α), l.length < k → subseqs k l = []
  | 0, _, h => by simp at h
  | _ + 1, [], _ => rfl
  | k + 1, a :: l, h => by
    have h1 : l.length < k := by simpa using h
    have h2 : l.length < k + 1 := by omega
    simp [subseqs, subseqs_of_length_lt k l h1, subseqs_of_length_lt (k + 1) l h2]

theorem subseqs_length_self : ∀ l : List α, subseqs l.length l = [l]
  | [] => rfl
  | a :: l => by
    simp [subseqs, subseqs_length_self l, subseqs_of_length_lt (l.length + 1) l (by omega)]

theorem subseqs_one : ∀ l : List α, subseqs 1 l = l.map (fun x => [x])
  | [] => rfl
  | a :: l => by simp [subseqs, subseqs_one l]

theorem subseqs_succ_eq_flatMap (k : Nat) :
    ∀ l : List α, k + 1 ≤ l.length →
      subseqs (k + 1) l =
        (List.range (l.length - (k + 1) + 1)).flatMap (fun i =>
          (subseqs k (l.drop (i + 1))).map (fun t => (l.drop i).take 1 ++ t))
  | [], h => by simp at h
  | a :: l, h => by
    have hk : k ≤ l.length := by simpa using h
    have hr : (a :: l).length - (k + 1) + 1 = (l.length - k) + 1 := by
      simp only [List.length_cons]; omega
    rw [hr, List.range_succ_eq_map, List.flatMap_cons, List.flatMap_map]
    simp only [subseqs, List.drop_succ_cons, List.drop_zero, List.take_succ_cons,
      List.take_zero, List.singleton_append, Function.comp_def, Nat.succ_eq_add_one]
    congr 1
    by_cases hlt : k + 1 ≤ l.length
    · rw [subseqs_succ_eq_flatMap k l hlt]
      have : l.length - (k + 1) + 1 = l.length - k := by omega
      rw [this]
    · have hlen : l.length - k = 0 := by omega
      rw [hlen, subseqs_of_length_lt (k + 1) l (by omega)]
      simp

theorem combinationsNat_eq_subseqs :
    ∀ (k : Nat) (l : List α), 1 ≤ k → combinationsNat k l = subseqs k l
  | 0, _, h => by simp at h
  | k + 1, l, _ => by
    unfold combinationsNat
    split
    · rename_i h
      exact (subseqs_of_length_lt (k + 1) l h).symm
    · split
      · rename_i h
        rw [h, subseqs_length_self]
      · split
        · rename_i h
          have hk : k = 0 := by omega
          subst hk
          exact (subseqs_one l).symm
        · rename_i h1 h2 h3
          have hk : 1 ≤ k := by omega
          rw [subseqs_succ_eq_flatMap k l (by omega)]
          congr 1
          funext i
          rw [combinationsNat_eq_subseqs k (l.drop (i + 1)) hk]

theorem mem_subseqs : ∀ (k : Nat) (l t : List α),
    t ∈ subseqs k l ↔ t.Sublist l ∧ t.length = k
  | 0, l, t => by
    simp only [subseqs, List.mem_singleton, List.length_eq_zero]
    constructor
    · rintro rfl; exact ⟨List.nil_sublist l, rfl⟩
    · exact fun h => h.2
  | k + 1, [], t => by
    simp only [subseqs, List.not_mem_nil, List.sublist_nil, false_iff, not_and]
    rintro rfl
    simp
  | k + 1, a :: l, t => by
    simp only [subseqs, List.mem_append, List.mem_map, mem_subseqs k l, mem_subseqs (k + 1) l,
      List.sublist_cons_iff]
    constructor
    · rintro (⟨r, ⟨hr, hlen⟩, rfl⟩ | ⟨h1, h2⟩)
      · exact ⟨Or.inr ⟨r, rfl, hr⟩, by simp [hlen]⟩
      · exact ⟨Or.inl h1, h2⟩
    · rintro ⟨h1 | ⟨r, rfl, hr⟩, h2⟩
      · exact Or.inr ⟨h1, h2⟩
      · exact Or.inl ⟨r, ⟨hr, by simpa using h2⟩, rfl⟩

theorem length_subseqs : ∀ (k : Nat) (l : List α), (subseqs k l).length = l.length.choose k
  | 0, l => by simp [subseqs]
  | _ + 1, [] => by simp [subseqs]
  | k + 1, a :: l => by
    simp [subseqs, length_subseqs k l, length_subseqs (k + 1) l, Nat.choose_succ_succ]

theorem subseqs_map {β : Type} (f : α → β) : ∀ (k : Nat) (l : List α),
    subseqs k (l.map f) = (subseqs k l).map (List.map f)
  | 0, l => by simp [subseqs]
  | _ + 1, [] => by simp [subseqs]
  | k + 1, a :: l => by
    simp [subseqs, subseqs_map f k l, subseqs_map f (k + 1) l, Function.comp_def]

theorem pairwise_lex_subseqs {r : α → α → Prop} : ∀ (k : Nat) (l : List α),
    l.Pairwise r → (subseqs k l).Pairwise (List.Lex r)
  | 0, l, _ => by simp [subseqs]
  | _ + 1, [], _ => by simp [subseqs]
  | k + 1, a :: l, h => by
    have hl : l.Pairwise r := (List.pairwise_cons.1 h).2
    have ha : ∀ b ∈ l, r a b := (List.pairwise_cons.1 h).1
    simp only [subseqs]
    refine List.pairwise_append.2 ⟨?_, pairwise_lex_subseqs (k + 1) l hl, ?_⟩
    · rw [List.pairwise_map]
      exact (pairwise_lex_subseqs k l hl).imp (fun hxy => List.Lex.cons hxy)
    · intro x hx y hy
      obtain ⟨t, -, rfl⟩ := List.mem_map.1 hx
      obtain ⟨hsub, hlen⟩ := (mem_subseqs (k + 1) l y).1 hy
      cases y with
      | nil => simp at hlen
      | cons b y =>
        exact List.Lex.rel (ha b (hsub.subset (List.mem_cons_self b y)))

theorem mem_subseqs_finRange (n k : Nat) (t : List (Fin n)) :
    t ∈ subseqs k (List.finRange n) ↔ t.length = k ∧ t.Pairwise (fun i j => i < j) := by
  rw [mem_subseqs]
  constructor
  · rintro ⟨hsub, hlen⟩
    exact ⟨hlen, (List.pairwise_lt_finRange n).sublist hsub⟩
  · rintro ⟨hlen, hs⟩
    refine ⟨?_, hlen⟩
    have hnd : t.Nodup := hs.imp (fun h => ne_of_lt h)
    have hsp : t.Subperm (List.finRange n) :=
      List.subperm_of_subset hnd (fun i _ => List.mem_finRange i)
    exact List.sublist_of_subperm_of_sorted hsp hs (List.pairwise_lt_finRange n)

theorem subseqs_two_cons (a : α) (l : List α) :
    subseqs 2 (a :: l) = l.map (fun b => [a, b]) ++ subseqs 2 l := by
  simp [subseqs, subseqs_one, Function.comp_def]

theorem subseqs_two_of_pairwise {r : α → α → Prop} [DecidableRel r] [IsIrrefl α r]
    [IsAsymm α r] : ∀ l : List α, l.Pairwise r →
      subseqs 2 l = l.flatMap (fun i => (l.filter (fun j => decide (r i j))).map (fun j => [i, j]))
  | [], _ => rfl
  | a :: l, h => by
    have hl : l.Pairwise r := (List.pairwise_cons.1 h).2
    have ha : ∀ b ∈ l, r a b := (List.pairwise_cons.1 h).1
    rw [subseqs_two_cons, subseqs_two_of_pairwise l hl, List.flatMap_cons]
    have h1 : (a :: l).filter (fun j => decide (r a j)) = l := by
      rw [List.filter_cons_of_neg (by simpa using irrefl a)]
      exact List.filter_eq_self.2 (fun b hb => by simpa using ha b hb)
    rw [h1]
    congr 1
    refine List.flatMap_congr ?_
    intro i hi
    rw [List.filter_cons_of_neg (by simpa using asymm (ha i hi))]

theorem combinations_of_pos (arr : List α) (k : Int) (hk : 1 ≤ k) :
    combinations arr k = subseqs k.toNat arr := by
  unfold combinations
  rw [if_neg (by omega)]
  exact combinationsNat_eq_subseqs k.toNat arr (by omega)

theorem combinations_two (l : List α) : combinations l 2 = subseqs 2 l :=
  combinations_of_pos l 2 (by decide)

end CombinationsLemmas

/-- C9: `combinations arr k` is empty for `k ≤ 0` and for `k > arr.length`, is `[arr]` for
`k = arr.length ≥ 1`, has `C(arr.length, k)` entries for `1 ≤ k ≤ arr.length`, and for
every `k ≥ 1` it lists exactly the `k`-element subsequences of `arr`: it is the image under
`arr[·]` of the list of all strictly increasing `k`-tuples of positions, and that list of
tuples is strictly increasing in the lexicographic order. For `k = 2` it is the list of the
pairs `[arr[i], arr[j]]` with `i < j`, ordered by `(i, j)`. -/
theorem combinations_spec {α : Type} (arr : List α) (k : Int) :
    ((k ≤ 0 ∨ (arr.length : Int) < k) → combinations arr k = []) ∧
    (1 ≤ k → k = (arr.length : Int) → combinations arr k = [arr]) ∧
    (1 ≤ k → k ≤ (arr.length : Int) →
      (combinations arr k).length = arr.length.choose k.toNat) ∧
    (1 ≤ k →
      (∀ t, t ∈ combinations arr k ↔ t.Sublist arr ∧ (t.length : Int) = k) ∧
      combinations arr k =
        (combinations (List.finRange arr.length) k).map (fun t => t.map arr.get) ∧
      (combinations (List.finRange arr.length) k).Pairwise (List.Lex (fun i j => i < j)) ∧
      (∀ t : List (Fin arr.length), t ∈ combinations (List.finRange arr.length) k ↔
        (t.length : Int) = k ∧ t.Pairwise (fun i j => i < j))) ∧
    combinations arr 2 =
      (List.finRange arr.length).flatMap (fun i =>
        ((List.finRange arr.length).filter (fun j => decide (i < j))).map
          (fun j => [arr.get i, arr.get j])) := by
  refine ⟨?_, ?_, ?_, ?_, ?_⟩
  · rintro (h | h)
    · simp [combinations, h]
    · have hk : 1 ≤ k := by omega
      rw [combinations_of_pos arr k hk]
      exact subseqs_of_length_lt _ _ (by omega)
  · intro hk hlen
    rw [combinations_of_pos arr k hk]
    have : k.toNat = arr.length := by omega
    rw [this, subseqs_length_self]
  · intro hk _
    rw [combinations_of_pos arr k hk, length_subseqs]
  · intro hk
    have hnat : ∀ n : Nat, (n : Int) = k ↔ n = k.toNat := by intro n; omega
    refine ⟨?_, ?_, ?_, ?_⟩
    · intro t
      rw [combinations_of_pos arr k hk, mem_subseqs, hnat]
    · rw [combinations_of_pos arr k hk, combinations_of_pos _ k hk, ← subseqs_map,
        List.finRange_map_get]
    · rw [combinations_of_pos _ k hk]
      exact pairwise_lex_subseqs _ _ (List.pairwise_lt_finRange _)
    · intro t
      rw [combinations_of_pos _ k hk, mem_subseqs_finRange, hnat]
  · rw [combinations_two]
    conv_lhs => rw [← List.finRange_map_get arr]
    rw [subseqs_map, subseqs_two_of_pairwise _ (List.pairwise_lt_finRange _)]
    simp [List.map_flatMap, Function.comp_def]

theorem combinations_spec_witness :
    combinations ["a", "b", "c"] 2 = [["a", "b"], ["a", "c"], ["b", "c"]] ∧
      (combinations ["a", "b", "c"] 2).length = Nat.choose 3 2 ∧
      combinations ["a", "b", "c"] 3 = [["a", "b", "c"]] ∧
      combinations ["a", "b", "c"] 4 = [] :=
  ⟨by decide,
    (combinations_spec ["a", "b", "c"] 2).2.2.1 (by decide) (by decide),
    (combinations_spec ["a", "b", "c"] 3).2.1 (by decide) (by decide),
    (combinations_spec ["a", "b", "c"] 4).1 (Or.inr (by decide))⟩

/-! ## Labels -/

theorem intercalate_go_eq (sep : String) : ∀ (l : List String) (acc y : String),
    String.intercalate.go acc sep (y :: l) = acc ++ sep ++ joinWith sep (y :: l)
  | [], acc, y => by simp [String.intercalate.go, joinWith]
  | z :: l, acc, y => by
    rw [String.intercalate.go, intercalate_go_eq sep l (acc ++ sep ++ y) z]
    simp [joinWith, String.append_assoc]

theorem join_eq_joinWith (sep : String) : ∀ l : List String, join sep l = joinWith sep l
  | [] => rfl
  | [x] => by simp [join, String.intercalate, String.intercalate.go, joinWith]
  | x :: y :: l => by
    simp only [join, String.intercalate, joinWith]
    exact intercalate_go_eq sep l x y

theorem makeLabelSingle_eq_renderCluster (c : List String) :
    makeLabelSingle c = renderCluster c := by
  unfold makeLabelSingle renderCluster
  split
  · simp
  · rename_i h
    have hlen : c.length ≠ 1 := by
      intro hl
      obtain ⟨x, rfl⟩ := List.length_eq_one.1 hl
      exact h x rfl
    rw [if_neg hlen, join_eq_joinWith]

/-- C8: `makeLabel` renders a single one-node cluster as the node identifier, a single
cluster of several nodes as the brace-set of its identifiers joined by `, `, and a list of
two or more clusters as the bracketed list of the cluster renderings joined by a comma and
a line break. -/
theorem makeLabel_spec :
    (∀ n : String, makeLabel [[n]] = n) ∧
    (∀ n1 n2 : String, ∀ rest : List String,
      makeLabel [n1 :: n2 :: rest] = "\x7b" ++ joinWith ", " (n1 :: n2 :: rest) ++ "\x7d") ∧
    (∀ c1 c2 : List String, ∀ rest : List (List String),
      makeLabel (c1 :: c2 :: rest) =
        "[" ++ joinWith ",\n" ((c1 :: c2 :: rest).map renderCluster) ++ "]") ∧
    (∀ n : String, renderCluster [n] = n) ∧
    (∀ n1 n2 : String, ∀ rest : List String,
      renderCluster (n1 :: n2 :: rest) = "\x7b" ++ joinWith ", " (n1 :: n2 :: rest) ++ "\x7d") := by
  refine ⟨fun n => rfl, ?_, ?_, fun n => rfl, ?_⟩
  · intro n1 n2 rest
    simp only [makeLabel, makeLabelSingle, join_eq_joinWith]
  · intro c1 c2 rest
    have hfun : makeLabelSingle = renderCluster := funext makeLabelSingle_eq_renderCluster
    simp only [makeLabel, join_eq_joinWith, hfun]
  · intro n1 n2 rest
    simp [renderCluster]

/-! ## Objects -/

section ObjLemmas

variable {β : Type}

theorem objGet_cons (e : String × β) (o : Obj β) (k : String) :
    objGet (e :: o) k = if e.1 = k then some e.2 else objGet o k := by
  unfold objGet
  by_cases h : e.1 = k
  · simp [List.find?_cons, h]
  · simp [List.find?_cons, h]

theorem objGet_eq_none_iff (o : Obj β) (k : String) : objGet o k = none ↔ k ∉ keys o := by
  induction o with
  | nil => simp [objGet, keys]
  | cons e o ih =>
    rw [objGet_cons]
    by_cases h : e.1 = k
    · simp [h, keys]
    · have hk : k ∉ keys (e :: o) ↔ k ∉ keys o := by
        simp only [keys, List.map_cons, List.mem_cons, not_or]
        exact ⟨fun h2 => h2.2, fun h2 => ⟨fun h3 => h h3.symm, h2⟩⟩
      rw [if_neg h, ih, hk]

theorem objGet_of_mem_keys {o : Obj β} {k : String} (h : k ∈ keys o) :
    ∃ v, objGet o k = some v := by
  cases hv : objGet o k with
  | none => exact absurd h ((objGet_eq_none_iff o k).1 hv)
  | some v => exact ⟨v, rfl⟩

theorem mem_keys_of_objGet {o : Obj β} {k : String} {v : β} (h : objGet o k = some v) :
    k ∈ keys o := by
  by_contra hk
  rw [(objGet_eq_none_iff o k).2 hk] at h
  exact Option.noConfusion h

theorem any_key_iff (o : Obj β) (k : String) :
    o.any (fun e => decide (e.1 = k)) = true ↔ k ∈ keys o := by
  simp only [List.any_eq_true, decide_eq_true_eq, keys, List.mem_map]

theorem keys_objSet (o : Obj β) (k : String) (v : β) :
    keys (objSet o k v) = if k ∈ keys o then keys o else keys o ++ [k] := by
  unfold objSet
  by_cases h : k ∈ keys o
  · rw [if_pos ((any_key_iff o k).2 h), if_pos h]
    simp only [keys, List.map_map]
    refine List.map_congr_left ?_
    intro e _
    by_cases he : e.1 = k
    · simp [he]
    · simp [he]
  · rw [if_neg (fun hh => h ((any_key_iff o k).1 hh)), if_neg h]
    simp [keys]

theorem objGet_append (o o2 : Obj β) (k : String) :
    objGet (o ++ o2) k = (objGet o k).orElse (fun _ => objGet o2 k) := by
  induction o with
  | nil => simp [objGet]
  | cons e o ih =>
    rw [List.cons_append, objGet_cons, objGet_cons]
    by_cases h : e.1 = k
    · simp [h]
    · simp [h, ih]

theorem objGet_map_update (o : Obj β) (k k2 : String) (v : β) (hk : k ∈ keys o) :
    objGet (o.map (fun e => if e.1 = k then (k, v) else e)) k2 =
      if k2 = k then some v else objGet o k2 := by
  induction o with
  | nil => simp [keys] at hk
  | cons e o ih =>
    rw [List.map_cons, objGet_cons, objGet_cons]
    by_cases he : e.1 = k
    · by_cases h2 : k2 = k
      · simp [he, h2]
      · have h3 : ¬ k = k2 := fun h => h2 h.symm
        simp only [he, if_true, h3, if_false, h2]
        by_cases hko : k ∈ keys o
        · rw [ih hko, if_neg h2]
        · have hid : o.map (fun e => if e.1 = k then (k, v) else e) = o := by
            conv_rhs => rw [← List.map_id o]
            refine List.map_congr_left ?_
            intro x hx
            have : x.1 ≠ k := by
              intro hxk
              exact hko (by rw [← hxk]; exact List.mem_map_of_mem Prod.fst hx)
            simp [this]
          rw [hid]
    · have hko : k ∈ keys o := by
        simp only [keys, List.map_cons, List.mem_cons] at hk
        rcases hk with hk | hk
        · exact absurd hk.symm he
        · exact hk
      simp only [he, if_false]
      by_cases h2 : e.1 = k2
      · have : ¬ k2 = k := fun h => he (h2.trans h)
        simp [h2, this]
      · simp only [h2, if_false]
        exact ih hko

theorem objGet_objSet (o : Obj β) (k k2 : String) (v : β) :
    objGet (objSet o k v) k2 = if k2 = k then some v else objGet o k2 := by
  unfold objSet
  by_cases h : k ∈ keys o
  · rw [if_pos ((any_key_iff o k).2 h)]
    exact objGet_map_update o k k2 v h
  · rw [if_neg (fun hh => h ((any_key_iff o k).1 hh)), objGet_append]
    by_cases h2 : k2 = k
    · subst h2
      rw [(objGet_eq_none_iff o k2).2 h]
      simp [objGet_cons]
    · have h3 : ¬ k = k2 := fun h => h2 h.symm
      rw [if_neg h2]
      cases hv : objGet o k2 with
      | none => simp [objGet_cons, h3, objGet]
      | some v => simp

theorem keys_objDelete (o : Obj β) (k : String) :
    keys (objDelete o k) = (keys o).filter (fun x => decide (x ≠ k)) := by
  simp only [objDelete, keys, List.filter_map]
  rfl

theorem objGet_objDelete (o : Obj β) (k k2 : String) :
    objGet (objDelete o k) k2 = if k2 = k then none else objGet o k2 := by
  induction o with
  | nil => simp [objDelete, objGet]
  | cons e o ih =>
    simp only [objDelete] at ih ⊢
    by_cases h : e.1 = k
    · rw [List.filter_cons_of_neg (by simpa using h), ih, objGet_cons]
      by_cases h2 : k2 = k
      · simp [h2]
      · have : ¬ e.1 = k2 := fun h3 => h2 (h3.symm.trans h)
        simp [h2, this]
    · rw [List.filter_cons_of_pos (by simpa using h), objGet_cons, objGet_cons, ih]
      by_cases h2 : e.1 = k2
      · have : ¬ k2 = k := fun h3 => h (h2.trans h3)
        simp [h2, this]
      · simp [h2]

theorem keys_map_val {γ : Type} (o : Obj β) (f : String → β → γ) :
    keys (o.map (fun e => (e.1, f e.1 e.2))) = keys o := by
  simp [keys, Function.comp_def]

theorem objGet_map_val {γ : Type} (o : Obj β) (f : String → β → γ) (k : String) :
    objGet (o.map (fun e => (e.1, f e.1 e.2))) k = (objGet o k).map (f k) := by
  induction o with
  | nil => simp [objGet]
  | cons e o ih =>
    rw [List.map_cons, objGet_cons, objGet_cons]
    by_cases h : e.1 = k
    · simp [h]
    · simp [h, ih]

theorem jsKeyOrder_perm (ks : List String) : (jsKeyOrder ks).Perm ks := by
  unfold jsKeyOrder
  have h1 := List.perm_insertionSort (fun a b => arrayIndexValue a ≤ arrayIndexValue b)
    (ks.filter isArrayIndex)
  have h2 := List.filter_append_perm isArrayIndex ks
  exact (h1.append_right _).trans h2

theorem jsKeyOrder_append (A B : List String) (hA : ∀ k ∈ A, isArrayIndex k = true)
    (hB : ∀ k ∈ B, isArrayIndex k = false)
    (hs : A.Sorted (fun a b => arrayIndexValue a ≤ arrayIndexValue b)) :
    jsKeyOrder (A ++ B) = A ++ B := by
  have fa : A.filter isArrayIndex = A := List.filter_eq_self.2 hA
  have fb : B.filter isArrayIndex = [] :=
    List.filter_eq_nil_iff.2 (fun k hk => by simp [hB k hk])
  have ga : A.filter (fun k => !isArrayIndex k) = [] :=
    List.filter_eq_nil_iff.2 (fun k hk => by simp [hA k hk])
  have gb : B.filter (fun k => !isArrayIndex k) = B :=
    List.filter_eq_self.2 (fun k hk => by simp [hB k hk])
  unfold jsKeyOrder
  rw [List.filter_append, List.filter_append, fa, fb, ga, gb, List.append_nil, List.nil_append,
    hs.insertionSort_eq]

theorem jsKeyOrder_idem (ks : List String) : jsKeyOrder (jsKeyOrder ks) = jsKeyOrder ks := by
  have hA : ∀ k ∈ (ks.filter isArrayIndex).insertionSort
      (fun a b => arrayIndexValue a ≤ arrayIndexValue b), isArrayIndex k = true := by
    intro k hk
    have := (List.perm_insertionSort _ _).mem_iff.1 hk
    exact (List.mem_filter.1 this).2
  have hB : ∀ k ∈ ks.filter (fun k => !isArrayIndex k), isArrayIndex k = false := by
    intro k hk
    simpa using (List.mem_filter.1 hk).2
  have htot : IsTotal String (fun a b => arrayIndexValue a ≤ arrayIndexValue b) :=
    ⟨fun a b => Nat.le_total _ _⟩
  have htr : IsTrans String (fun a b => arrayIndexValue a ≤ arrayIndexValue b) :=
    ⟨fun _ _ _ h1 h2 => Nat.le_trans h1 h2⟩
  have hs := List.sorted_insertionSort (fun a b => arrayIndexValue a ≤ arrayIndexValue b)
    (ks.filter isArrayIndex)
  exact jsKeyOrder_append _ _ hA hB hs

theorem objectKeys_perm (o : Obj β) : (objectKeys o).Perm (keys o) :=
  jsKeyOrder_perm _

theorem objectKeys_eq_of_keys_eq {γ : Type} (o : Obj β) (o2 : Obj γ)
    (h : keys o2 = objectKeys o) : objectKeys o2 = objectKeys o := by
  have : objectKeys o2 = jsKeyOrder (keys o2) := rfl
  rw [this, h]
  exact jsKeyOrder_idem _

theorem mem_objectKeys (o : Obj β) (k : String) : k ∈ objectKeys o ↔ k ∈ keys o :=
  (objectKeys_perm o).mem_iff

theorem nodup_objectKeys (o : Obj β) : (objectKeys o).Nodup ↔ (keys o).Nodup :=
  (objectKeys_perm o).nodup_iff

end ObjLemmas

/-! ## The adjacency object -/

theorem adjGet_of_not_mem {adj : Obj (List String)} {k : String} (h : k ∉ keys adj) :
    adjGet adj k = [] := by
  simp [adjGet, (objGet_eq_none_iff adj k).2 h]

theorem mem_keys_of_mem_adjGet {adj : Obj (List String)} {k x : String}
    (h : x ∈ adjGet adj k) : k ∈ keys adj := by
  by_contra hk
  rw [adjGet_of_not_mem hk] at h
  exact List.not_mem_nil x h

theorem keys_removeKey (adj : Obj (List String)) (b : String) :
    keys (removeKey adj b) = (keys adj).filter (fun x => decide (x ≠ b)) := by
  unfold removeKey
  rw [keys_map_val (objDelete adj b) (fun _ s => setDelete s b), keys_objDelete]

theorem mem_keys_removeKey (adj : Obj (List String)) (b k : String) :
    k ∈ keys (removeKey adj b) ↔ k ∈ keys adj ∧ k ≠ b := by
  rw [keys_removeKey]
  simp

theorem adjGet_removeKey (adj : Obj (List String)) (b k : String) (h : k ≠ b) :
    adjGet (removeKey adj b) k = setDelete (adjGet adj k) b := by
  unfold removeKey adjGet
  rw [objGet_map_val (objDelete adj b) (fun _ s => setDelete s b), objGet_objDelete, if_neg h]
  cases objGet adj k with
  | none => rfl
  | some v => rfl

theorem length_removeKey_lt (adj : Obj (List String)) (b : String) (h : b ∈ keys adj) :
    (removeKey adj b).length < adj.length := by
  have h1 : (removeKey adj b).length = (keys (removeKey adj b)).length := by simp [keys]
  have h2 : adj.length = (keys adj).length := by simp [keys]
  rw [h1, h2, keys_removeKey]
  exact List.length_filter_lt_length_iff_exists.2 ⟨b, h, by simp⟩

theorem Induced.self {base : Obj (List String)} (h : GraphWF base) : Induced base base where
  sub := List.Sublist.refl _
  get := by
    intro k _
    symm
    exact List.filter_eq_self.2 (fun x hx => by simpa using h.closed k x hx)

theorem Induced.afterRemoveKey {base adj : Obj (List String)} (h : Induced base adj) (b : String) :
    Induced base (removeKey adj b) where
  sub := by
    rw [keys_removeKey]
    exact (List.filter_sublist _).trans h.sub
  get := by
    intro k hk
    obtain ⟨hk1, hk2⟩ := (mem_keys_removeKey adj b k).1 hk
    rw [adjGet_removeKey adj b k hk2, h.get k hk1, setDelete, List.filter_filter]
    refine List.filter_congr ?_
    intro x _
    rw [Bool.eq_iff_iff]
    simp only [Bool.and_eq_true, decide_eq_true_eq, mem_keys_removeKey]
    tauto

theorem Induced.mem_iff {base adj : Obj (List String)} (h : Induced base adj)
    {k x : String} (hk : k ∈ keys adj) :
    x ∈ adjGet adj k ↔ x ∈ adjGet base k ∧ x ∈ keys adj := by
  rw [h.get k hk]
  simp

theorem Induced.toGraphWF {base adj : Obj (List String)} (h : Induced base adj)
    (hb : GraphWF base) : GraphWF adj where
  nodupKeys := hb.nodupKeys.sublist h.sub
  nodup := by
    intro k
    by_cases hk : k ∈ keys adj
    · rw [h.get k hk]
      exact (hb.nodup k).filter _
    · rw [adjGet_of_not_mem hk]
      exact List.nodup_nil
  closed := by
    intro k x hx
    exact ((h.mem_iff (mem_keys_of_mem_adjGet hx)).1 hx).2
  symm := by
    intro k x hx
    have hk := mem_keys_of_mem_adjGet hx
    obtain ⟨h1, h2⟩ := (h.mem_iff hk).1 hx
    exact (h.mem_iff h2).2 ⟨hb.symm k x h1, hk⟩

theorem Sib.refl (adj : Obj (List String)) (a : String) : Sib adj a a := fun _ => Iff.rfl

theorem Sib.symm {adj : Obj (List String)} {a b : String} (h : Sib adj a b) : Sib adj b a :=
  fun x => (h x).symm

theorem Sib.trans {adj : Obj (List String)} {a b c : String} (h1 : Sib adj a b)
    (h2 : Sib adj b c) : Sib adj a c :=
  fun x => (h1 x).trans (h2 x)

/-- In a graph, the test `setEquals(adj[a], adj[b])` is the equality of neighbourhoods. -/
theorem setEquals_adj_iff {adj : Obj (List String)} (h : GraphWF adj) (a b : String) :
    setEquals (adjGet adj a) (adjGet adj b) = true ↔ Sib adj a b :=
  setEquals_iff_of_nodup (h.nodup a) (h.nodup b)

/-! ## The scan of the pairs -/

theorem pair_sublist_or {α : Type} {a b : α} : ∀ {l : List α}, a ∈ l → b ∈ l → a ≠ b →
    [a, b].Sublist l ∨ [b, a].Sublist l
  | [], ha, _, _ => absurd ha (List.not_mem_nil a)
  | x :: l, ha, hb, hab => by
    rcases List.mem_cons.1 ha with rfl | ha2
    · rcases List.mem_cons.1 hb with rfl | hb2
      · exact absurd rfl hab
      · exact Or.inl (List.Sublist.cons₂ _ (List.singleton_sublist.2 hb2))
    · rcases List.mem_cons.1 hb with rfl | hb2
      · exact Or.inr (List.Sublist.cons₂ _ (List.singleton_sublist.2 ha2))
      · rcases pair_sublist_or ha2 hb2 hab with h | h
        · exact Or.inl (List.Sublist.cons _ h)
        · exact Or.inr (List.Sublist.cons _ h)

theorem pair_sublist_nodup {α : Type} {a b : α} {l : List α} (h : [a, b].Sublist l)
    (hl : l.Nodup) : a ∈ l ∧ b ∈ l ∧ a ≠ b := by
  refine ⟨h.subset (by simp), h.subset (by simp), ?_⟩
  have := hl.sublist h
  simpa using this

theorem scan_eq_some {c : Obj (List String) → String → String → Bool}
    {adj : Obj (List String)} {b0 b1 : String} (h : scan c adj = some (b0, b1)) :
    [b0, b1].Sublist (objectKeys adj) ∧ c adj b0 b1 = true := by
  unfold scan at h
  obtain ⟨p, hp, hf⟩ := List.exists_of_findSome?_eq_some h
  rw [combinations_two, mem_subseqs] at hp
  obtain ⟨hsub, hlen⟩ := hp
  match p, hlen, hsub, hf with
  | [x, y], _, hsub, hf =>
    simp only at hf
    by_cases hc : c adj x y = true
    · rw [if_pos hc] at hf
      cases hf
      exact ⟨hsub, hc⟩
    · rw [if_neg hc] at hf
      exact Option.noConfusion hf

theorem scan_some_mem {c : Obj (List String) → String → String → Bool}
    {adj : Obj (List String)} {b0 b1 : String} (h : scan c adj = some (b0, b1))
    (hnd : (keys adj).Nodup) :
    b0 ∈ keys adj ∧ b1 ∈ keys adj ∧ b0 ≠ b1 ∧ c adj b0 b1 = true := by
  obtain ⟨hsub, hc⟩ := scan_eq_some h
  obtain ⟨h0, h1, hne⟩ := pair_sublist_nodup hsub ((nodup_objectKeys adj).2 hnd)
  exact ⟨(mem_objectKeys adj b0).1 h0, (mem_objectKeys adj b1).1 h1, hne, hc⟩

theorem scan_eq_none {c : Obj (List String) → String → String → Bool}
    {adj : Obj (List String)} (h : scan c adj = none) {b0 b1 : String}
    (h0 : b0 ∈ keys adj) (h1 : b1 ∈ keys adj) (hne : b0 ≠ b1) :
    c adj b0 b1 = false ∨ c adj b1 b0 = false := by
  unfold scan at h
  rw [List.findSome?_eq_none_iff] at h
  have key : ∀ x y, [x, y].Sublist (objectKeys adj) → c adj x y = false := by
    intro x y hsub
    have hp : [x, y] ∈ combinations (objectKeys adj) 2 := by
      rw [combinations_two, mem_subseqs]
      exact ⟨hsub, rfl⟩
    have := h [x, y] hp
    simp only at this
    by_cases hc : c adj x y = true
    · rw [if_pos hc] at this
      exact Option.noConfusion this
    · simpa using hc
  rcases pair_sublist_or ((mem_objectKeys adj b0).2 h0) ((mem_objectKeys adj b1).2 h1) hne
    with hs | hs
  · exact Or.inl (key _ _ hs)
  · exact Or.inr (key _ _ hs)

/-! ## The merge loops -/

theorem mergeLoop_induct (c : Obj (List String) → String → String → Bool)
    (m : State → String → String → State) (P : State → Prop)
    (hstep : ∀ s b0 b1, P s → scan c s.adj = some (b0, b1) → P (m s b0 b1)) :
    ∀ (fuel : Nat) (s : State), P s → P (mergeLoop c m fuel s)
  | 0, s, h => h
  | fuel + 1, s, h => by
    unfold mergeLoop
    split
    · exact h
    · rename_i b0 b1 hs
      exact mergeLoop_induct c m P hstep fuel _ (hstep s b0 b1 h hs)

/-- With a fuel of at least the number of live keys, the loop stops because a whole scan
found no pair to merge: the fuel is never what ends it. -/
theorem mergeLoop_fixed (c : Obj (List String) → String → String → Bool)
    (m : State → String → String → State)
    (hm : ∀ s b0 b1, (m s b0 b1).adj = removeKey s.adj b1) :
    ∀ (fuel : Nat) (s : State), (keys s.adj).Nodup → s.adj.length ≤ fuel →
      scan c (mergeLoop c m fuel s).adj = none
  | 0, s, _, hlen => by
    have : s.adj = [] := List.length_eq_zero.1 (Nat.le_zero.1 hlen)
    simp [mergeLoop, scan, this, objectKeys, jsKeyOrder, combinations, combinationsNat]
  | fuel + 1, s, hnd, hlen => by
    unfold mergeLoop
    split
    · assumption
    · rename_i b0 b1 hs
      obtain ⟨-, h1, -, -⟩ := scan_some_mem hs hnd
      apply mergeLoop_fixed c m hm fuel
      · rw [hm, keys_removeKey]
        exact hnd.filter _
      · rw [hm]
        have := length_removeKey_lt s.adj b1 h1
        omega

/-! ## The invariant of the merge loops -/

theorem perm_pair_rest {l : List String} (hl : l.Nodup) {a b : String} (ha : a ∈ l)
    (hb : b ∈ l) (hab : a ≠ b) :
    ∃ R, l.Perm (a :: b :: R) ∧ (l.filter (fun x => decide (x ≠ a))).Perm (b :: R) ∧
      b ∉ R := by
  refine ⟨(l.erase a).erase b, ?_, ?_, ?_⟩
  · have h1 := List.perm_cons_erase ha
    have hb2 : b ∈ l.erase a := (List.mem_erase_of_ne (Ne.symm hab)).2 hb
    exact h1.trans ((List.perm_cons_erase hb2).cons a)
  · have hb2 : b ∈ l.erase a := (List.mem_erase_of_ne (Ne.symm hab)).2 hb
    have hf : l.filter (fun x => decide (x ≠ a)) = l.erase a := by
      rw [hl.erase_eq_filter a]
      refine List.filter_congr ?_
      intro x _
      by_cases hx : x = a <;> simp [hx]
    rw [hf]
    exact List.perm_cons_erase hb2
  · intro hmem
    have hnd : (l.erase a).Nodup := hl.erase a
    exact ((hnd.mem_erase_iff).1 hmem).1 rfl

theorem flatMap_merge_perm {ι : Type} {l : List String} (hl : l.Nodup) {b0 b1 : String}
    (h0 : b0 ∈ l) (h1 : b1 ∈ l) (hne : b0 ≠ b1) (f g : String → List ι)
    (hg0 : (g b0).Perm (f b0 ++ f b1)) (hg : ∀ k, k ≠ b0 → g k = f k) :
    ((l.filter (fun x => decide (x ≠ b1))).flatMap g).Perm (l.flatMap f) := by
  obtain ⟨R, hp1, hp2, hR⟩ := perm_pair_rest hl h1 h0 (Ne.symm hne)
  have hR2 : R.flatMap g = R.flatMap f :=
    List.flatMap_congr (fun k hk => hg k (fun hk0 => hR (hk0 ▸ hk)))
  have e1 : ((l.filter (fun x => decide (x ≠ b1))).flatMap g).Perm (g b0 ++ R.flatMap f) := by
    have := hp2.flatMap_right g
    rwa [List.flatMap_cons, hR2] at this
  have e2 : (l.flatMap f).Perm (f b1 ++ (f b0 ++ R.flatMap f)) := by
    have := hp1.flatMap_right f
    rwa [List.flatMap_cons, List.flatMap_cons] at this
  have e3 : (g b0 ++ R.flatMap f).Perm (f b1 ++ (f b0 ++ R.flatMap f)) := by
    rw [← List.append_assoc]
    exact (hg0.trans List.perm_append_comm).append_right _
  exact (e1.trans e3).trans e2.symm

theorem nodup_pair_of_flatMap {ι : Type} {l : List String} (hl : l.Nodup) {b0 b1 : String}
    (h0 : b0 ∈ l) (h1 : b1 ∈ l) (hne : b0 ≠ b1) (f : String → List ι)
    (hnd : (l.flatMap f).Nodup) : (f b0 ++ f b1).Nodup := by
  obtain ⟨R, hp1, -, -⟩ := perm_pair_rest hl h0 h1 hne
  have := (hp1.flatMap_right f).nodup_iff.1 hnd
  rw [List.flatMap_cons, List.flatMap_cons, ← List.append_assoc] at this
  exact (List.nodup_append.1 this).1

section InvLemmas

variable {ι : Type} {base : Obj (List String)} {own : String → List ι}
  {grp : Obj (List (List String)) → String → List ι}

theorem Inv.liveGraphWF {s : State} (h : Inv base own grp s) (hb : GraphWF base) :
    GraphWF s.adj :=
  h.induced.toGraphWF hb

theorem Inv.mem_base {s : State} (h : Inv base own grp s) {k : String}
    (hk : k ∈ keys s.adj) : k ∈ keys base :=
  h.induced.sub.subset hk

theorem Inv.sib_mono {s : State} (h : Inv base own grp s) (hb : GraphWF base)
    {a b : String} (ha : a ∈ keys s.adj) (hb1 : b ∈ keys s.adj) (hs : Sib s.adj a b)
    {x : String} (hx : x ∈ adjGet base a) : x ∈ adjGet base b := by
  obtain ⟨k, hk, hxk, -⟩ := h.cover x (hb.closed a x hx)
  have h1 : a ∈ adjGet base k := (hxk a).1 (hb.symm a x hx)
  have h2 : k ∈ adjGet s.adj a := (h.induced.mem_iff ha).2 ⟨hb.symm k a h1, hk⟩
  have h3 : k ∈ adjGet base b := ((h.induced.mem_iff hb1).1 ((hs k).1 h2)).1
  exact hb.symm x b ((hxk b).2 (hb.symm b k h3))

/-- Two live keys with equal adjacency sets in the live graph have equal adjacency sets in
the graph the loop started from. -/
theorem Inv.sib_base {s : State} (h : Inv base own grp s) (hb : GraphWF base)
    {a b : String} (ha : a ∈ keys s.adj) (hb1 : b ∈ keys s.adj) (hs : Sib s.adj a b) :
    Sib base a b :=
  fun _ => ⟨h.sib_mono hb ha hb1 hs, h.sib_mono hb hb1 ha hs.symm⟩

theorem Inv.sib_live {s : State} (h : Inv base own grp s)
    {a b : String} (ha : a ∈ keys s.adj) (hb1 : b ∈ keys s.adj) (hs : Sib base a b) :
    Sib s.adj a b := by
  intro x
  rw [h.induced.mem_iff ha, h.induced.mem_iff hb1, hs x]

theorem Inv.step {s t : State} (h : Inv base own grp s) (hb : GraphWF base)
    {b0 b1 : String} (h0 : b0 ∈ keys s.adj) (h1 : b1 ∈ keys s.adj) (hne : b0 ≠ b1)
    (heq : setEquals (adjGet s.adj b0) (adjGet s.adj b1) = true)
    (hadj : t.adj = removeKey s.adj b1)
    (hg0 : (grp t.labels b0).Perm (grp s.labels b0 ++ grp s.labels b1))
    (hg : ∀ k, k ≠ b0 → grp t.labels k = grp s.labels k) : Inv base own grp t := by
  have hwf := h.liveGraphWF hb
  have hsib : Sib base b0 b1 := h.sib_base hb h0 h1 ((setEquals_adj_iff hwf b0 b1).1 heq)
  have hkeys : ∀ k, k ∈ keys t.adj ↔ k ∈ keys s.adj ∧ k ≠ b1 := by
    intro k
    rw [hadj]
    exact mem_keys_removeKey s.adj b1 k
  have hb0 : b0 ∈ keys t.adj := (hkeys b0).2 ⟨h0, hne⟩
  refine ⟨?_, ?_, ?_, ?_⟩
  · rw [hadj]
    exact h.induced.afterRemoveKey b1
  · rw [hadj, keys_removeKey]
    exact (flatMap_merge_perm hwf.nodupKeys h0 h1 hne (grp s.labels) (grp t.labels) hg0
      hg).trans h.perm
  · intro k hk i hi
    obtain ⟨hk1, _⟩ := (hkeys k).1 hk
    by_cases hk0 : k = b0
    · subst hk0
      rcases List.mem_append.1 (hg0.mem_iff.1 hi) with hi2 | hi2
      · exact h.sound k h0 i hi2
      · obtain ⟨r, hr, hir, hs⟩ := h.sound b1 h1 i hi2
        exact ⟨r, hr, hir, hs.trans hsib.symm⟩
    · rw [hg k hk0] at hi
      exact h.sound k hk1 i hi
  · intro r hr
    obtain ⟨k, hk, hs, hi⟩ := h.cover r hr
    by_cases hk1 : k = b1
    · subst hk1
      refine ⟨b0, hb0, hs.trans hsib.symm, fun i hir => ?_⟩
      exact hg0.mem_iff.2 (List.mem_append.2 (Or.inr (hi i hir)))
    · refine ⟨k, (hkeys k).2 ⟨hk, hk1⟩, hs, fun i hir => ?_⟩
      by_cases hk0 : k = b0
      · subst hk0
        exact hg0.mem_iff.2 (List.mem_append.2 (Or.inl (hi i hir)))
      · rw [hg k hk0]
        exact hi i hir

/-- At a state where the scan finds no pair, two live keys with the same neighbours in the
base graph are the same key. -/
theorem Inv.eq_of_sib {s : State} (h : Inv base own grp s)
    {c : Obj (List String) → String → String → Bool}
    (hc : ∀ a b, a ∈ keys s.adj → b ∈ keys s.adj → Sib s.adj a b → c s.adj a b = true)
    (hfix : scan c s.adj = none) {a b : String} (ha : a ∈ keys s.adj)
    (hb1 : b ∈ keys s.adj) (hs : Sib base a b) : a = b := by
  by_contra hne
  have hl := h.sib_live ha hb1 hs
  rcases scan_eq_none hfix ha hb1 hne with h1 | h1
  · rw [hc a b ha hb1 hl] at h1
    exact Bool.noConfusion h1
  · rw [hc b a hb1 ha hl.symm] at h1
    exact Bool.noConfusion h1

end InvLemmas

/-! ## The initial state -/

theorem adjacent_symm {edges : List Edge} {u v : String} (h : adjacent edges u v) :
    adjacent edges v u := by
  obtain ⟨e, he, h1 | h1⟩ := h
  · exact ⟨e, he, Or.inr ⟨h1.2, h1.1⟩⟩
  · exact ⟨e, he, Or.inl ⟨h1.2, h1.1⟩⟩

theorem foldl_objSet {β : Type} (f : String → β) : ∀ (nodes : List String) (o : Obj β),
    (keys o).Nodup →
      (keys ((nodes.map (fun n => (n, f n))).foldl (fun o e => objSet o e.1 e.2) o)).Nodup ∧
      (∀ k, k ∈ keys ((nodes.map (fun n => (n, f n))).foldl (fun o e => objSet o e.1 e.2) o) ↔
        k ∈ keys o ∨ k ∈ nodes) ∧
      (∀ k, objGet ((nodes.map (fun n => (n, f n))).foldl (fun o e => objSet o e.1 e.2) o) k =
        if k ∈ nodes then some (f k) else objGet o k)
  | [], o, h => by simp [h]
  | n :: ns, o, h => by
    have hnd : (keys (objSet o n (f n))).Nodup := by
      rw [keys_objSet]
      split
      · exact h
      · rename_i hn
        exact List.nodup_append.2 ⟨h, List.nodup_singleton n, by
          intro a ha hb
          rw [List.mem_singleton] at hb
          subst hb
          exact hn ha⟩
    obtain ⟨h1, h2, h3⟩ := foldl_objSet f ns (objSet o n (f n)) hnd
    simp only [List.map_cons, List.foldl_cons]
    refine ⟨h1, ?_, ?_⟩
    · intro k
      rw [h2 k, keys_objSet]
      by_cases hn : n ∈ keys o
      · rw [if_pos hn]
        constructor
        · rintro (hk | hk)
          · exact Or.inl hk
          · exact Or.inr (List.mem_cons_of_mem n hk)
        · rintro (hk | hk)
          · exact Or.inl hk
          · rcases List.mem_cons.1 hk with rfl | hk
            · exact Or.inl hn
            · exact Or.inr hk
      · rw [if_neg hn]
        simp only [List.mem_append, List.mem_singleton, List.mem_cons]
        tauto
    · intro k
      rw [h3 k, objGet_objSet]
      by_cases hk : k ∈ ns
      · simp [hk]
      · by_cases hkn : k = n
        · subst hkn
          simp
        · simp [hk, hkn]

theorem objectFromEntries_nodes {β : Type} (f : String → β) (nodes : List String) :
    (keys (objectFromEntries (nodes.map (fun n => (n, f n))))).Nodup ∧
    (∀ k, k ∈ keys (objectFromEntries (nodes.map (fun n => (n, f n)))) ↔ k ∈ nodes) ∧
    (∀ k, objGet (objectFromEntries (nodes.map (fun n => (n, f n)))) k =
      if k ∈ nodes then some (f k) else none) := by
  obtain ⟨h1, h2, h3⟩ := foldl_objSet f nodes [] (by simp [keys])
  refine ⟨h1, ?_, ?_⟩
  · intro k
    have := h2 k
    simpa [keys] using this
  · intro k
    have := h3 k
    simpa [objGet] using this

theorem addEdge_spec (adj : Obj (List String)) (e : Edge) (hf : e.from_ ∈ keys adj)
    (ht : e.to_ ∈ keys adj) :
    ∃ adj2, addEdge adj e = some adj2 ∧ keys adj2 = keys adj ∧
      (∀ k x, x ∈ adjGet adj2 k ↔
        x ∈ adjGet adj k ∨ (e.from_ = k ∧ e.to_ = x) ∨ (e.to_ = k ∧ e.from_ = x)) ∧
      ((∀ k, (adjGet adj k).Nodup) → ∀ k, (adjGet adj2 k).Nodup) := by
  obtain ⟨s, hs⟩ := objGet_of_mem_keys hf
  have hk1 : keys (objSet adj e.from_ (setAdd s e.to_)) = keys adj := by
    rw [keys_objSet, if_pos hf]
  have ht1 : e.to_ ∈ keys (objSet adj e.from_ (setAdd s e.to_)) := by rw [hk1]; exact ht
  obtain ⟨t, ht2⟩ := objGet_of_mem_keys ht1
  have hget1 : ∀ k, adjGet (objSet adj e.from_ (setAdd s e.to_)) k =
      if k = e.from_ then setAdd (adjGet adj e.from_) e.to_ else adjGet adj k := by
    intro k
    unfold adjGet
    rw [objGet_objSet, hs]
    by_cases hk : k = e.from_
    · simp [hk]
    · simp [hk]
  have htt : t = adjGet (objSet adj e.from_ (setAdd s e.to_)) e.to_ := by
    simp [adjGet, ht2]
  have hget2 : ∀ k, adjGet (objSet (objSet adj e.from_ (setAdd s e.to_)) e.to_
      (setAdd t e.from_)) k =
      if k = e.to_ then setAdd t e.from_
      else adjGet (objSet adj e.from_ (setAdd s e.to_)) k := by
    intro k
    unfold adjGet
    rw [objGet_objSet]
    by_cases hk : k = e.to_
    · simp [hk]
    · simp [hk]
  refine ⟨objSet (objSet adj e.from_ (setAdd s e.to_)) e.to_ (setAdd t e.from_), ?_, ?_, ?_, ?_⟩
  · simp [addEdge, hs, ht2]
  · rw [keys_objSet, if_pos ht1, hk1]
  · intro k x
    rw [hget2 k]
    by_cases hk : k = e.to_
    · rw [if_pos hk, mem_setAdd, htt, hget1]
      by_cases hk2 : e.to_ = e.from_
      · rw [if_pos hk2, mem_setAdd]
        subst hk
        rw [hk2]
        constructor
        · rintro ((h | h) | h)
          · exact Or.inl h
          · exact Or.inr (Or.inl ⟨rfl, h.symm⟩)
          · exact Or.inr (Or.inl ⟨rfl, h.symm⟩)
        · rintro (h | ⟨_, h⟩ | ⟨_, h⟩)
          · exact Or.inl (Or.inl h)
          · exact Or.inr h.symm
          · exact Or.inr h.symm
      · rw [if_neg hk2]
        subst hk
        constructor
        · rintro (h | h)
          · exact Or.inl h
          · exact Or.inr (Or.inr ⟨rfl, h.symm⟩)
        · rintro (h | ⟨h1, _⟩ | ⟨_, h⟩)
          · exact Or.inl h
          · exact absurd h1.symm hk2
          · exact Or.inr h.symm
    · rw [if_neg hk, hget1]
      by_cases hk2 : k = e.from_
      · rw [if_pos hk2, mem_setAdd]
        subst hk2
        constructor
        · rintro (h | h)
          · exact Or.inl h
          · exact Or.inr (Or.inl ⟨rfl, h.symm⟩)
        · rintro (h | ⟨_, h⟩ | ⟨h1, _⟩)
          · exact Or.inl h
          · exact Or.inr h.symm
          · exact absurd h1.symm hk
      · rw [if_neg hk2]
        constructor
        · exact fun h => Or.inl h
        · rintro (h | ⟨h1, _⟩ | ⟨h1, _⟩)
          · exact h
          · exact absurd h1.symm hk2
          · exact absurd h1.symm hk
  · intro hnd k
    rw [hget2 k]
    have hnd1 : ∀ k, (adjGet (objSet adj e.from_ (setAdd s e.to_)) k).Nodup := by
      intro k
      rw [hget1 k]
      split
      · exact nodup_setAdd _ (hnd _)
      · exact hnd k
    split
    · rw [htt]
      exact nodup_setAdd _ (hnd1 _)
    · exact hnd1 k

theorem foldlM_addEdge (edges : List Edge) : ∀ (adj : Obj (List String)),
    (∀ e ∈ edges, e.from_ ∈ keys adj ∧ e.to_ ∈ keys adj) →
    ∃ adj2, edges.foldlM addEdge adj = some adj2 ∧ keys adj2 = keys adj ∧
      (∀ k x, x ∈ adjGet adj2 k ↔ x ∈ adjGet adj k ∨ adjacent edges k x) ∧
      ((∀ k, (adjGet adj k).Nodup) → ∀ k, (adjGet adj2 k).Nodup) := by
  induction edges with
  | nil =>
    intro adj _
    exact ⟨adj, rfl, rfl, by simp [adjacent], fun h => h⟩
  | cons e es ih =>
    intro adj h
    obtain ⟨hf, ht⟩ := h e (List.mem_cons_self e es)
    obtain ⟨adj1, h1, h2, h3, h4⟩ := addEdge_spec adj e hf ht
    obtain ⟨adj2, g1, g2, g3, g4⟩ := ih adj1 (by
      intro e2 he2
      rw [h2]
      exact h e2 (List.mem_cons_of_mem e he2))
    refine ⟨adj2, ?_, g2.trans h2, ?_, fun hnd => g4 (h4 hnd)⟩
    · rw [List.foldlM_cons, h1]
      exact g1
    · intro k x
      rw [g3 k x, h3 k x]
      constructor
      · rintro ((hx | hx | hx) | ⟨e2, he2, hx⟩)
        · exact Or.inl hx
        · exact Or.inr ⟨e, List.mem_cons_self e es, Or.inl hx⟩
        · exact Or.inr ⟨e, List.mem_cons_self e es, Or.inr hx⟩
        · exact Or.inr ⟨e2, List.mem_cons_of_mem e he2, hx⟩
      · rintro (hx | ⟨e2, he2, hx⟩)
        · exact Or.inl (Or.inl hx)
        · rcases List.mem_cons.1 he2 with rfl | he3
          · rcases hx with hx | hx
            · exact Or.inl (Or.inr (Or.inl hx))
            · exact Or.inl (Or.inr (Or.inr hx))
          · exact Or.inr ⟨e2, he3, hx⟩

/-! ## The run of `reduce` -/

theorem labelsGet_objSet (labels : Obj (List (List String))) (k k2 : String)
    (v : List (List String)) :
    labelsGet (objSet labels k v) k2 = if k2 = k then v else labelsGet labels k2 := by
  unfold labelsGet
  rw [objGet_objSet]
  by_cases h : k2 = k
  · simp [h]
  · simp [h]

theorem keys_removeSelfLoops (adj : Obj (List String)) :
    keys (removeSelfLoops adj) = keys adj :=
  keys_map_val adj (fun k s => setDelete s k)

theorem adjGet_removeSelfLoops (adj : Obj (List String)) (k : String) :
    adjGet (removeSelfLoops adj) k = setDelete (adjGet adj k) k := by
  unfold removeSelfLoops adjGet
  rw [objGet_map_val adj (fun k s => setDelete s k)]
  cases objGet adj k with
  | none => rfl
  | some v => rfl

theorem mem_adjGet_removeSelfLoops (adj : Obj (List String)) (k x : String) :
    x ∈ adjGet (removeSelfLoops adj) k ↔ x ∈ adjGet adj k ∧ x ≠ k := by
  rw [adjGet_removeSelfLoops, mem_setDelete]

theorem GraphWF.afterRemoveSelfLoops {adj : Obj (List String)} (h : GraphWF adj) :
    GraphWF (removeSelfLoops adj) where
  nodupKeys := by rw [keys_removeSelfLoops]; exact h.nodupKeys
  nodup := by
    intro k
    rw [adjGet_removeSelfLoops]
    exact nodup_setDelete _ (h.nodup k)
  closed := by
    intro k x hx
    rw [keys_removeSelfLoops]
    exact h.closed k x ((mem_adjGet_removeSelfLoops adj k x).1 hx).1
  symm := by
    intro k x hx
    obtain ⟨h1, h2⟩ := (mem_adjGet_removeSelfLoops adj k x).1 hx
    exact (mem_adjGet_removeSelfLoops adj x k).2 ⟨h.symm k x h1, Ne.symm h2⟩

theorem initState_spec (nodes : List String) (edges : List Edge)
    (hwf : WellFormed nodes edges) :
    ∃ s0, initState nodes edges = some s0 ∧ GraphWF s0.adj ∧
      (∀ k, k ∈ keys s0.adj ↔ k ∈ nodes) ∧
      (∀ k x, x ∈ adjGet s0.adj k ↔ k ∈ nodes ∧ (x = k ∨ adjacent edges k x)) ∧
      (∀ k ∈ nodes, labelsGet s0.labels k = [[k]]) ∧
      keys s0.adj = keys (objectFromEntries (nodes.map (fun node => (node, setOf [node])))) := by
  obtain ⟨a1, a2, a3⟩ := objectFromEntries_nodes (fun node => setOf [node]) nodes
  obtain ⟨l1, l2, l3⟩ := objectFromEntries_nodes (fun node => [setOf [node]]) nodes
  have hget : ∀ k, adjGet (objectFromEntries (nodes.map (fun node => (node, setOf [node])))) k =
      if k ∈ nodes then [k] else [] := by
    intro k
    unfold adjGet
    rw [a3 k]
    by_cases hk : k ∈ nodes
    · simp [hk, setOf, setAdd]
    · simp [hk]
  obtain ⟨adj, h1, h2, h3, h4⟩ := foldlM_addEdge edges
    (objectFromEntries (nodes.map (fun node => (node, setOf [node])))) (by
      intro e he
      rw [a2, a2]
      exact hwf e he)
  have hadj : ∀ k x, x ∈ adjGet adj k ↔ k ∈ nodes ∧ (x = k ∨ adjacent edges k x) := by
    intro k x
    rw [h3 k x, hget k]
    by_cases hk : k ∈ nodes
    · simp [hk]
    · simp only [hk, if_false, List.not_mem_nil, false_or, false_and, iff_false]
      rintro ⟨e, he, hx | hx⟩
      · exact hk (hx.1 ▸ (hwf e he).1)
      · exact hk (hx.1 ▸ (hwf e he).2)
  have hkeys : ∀ k, k ∈ keys adj ↔ k ∈ nodes := by
    intro k
    rw [h2, a2]
  refine ⟨⟨adj, objectFromEntries (nodes.map (fun node => (node, [setOf [node]])))⟩, ?_, ?_,
    hkeys, hadj, ?_, h2⟩
  · simp [initState, h1]
  · refine ⟨?_, ?_, ?_, ?_⟩
    · show (keys adj).Nodup
      rw [h2]
      exact a1
    · refine h4 ?_
      intro k
      rw [hget k]
      split <;> simp
    · intro k x hx
      obtain ⟨hk, hx2⟩ := (hadj k x).1 hx
      apply (hkeys x).2
      rcases hx2 with rfl | ⟨e, he, hx3 | hx3⟩
      · exact hk
      · exact hx3.2 ▸ (hwf e he).2
      · exact hx3.2 ▸ (hwf e he).1
    · intro k x hx
      obtain ⟨hk, hx2⟩ := (hadj k x).1 hx
      have hxn : x ∈ nodes := by
        rcases hx2 with rfl | ⟨e, he, hx3 | hx3⟩
        · exact hk
        · exact hx3.2 ▸ (hwf e he).2
        · exact hx3.2 ▸ (hwf e he).1
      refine (hadj x k).2 ⟨hxn, ?_⟩
      rcases hx2 with rfl | hx3
      · exact Or.inl rfl
      · exact Or.inr (adjacent_symm hx3)
  · intro k hk
    show labelsGet (objectFromEntries (nodes.map (fun node => (node, [setOf [node]])))) k = [[k]]
    unfold labelsGet
    rw [l3 k, if_pos hk]
    simp [setOf, setAdd]

theorem inv1_init {s0 : State} (hwf : GraphWF s0.adj)
    (hl : ∀ k ∈ keys s0.adj, labelsGet s0.labels k = [[k]]) :
    Inv s0.adj (fun r => [r]) members s0 where
  induced := Induced.self hwf
  perm := by
    have : (keys s0.adj).flatMap (members s0.labels) = (keys s0.adj).flatMap (fun r => [r]) :=
      List.flatMap_congr (fun k hk => by simp [members, hl k hk])
    rw [this]
  sound := by
    intro k hk i hi
    rw [members, hl k hk] at hi
    have : i = k := by simpa using hi
    subst this
    exact ⟨i, hk, by simp, Sib.refl _ _⟩
  cover := by
    intro r hr
    refine ⟨r, hr, Sib.refl _ _, fun i hi => ?_⟩
    have : i = r := by simpa using hi
    subst this
    simp [members, hl i hr]

theorem inv1_step {base : Obj (List String)} (hb : GraphWF base) (s : State) (b0 b1 : String)
    (h : Inv base (fun r => [r]) members s ∧ ∀ k ∈ keys s.adj, ∃ c, labelsGet s.labels k = [c])
    (hs : scan cond1 s.adj = some (b0, b1)) :
    Inv base (fun r => [r]) members (merge1 s b0 b1) ∧
      ∀ k ∈ keys (merge1 s b0 b1).adj, ∃ c, labelsGet (merge1 s b0 b1).labels k = [c] := by
  obtain ⟨hinv, hsingle⟩ := h
  have hwf := hinv.liveGraphWF hb
  obtain ⟨h0, h1, hne, hc⟩ := scan_some_mem hs hwf.nodupKeys
  have heq : setEquals (adjGet s.adj b0) (adjGet s.adj b1) = true := by
    simp only [cond1, Bool.and_eq_true] at hc
    exact hc.2
  obtain ⟨c0, hc0⟩ := hsingle b0 h0
  obtain ⟨c1, hc1⟩ := hsingle b1 h1
  have hnd : (c0 ++ c1).Nodup := by
    have hflat : ((keys s.adj).flatMap (members s.labels)).Nodup := by
      refine hinv.perm.nodup_iff.2 ?_
      have : (keys base).flatMap (fun r => [r]) = keys base := by simp
      rw [this]
      exact hb.nodupKeys
    have := nodup_pair_of_flatMap hwf.nodupKeys h0 h1 hne (members s.labels) hflat
    simpa [members, hc0, hc1] using this
  have hlab : ∀ k, labelsGet (merge1 s b0 b1).labels k =
      if k = b0 then [c0 ++ c1] else labelsGet s.labels k := by
    intro k
    simp only [merge1]
    rw [labelsGet_objSet, hc0, hc1]
    simp [setFirst, setOf_of_nodup hnd]
  refine ⟨hinv.step hb h0 h1 hne heq rfl ?_ ?_, ?_⟩
  · simp [members, hlab, hc0, hc1]
  · intro k hk
    simp [members, hlab, hk]
  · intro k hk
    rw [hlab k]
    by_cases hk0 : k = b0
    · exact ⟨c0 ++ c1, by simp [hk0]⟩
    · rw [if_neg hk0]
      exact hsingle k ((mem_keys_removeKey s.adj b1 k).1 hk).1

theorem inv2_init (adj : Obj (List String)) (labels : Obj (List (List String)))
    (hwf : GraphWF adj) :
    Inv adj (labelsGet labels) labelsGet { adj := adj, labels := labels } where
  induced := Induced.self hwf
  perm := List.Perm.refl _
  sound := fun k hk _ hi => ⟨k, hk, hi, Sib.refl _ _⟩
  cover := fun r hr => ⟨r, hr, Sib.refl _ _, fun _ hi => hi⟩

theorem inv2_step {base : Obj (List String)} {own : String → List (List String)}
    (hb : GraphWF base) (s : State) (b0 b1 : String)
    (h : Inv base own labelsGet s) (hs : scan cond2 s.adj = some (b0, b1)) :
    Inv base own labelsGet (merge2 s b0 b1) := by
  have hwf := h.liveGraphWF hb
  obtain ⟨h0, h1, hne, hc⟩ := scan_some_mem hs hwf.nodupKeys
  refine h.step hb h0 h1 hne hc rfl ?_ ?_
  · simp [merge2, labelsGet_objSet]
  · intro k hk
    simp [merge2, labelsGet_objSet, hk]

theorem reduce_run (nodes : List String) (edges : List Edge) (hwf : WellFormed nodes edges) :
    ∃ s0 s1 s2, Run nodes edges s0 s1 s2 := by
  obtain ⟨s0, hinit, hwf0, hkeys0, hadj0, hlab0, -⟩ := initState_spec nodes edges hwf
  have hl0 : ∀ k ∈ keys s0.adj, labelsGet s0.labels k = [[k]] :=
    fun k hk => hlab0 k ((hkeys0 k).1 hk)
  have h1 := mergeLoop_induct cond1 merge1
    (fun s => Inv s0.adj (fun r => [r]) members s ∧
      ∀ k ∈ keys s.adj, ∃ c, labelsGet s.labels k = [c])
    (fun s b0 b1 h hs => inv1_step hwf0 s b0 b1 h hs) s0.adj.length s0
    ⟨inv1_init hwf0 hl0, fun k hk => ⟨[k], hl0 k hk⟩⟩
  have hfix1 := mergeLoop_fixed cond1 merge1 (fun _ _ _ => rfl) s0.adj.length s0
    hwf0.nodupKeys (le_refl _)
  have hwf1 : GraphWF (removeSelfLoops (pass1 s0.adj.length s0).adj) :=
    (h1.1.liveGraphWF hwf0).afterRemoveSelfLoops
  have h2 := mergeLoop_induct cond2 merge2
    (fun s => Inv (removeSelfLoops (pass1 s0.adj.length s0).adj)
      (labelsGet (pass1 s0.adj.length s0).labels) labelsGet s)
    (fun s b0 b1 h hs => inv2_step hwf1 s b0 b1 h hs)
    (removeSelfLoops (pass1 s0.adj.length s0).adj).length
    { adj := removeSelfLoops (pass1 s0.adj.length s0).adj,
      labels := (pass1 s0.adj.length s0).labels }
    (inv2_init _ _ hwf1)
  have hfix2 := mergeLoop_fixed cond2 merge2 (fun _ _ _ => rfl)
    (removeSelfLoops (pass1 s0.adj.length s0).adj).length
    { adj := removeSelfLoops (pass1 s0.adj.length s0).adj,
      labels := (pass1 s0.adj.length s0).labels }
    hwf1.nodupKeys (le_refl _)
  refine ⟨s0, pass1 s0.adj.length s0,
    pass2 (removeSelfLoops (pass1 s0.adj.length s0).adj).length
      { adj := removeSelfLoops (pass1 s0.adj.length s0).adj,
        labels := (pass1 s0.adj.length s0).labels }, ?_⟩
  exact {
    result := by simp [reduce, hinit]
    wf0 := hwf0
    keys0 := hkeys0
    adj0 := hadj0
    inv1 := h1.1
    single1 := h1.2
    fixed1 := hfix1
    wf1 := hwf1
    inv2 := h2
    fixed2 := hfix2 }

/-! ## Consequences of a run -/

theorem flatten_flatMap {α β : Type} (l : List α) (f : α → List (List β)) :
    (l.flatMap f).flatten = l.flatMap (fun a => (f a).flatten) := by
  induction l with
  | nil => rfl
  | cons a l ih => simp [List.flatMap_cons, ih]

theorem countP_flatMap_eq_one {α β : Type} [DecidableEq β] (f : α → List β) (u : β) :
    ∀ L : List α, (L.flatMap f).Nodup → u ∈ L.flatMap f →
      L.countP (fun a => decide (u ∈ f a)) = 1
  | [], _, h => absurd h (List.not_mem_nil u)
  | a :: L, hnd, hu => by
    rw [List.flatMap_cons] at hnd hu
    obtain ⟨h1, h2, h3⟩ := List.nodup_append.1 hnd
    by_cases ha : u ∈ f a
    · have : L.countP (fun a => decide (u ∈ f a)) = 0 := by
        rw [List.countP_eq_zero]
        intro b hb hub
        exact h3 ha (List.mem_flatMap.2 ⟨b, hb, by simpa using hub⟩)
      rw [List.countP_cons, this]
      simp [ha]
    · rw [List.countP_cons]
      simp only [ha, decide_False, Bool.false_eq_true, if_false, Nat.add_zero]
      rcases List.mem_append.1 hu with hu1 | hu1
      · exact absurd hu1 ha
      · exact countP_flatMap_eq_one f u L h2 hu1

section RunLemmas

variable {nodes : List String} {edges : List Edge} {s0 s1 s2 : State}

theorem Run.labelGroups_eq (R : Run nodes edges s0 s1 s2) :
    labelGroups nodes edges =
      some ((objectKeys s2.adj).map (fun k => (k, labelsGet s2.labels k))) := by
  simp [labelGroups, R.result]

theorem Run.createMergedGraph_eq (R : Run nodes edges s0 s1 s2) :
    createMergedGraph nodes edges =
      some { nodes := finalNodes s2, edges := finalEdges s2 } := by
  simp [createMergedGraph, R.result]

theorem finalNodes_eq (s : State) :
    finalNodes s = ((objectKeys s.adj).map (fun k => (k, labelsGet s.labels k))).map
      metaNodeOf := by
  simp [finalNodes, metaNodeOf, Function.comp_def]

theorem Run.mem_keys1 (R : Run nodes edges s0 s1 s2) {k : String} (hk : k ∈ keys s2.adj) :
    k ∈ keys s1.adj := by
  have := R.inv2.mem_base hk
  rwa [keys_removeSelfLoops] at this

theorem Run.mem_nodes (R : Run nodes edges s0 s1 s2) {k : String} (hk : k ∈ keys s1.adj) :
    k ∈ nodes :=
  (R.keys0 k).1 (R.inv1.mem_base hk)

theorem Run.wf2 (R : Run nodes edges s0 s1 s2) : GraphWF s2.adj :=
  R.inv2.liveGraphWF R.wf1

theorem Run.members_perm (R : Run nodes edges s0 s1 s2) :
    ((objectKeys s2.adj).flatMap (members s2.labels)).Perm (keys s0.adj) := by
  have h1 : ((objectKeys s2.adj).flatMap (members s2.labels)).Perm
      ((keys s2.adj).flatMap (members s2.labels)) :=
    (objectKeys_perm s2.adj).flatMap_right _
  have h2 : ((keys s2.adj).flatMap (members s2.labels)).Perm
      ((keys s1.adj).flatMap (members s1.labels)) := by
    have := R.inv2.perm.flatten
    rw [flatten_flatMap, flatten_flatMap, keys_removeSelfLoops] at this
    exact this
  have h3 : ((keys s1.adj).flatMap (members s1.labels)).Perm (keys s0.adj) := by
    have := R.inv1.perm
    simpa using this
  exact (h1.trans h2).trans h3

theorem Run.members_nodup (R : Run nodes edges s0 s1 s2) :
    ((objectKeys s2.adj).flatMap (members s2.labels)).Nodup :=
  R.members_perm.nodup_iff.2 R.wf0.nodupKeys

theorem Run.mem_members_iff (R : Run nodes edges s0 s1 s2) (u : String) :
    u ∈ (objectKeys s2.adj).flatMap (members s2.labels) ↔ u ∈ nodes := by
  rw [R.members_perm.mem_iff, R.keys0]

end RunLemmas

/-- C1: for a duplicate-free node list and edges between listed nodes, the clusters of
the output Label Groups partition the input nodes: the list of all cluster members of
all output metanodes is a rearrangement of the node list, so every node is in exactly one
Label Group, in exactly one cluster of it, and no cluster holds anything else. -/
theorem createMergedGraph_partition (nodes : List String) (edges : List Edge)
    (hnd : nodes.Nodup) (hwf : WellFormed nodes edges) :
    ∃ groups, labelGroups nodes edges = some groups ∧
      (createMergedGraph nodes edges).map MergedGraph.nodes = some (groups.map metaNodeOf) ∧
      (groups.flatMap (fun g => g.2.flatten)).Perm nodes ∧
      (∀ u ∈ nodes, groups.countP (fun g => decide (u ∈ g.2.flatten)) = 1 ∧
        ∀ g ∈ groups, u ∈ g.2.flatten → g.2.countP (fun c => decide (u ∈ c)) = 1) ∧
      (∀ g ∈ groups, ∀ c ∈ g.2, ∀ u ∈ c, u ∈ nodes) := by
  obtain ⟨s0, s1, s2, R⟩ := reduce_run nodes edges hwf
  have hflat : ((objectKeys s2.adj).map (fun k => (k, labelsGet s2.labels k))).flatMap
      (fun g => g.2.flatten) = (objectKeys s2.adj).flatMap (members s2.labels) := by
    rw [List.flatMap_map]
    rfl
  have hperm0 : (keys s0.adj).Perm nodes :=
    (List.perm_ext_iff_of_nodup R.wf0.nodupKeys hnd).2 R.keys0
  refine ⟨_, R.labelGroups_eq, ?_, ?_, ?_, ?_⟩
  · rw [R.createMergedGraph_eq, finalNodes_eq]
    rfl
  · rw [hflat]
    exact R.members_perm.trans hperm0
  · intro u hu
    have hnodup := R.members_nodup
    rw [← hflat] at hnodup
    have hmem : u ∈ ((objectKeys s2.adj).map (fun k => (k, labelsGet s2.labels k))).flatMap
        (fun g => g.2.flatten) := by
      rw [hflat]
      exact (R.mem_members_iff u).2 hu
    refine ⟨countP_flatMap_eq_one _ u _ hnodup hmem, ?_⟩
    intro g hg hug
    have hgn : g.2.flatten.Nodup := (List.nodup_flatMap.1 hnodup).1 g hg
    exact countP_flatMap_eq_one (id : List String → List String) u g.2
      (by rw [List.flatMap_id]; exact hgn) (by rw [List.flatMap_id]; exact hug)
  · intro g hg c hc u hu
    apply (R.mem_members_iff u).1
    rw [← hflat]
    exact List.mem_flatMap.2 ⟨g, hg, List.mem_flatten.2 ⟨c, hc, hu⟩⟩

theorem createMergedGraph_partition_witness :
    ["A", "B", "C"].Nodup ∧
      WellFormed ["A", "B", "C"] [⟨"A", "B"⟩, ⟨"A", "C"⟩] ∧
      ∃ groups, labelGroups ["A", "B", "C"] [⟨"A", "B"⟩, ⟨"A", "C"⟩] = some groups ∧
        (createMergedGraph ["A", "B", "C"] [⟨"A", "B"⟩, ⟨"A", "C"⟩]).map MergedGraph.nodes =
          some (groups.map metaNodeOf) ∧
        (groups.flatMap (fun g => g.2.flatten)).Perm ["A", "B", "C"] ∧
        (∀ u ∈ ["A", "B", "C"], groups.countP (fun g => decide (u ∈ g.2.flatten)) = 1 ∧
          ∀ g ∈ groups, u ∈ g.2.flatten → g.2.countP (fun c => decide (u ∈ c)) = 1) ∧
        (∀ g ∈ groups, ∀ c ∈ g.2, ∀ u ∈ c, u ∈ ["A", "B", "C"]) :=
  ⟨by decide, by unfold WellFormed; decide,
    createMergedGraph_partition ["A", "B", "C"] [⟨"A", "B"⟩, ⟨"A", "C"⟩] (by decide)
      (by unfold WellFormed; decide)⟩

section RunLemmas2

variable {nodes : List String} {edges : List Edge} {s0 s1 s2 : State}

theorem Run.sib0_iff (R : Run nodes edges s0 s1 s2) {u v : String} (hu : u ∈ nodes)
    (hv : v ∈ nodes) : Sib s0.adj u v ↔ closedTwins edges u v := by
  unfold Sib closedTwins
  refine forall_congr' (fun x => ?_)
  rw [R.adj0 u x, R.adj0 v x]
  simp [hu, hv]

theorem Run.self_mem1 (R : Run nodes edges s0 s1 s2) {k : String} (hk : k ∈ keys s1.adj) :
    k ∈ adjGet s1.adj k :=
  (R.inv1.induced.mem_iff hk).2 ⟨(R.adj0 k k).2 ⟨R.mem_nodes hk, Or.inl rfl⟩, hk⟩

theorem Run.rep1_unique (R : Run nodes edges s0 s1 s2) {a b : String}
    (ha : a ∈ keys s1.adj) (hb : b ∈ keys s1.adj) (hs : Sib s0.adj a b) : a = b := by
  refine R.inv1.eq_of_sib (c := cond1) ?_ R.fixed1 ha hb hs
  intro x y _ hy hxy
  have hwf := R.inv1.liveGraphWF R.wf0
  simp only [cond1, Bool.and_eq_true, setHas_iff]
  exact ⟨(hxy y).2 (R.self_mem1 hy), (setEquals_adj_iff hwf x y).2 hxy⟩

theorem Run.rep2_unique (R : Run nodes edges s0 s1 s2) {a b : String}
    (ha : a ∈ keys s2.adj) (hb : b ∈ keys s2.adj) (hs : Sib (removeSelfLoops s1.adj) a b) :
    a = b := by
  refine R.inv2.eq_of_sib (c := cond2) ?_ R.fixed2 ha hb hs
  intro x y _ _ hxy
  exact (setEquals_adj_iff R.wf2 x y).2 hxy

/-- Every input node lies in the cluster of the live key of the first loop that has the
same closed neighbourhood. -/
theorem Run.cluster1 (R : Run nodes edges s0 s1 s2) {u : String} (hu : u ∈ nodes) :
    ∃ k c, k ∈ keys s1.adj ∧ Sib s0.adj u k ∧ labelsGet s1.labels k = [c] ∧ u ∈ c := by
  obtain ⟨k, hk, hs, hi⟩ := R.inv1.cover u ((R.keys0 u).2 hu)
  obtain ⟨c, hc⟩ := R.single1 k hk
  refine ⟨k, c, hk, hs, hc, ?_⟩
  have := hi u (by simp)
  simpa [members, hc] using this

/-- The members of a cluster of the first loop have the closed neighbourhood of its key. -/
theorem Run.sound1 (R : Run nodes edges s0 s1 s2) {k u : String} {c : List String}
    (hk : k ∈ keys s1.adj) (hc : c ∈ labelsGet s1.labels k) (hu : u ∈ c) :
    u ∈ nodes ∧ Sib s0.adj u k := by
  obtain ⟨r, hr, hur, hs⟩ := R.inv1.sound k hk u (List.mem_flatten.2 ⟨c, hc, hu⟩)
  have : u = r := by simpa using hur
  subst this
  exact ⟨(R.keys0 u).1 hr, hs⟩

/-- Every cluster of a final Label Group is the cluster of a key of the first loop that has
the same open neighbourhood, among those keys, as the key of the group. -/
theorem Run.sound2 (R : Run nodes edges s0 s1 s2) {k : String} {c : List String}
    (hk : k ∈ keys s2.adj) (hc : c ∈ labelsGet s2.labels k) :
    ∃ r, r ∈ keys s1.adj ∧ labelsGet s1.labels r = [c] ∧ Sib (removeSelfLoops s1.adj) r k := by
  obtain ⟨r, hr, hcr, hs⟩ := R.inv2.sound k hk c hc
  rw [keys_removeSelfLoops] at hr
  obtain ⟨c2, hc2⟩ := R.single1 r hr
  rw [hc2] at hcr
  have : c = c2 := by simpa using hcr
  subst this
  exact ⟨r, hr, hc2, hs⟩

/-- The cluster of a key of the first loop ends in the Label Group of the final key that has
the same open neighbourhood. -/
theorem Run.cluster2 (R : Run nodes edges s0 s1 s2) {r : String} {c : List String}
    (hr : r ∈ keys s1.adj) (hc : labelsGet s1.labels r = [c]) :
    ∃ k, k ∈ keys s2.adj ∧ Sib (removeSelfLoops s1.adj) r k ∧ c ∈ labelsGet s2.labels k := by
  obtain ⟨k, hk, hs, hi⟩ := R.inv2.cover r (by rw [keys_removeSelfLoops]; exact hr)
  exact ⟨k, hk, hs, hi c (by simp [hc])⟩

theorem mem_groups (s2 : State) (g : String × List (List String)) :
    g ∈ (objectKeys s2.adj).map (fun k => (k, labelsGet s2.labels k)) ↔
      g.1 ∈ keys s2.adj ∧ g.2 = labelsGet s2.labels g.1 := by
  rw [List.mem_map]
  constructor
  · rintro ⟨k, hk, rfl⟩
    exact ⟨(mem_objectKeys _ _).1 hk, rfl⟩
  · rintro ⟨h1, h2⟩
    exact ⟨g.1, (mem_objectKeys _ _).2 h1, by rw [← h2]⟩

theorem Run.sameCluster_iff (R : Run nodes edges s0 s1 s2) {u v : String}
    (hu : u ∈ nodes) (hv : v ∈ nodes) :
    sameCluster ((objectKeys s2.adj).map (fun k => (k, labelsGet s2.labels k))) u v ↔
      closedTwins edges u v := by
  rw [← R.sib0_iff hu hv]
  constructor
  · rintro ⟨g, hg, c, hc, huc, hvc⟩
    obtain ⟨hg1, hg2⟩ := (mem_groups s2 g).1 hg
    rw [hg2] at hc
    obtain ⟨r, hr, hcr, -⟩ := R.sound2 hg1 hc
    have hcm : c ∈ labelsGet s1.labels r := by simp [hcr]
    exact (R.sound1 hr hcm huc).2.trans (R.sound1 hr hcm hvc).2.symm
  · intro hs
    obtain ⟨ku, cu, hku, hsu, hcu, hucu⟩ := R.cluster1 hu
    obtain ⟨kv, cv, hkv, hsv, hcv, hvcv⟩ := R.cluster1 hv
    have hk : ku = kv := R.rep1_unique hku hkv (hsu.symm.trans (hs.trans hsv))
    subst hk
    have hc : cu = cv := by
      rw [hcu] at hcv
      simpa using hcv
    subst hc
    obtain ⟨k, hk, -, hck⟩ := R.cluster2 hku hcu
    exact ⟨(k, labelsGet s2.labels k), (mem_groups s2 _).2 ⟨hk, rfl⟩, cu, hck, hucu, hvcv⟩

end RunLemmas2

/-- C3: for edges between listed nodes, two input nodes end in the same cluster of the
output exactly when their closed neighbourhoods in the input graph are equal; and for the
nodes `A`, `B` with the single edge `A–B` the output is the one metanode `A` with the
single cluster `{A, B}`, the label `{A, B}`, the merged color, and no metaedge. -/
theorem createMergedGraph_twins :
    (∀ (nodes : List String) (edges : List Edge), WellFormed nodes edges →
      ∃ groups, labelGroups nodes edges = some groups ∧
        ∀ u ∈ nodes, ∀ v ∈ nodes, (sameCluster groups u v ↔ closedTwins edges u v)) ∧
    labelGroups ["A", "B"] [⟨"A", "B"⟩] = some [("A", [["A", "B"]])] ∧
    createMergedGraph ["A", "B"] [⟨"A", "B"⟩] =
      some { nodes := [⟨"A", "\x7bA, B\x7d", MERGED_METANODE_COLOR⟩], edges := [] } := by
  refine ⟨?_, by decide, by decide⟩
  intro nodes edges hwf
  obtain ⟨s0, s1, s2, R⟩ := reduce_run nodes edges hwf
  exact ⟨_, R.labelGroups_eq, fun u hu v hv => R.sameCluster_iff hu hv⟩

theorem createMergedGraph_twins_witness :
    WellFormed ["A", "B", "C"] [⟨"A", "B"⟩, ⟨"A", "C"⟩] ∧
      ∃ groups, labelGroups ["A", "B", "C"] [⟨"A", "B"⟩, ⟨"A", "C"⟩] = some groups ∧
        ∀ u ∈ ["A", "B", "C"], ∀ v ∈ ["A", "B", "C"],
          (sameCluster groups u v ↔ closedTwins [⟨"A", "B"⟩, ⟨"A", "C"⟩] u v) :=
  ⟨by unfold WellFormed; decide,
    createMergedGraph_twins.1 ["A", "B", "C"] [⟨"A", "B"⟩, ⟨"A", "C"⟩]
      (by unfold WellFormed; decide)⟩

section RunLemmas3

variable {nodes : List String} {edges : List Edge} {s0 s1 s2 : State}

theorem Run.mem_base2_iff (R : Run nodes edges s0 s1 s2) {k : String}
    (hk : k ∈ keys s1.adj) (x : String) :
    x ∈ adjGet (removeSelfLoops s1.adj) k ↔
      x ∈ keys s1.adj ∧ x ≠ k ∧ adjacent edges k x := by
  rw [mem_adjGet_removeSelfLoops, R.inv1.induced.mem_iff hk, R.adj0 k x]
  constructor
  · rintro ⟨⟨⟨_, h1 | h1⟩, h2⟩, h3⟩
    · exact absurd h1 h3
    · exact ⟨h2, h3, h1⟩
  · rintro ⟨h1, h2, h3⟩
    exact ⟨⟨⟨R.mem_nodes hk, Or.inr h3⟩, h1⟩, h2⟩

/-- Without self-loops, a node that has the same neighbours as another node is alone in
its cluster after the first loop: it is a live key. -/
theorem Run.live1_of_openTwins (R : Run nodes edges s0 s1 s2)
    (hloop : ∀ e ∈ edges, e.from_ ≠ e.to_) {u v : String} (hu : u ∈ nodes)
    (hne : u ≠ v) (huv : openTwins edges u v) :
    ∃ c, u ∈ keys s1.adj ∧ labelsGet s1.labels u = [c] ∧ u ∈ c := by
  have hirr : ∀ x, ¬ adjacent edges x x := by
    rintro x ⟨e, he, h | h⟩
    · exact hloop e he (h.1.trans h.2.symm)
    · exact hloop e he (h.2.trans h.1.symm)
  obtain ⟨k, c, hk, hs, hc, huc⟩ := R.cluster1 hu
  have hkn := R.mem_nodes hk
  have hku : k = u := by
    have h1 : k ∈ adjGet s0.adj u := (hs k).2 ((R.adj0 k k).2 ⟨hkn, Or.inl rfl⟩)
    rcases ((R.adj0 u k).1 h1).2 with h2 | h2
    · exact h2
    · exfalso
      have h3 : adjacent edges k v := adjacent_symm ((huv k).1 h2)
      have h4 : v ∈ adjGet s0.adj u := (hs v).2 ((R.adj0 k v).2 ⟨hkn, Or.inr h3⟩)
      rcases ((R.adj0 u v).1 h4).2 with h5 | h5
      · exact hne h5.symm
      · exact hirr v ((huv v).1 h5)
  subst hku
  exact ⟨c, hk, hc, huc⟩

theorem Run.siblingsIn_of_openTwins (R : Run nodes edges s0 s1 s2)
    (hloop : ∀ e ∈ edges, e.from_ ≠ e.to_) {u v : String} (hu : u ∈ nodes) (hv : v ∈ nodes)
    (hne : u ≠ v) (huv : openTwins edges u v) :
    siblingsIn ((objectKeys s2.adj).map (fun k => (k, labelsGet s2.labels k))) u v := by
  have hirr : ∀ x, ¬ adjacent edges x x := by
    rintro x ⟨e, he, h | h⟩
    · exact hloop e he (h.1.trans h.2.symm)
    · exact hloop e he (h.2.trans h.1.symm)
  have hvu : openTwins edges v u := fun x => (huv x).symm
  obtain ⟨cu, hu1, hcu, hucu⟩ := R.live1_of_openTwins hloop hu hne huv
  obtain ⟨cv, hv1, hcv, hvcv⟩ := R.live1_of_openTwins hloop hv (Ne.symm hne) hvu
  have hsib : Sib (removeSelfLoops s1.adj) u v := by
    intro x
    rw [R.mem_base2_iff hu1, R.mem_base2_iff hv1]
    constructor
    · rintro ⟨h1, _, h3⟩
      have h4 := (huv x).1 h3
      refine ⟨h1, ?_, h4⟩
      rintro rfl
      exact hirr x h4
    · rintro ⟨h1, _, h3⟩
      have h4 := (huv x).2 h3
      refine ⟨h1, ?_, h4⟩
      rintro rfl
      exact hirr x h4
  obtain ⟨ku, hku, hsu, hcku⟩ := R.cluster2 hu1 hcu
  obtain ⟨kv, hkv, hsv, hckv⟩ := R.cluster2 hv1 hcv
  have hk : ku = kv := R.rep2_unique hku hkv (hsu.symm.trans (hsib.trans hsv))
  subst hk
  have hntw : ¬ Sib s0.adj u v := by
    intro hs
    have h1 : u ∈ adjGet s0.adj v := (hs u).1 ((R.adj0 u u).2 ⟨hu, Or.inl rfl⟩)
    rcases ((R.adj0 v u).1 h1).2 with h2 | h2
    · exact hne h2
    · exact hirr u ((huv u).2 h2)
  have hvcu : v ∉ cu := by
    intro hvc
    exact hntw (R.sound1 hu1 (by simp [hcu]) hvc).2.symm
  have hucv : u ∉ cv := by
    intro huc
    exact hntw (R.sound1 hv1 (by simp [hcv]) huc).2
  refine ⟨(ku, labelsGet s2.labels ku), (mem_groups s2 _).2 ⟨hku, rfl⟩, cu, hcku, cv, hckv,
    hucu, hvcv, ?_, hvcu, hucv⟩
  rintro rfl
  exact hvcu hvcv

end RunLemmas3

/-- C4: in an input graph without self-loops, two distinct nodes with the same set of
neighbours are placed in the same Label Group, in two different clusters of it; and for the
nodes `A`, `B`, `C` with the edges `A–B`, `A–C` the output is the metanode `A` labelled `A`
and the metanode `B` with the clusters `{B}`, `{C}` and the bracketed label, joined by
exactly one metaedge. -/
theorem createMergedGraph_siblings :
    (∀ (nodes : List String) (edges : List Edge), WellFormed nodes edges →
      (∀ e ∈ edges, e.from_ ≠ e.to_) →
      ∃ groups, labelGroups nodes edges = some groups ∧
        ∀ u ∈ nodes, ∀ v ∈ nodes, u ≠ v → openTwins edges u v → siblingsIn groups u v) ∧
    labelGroups ["A", "B", "C"] [⟨"A", "B"⟩, ⟨"A", "C"⟩] =
      some [("A", [["A"]]), ("B", [["B"], ["C"]])] ∧
    createMergedGraph ["A", "B", "C"] [⟨"A", "B"⟩, ⟨"A", "C"⟩] =
      some { nodes := [⟨"A", "A", MERGED_METANODE_COLOR⟩,
                       ⟨"B", "[B,\nC]", UNMERGED_METANODE_COLOR⟩],
             edges := [⟨"A", "B"⟩] } := by
  refine ⟨?_, by decide, by decide⟩
  intro nodes edges hwf hloop
  obtain ⟨s0, s1, s2, R⟩ := reduce_run nodes edges hwf
  exact ⟨_, R.labelGroups_eq, fun u hu v hv hne huv =>
    R.siblingsIn_of_openTwins hloop hu hv hne huv⟩

theorem createMergedGraph_siblings_witness :
    WellFormed ["A", "B", "C"] [⟨"A", "B"⟩, ⟨"A", "C"⟩] ∧
      (∀ e ∈ [(⟨"A", "B"⟩ : Edge), ⟨"A", "C"⟩], e.from_ ≠ e.to_) ∧
      openTwins [⟨"A", "B"⟩, ⟨"A", "C"⟩] "B" "C" ∧
      ∃ groups, labelGroups ["A", "B", "C"] [⟨"A", "B"⟩, ⟨"A", "C"⟩] = some groups ∧
        siblingsIn groups "B" "C" := by
  have hopen : openTwins [⟨"A", "B"⟩, ⟨"A", "C"⟩] "B" "C" := by
    intro x
    simp [adjacent]
  obtain ⟨groups, hg, h⟩ :=
    createMergedGraph_siblings.1 ["A", "B", "C"] [⟨"A", "B"⟩, ⟨"A", "C"⟩]
      (by unfold WellFormed; decide) (by decide)
  exact ⟨by unfold WellFormed; decide, by decide, hopen, groups, hg,
    h "B" (by decide) "C" (by decide) (by decide) hopen⟩

/-! ## The order of JavaScript strings -/

theorem unitsLt_irrefl : ∀ l : List Nat, unitsLt l l = false
  | [] => rfl
  | a :: l => by simp [unitsLt, unitsLt_irrefl l]

theorem unitsLt_asymm : ∀ l m : List Nat, unitsLt l m = true → unitsLt m l = false
  | _, [], h => by simp [unitsLt] at h
  | [], _ :: _, _ => by simp [unitsLt]
  | a :: l, b :: m, h => by
    simp only [unitsLt] at h ⊢
    by_cases h1 : a < b
    · have h2 : ¬ b < a := by omega
      simp [h2, h1]
    · by_cases h2 : b < a
      · simp [h1, h2] at h
      · simp only [h1, h2, if_false] at h ⊢
        exact unitsLt_asymm l m h

theorem unitsLt_total : ∀ l m : List Nat, l ≠ m → unitsLt l m = true ∨ unitsLt m l = true
  | [], [], h => absurd rfl h
  | [], _ :: _, _ => Or.inl rfl
  | _ :: _, [], _ => Or.inr rfl
  | a :: l, b :: m, h => by
    simp only [unitsLt]
    by_cases h1 : a < b
    · simp [h1]
    · by_cases h2 : b < a
      · simp [h2]
      · have hab : a = b := by omega
        subst hab
        simp only [h1, if_false]
        exact unitsLt_total l m (fun hlm => h (by rw [hlm]))

theorem utf16Char_ne_nil (c : Char) : utf16Char c ≠ [] := by
  unfold utf16Char
  split <;> simp

theorem char_eq_of_toNat_eq {c d : Char} (h : c.val.toNat = d.val.toNat) : c = d :=
  Char.ext (UInt32.ext h)

theorem utf16Char_append_inj {c d : Char} {x y : List Nat}
    (h : utf16Char c ++ x = utf16Char d ++ y) : c = d ∧ x = y := by
  have hc := c.valid
  have hd := d.valid
  simp only [UInt32.isValidChar, Nat.isValidChar] at hc hd
  unfold utf16Char at h
  by_cases h1 : c.val.toNat < 0x10000 <;> by_cases h2 : d.val.toNat < 0x10000
  · simp only [h1, h2, if_true, List.singleton_append, List.cons.injEq] at h
    exact ⟨char_eq_of_toNat_eq h.1, h.2⟩
  · simp only [h1, h2, if_true, if_false, List.singleton_append, List.cons_append,
      List.cons.injEq] at h
    omega
  · simp only [h1, h2, if_true, if_false, List.singleton_append, List.cons_append,
      List.cons.injEq] at h
    omega
  · simp only [h1, h2, if_false, List.cons_append, List.cons.injEq, List.nil_append] at h
    refine ⟨char_eq_of_toNat_eq ?_, h.2.2⟩
    omega

theorem utf16_data_inj : ∀ l m : List Char,
    l.flatMap utf16Char = m.flatMap utf16Char → l = m
  | [], [], _ => rfl
  | [], d :: m, h => by
    rw [List.flatMap_nil, List.flatMap_cons] at h
    exact absurd (List.append_eq_nil.1 h.symm).1 (utf16Char_ne_nil d)
  | c :: l, [], h => by
    rw [List.flatMap_nil, List.flatMap_cons] at h
    exact absurd (List.append_eq_nil.1 h).1 (utf16Char_ne_nil c)
  | c :: l, d :: m, h => by
    rw [List.flatMap_cons, List.flatMap_cons] at h
    obtain ⟨h1, h2⟩ := utf16Char_append_inj h
    rw [h1, utf16_data_inj l m h2]

theorem utf16_inj {a b : String} (h : utf16 a = utf16 b) : a = b :=
  String.ext (utf16_data_inj a.data b.data h)

theorem jsLt_irrefl (a : String) : jsLt a a = false := unitsLt_irrefl _

theorem jsLt_asymm {a b : String} (h : jsLt a b = true) : jsLt b a = false :=
  unitsLt_asymm _ _ h

theorem jsLt_total {a b : String} (h : a ≠ b) : jsLt a b = true ∨ jsLt b a = true :=
  unitsLt_total _ _ (fun hab => h (utf16_inj hab))

/-! ## The metaedges -/

theorem mem_finalEdges (s : State) (e : Edge) :
    e ∈ finalEdges s ↔
      e.from_ ∈ keys s.adj ∧ e.to_ ∈ adjGet s.adj e.from_ ∧ jsLt e.from_ e.to_ = true := by
  unfold finalEdges
  rw [List.mem_flatMap]
  constructor
  · rintro ⟨b, hb, he⟩
    rw [List.mem_filterMap] at he
    obtain ⟨n, hn, hbn⟩ := he
    by_cases hlt : jsLt b n = true
    · rw [if_pos hlt] at hbn
      cases hbn
      exact ⟨(mem_objectKeys _ _).1 hb, hn, hlt⟩
    · rw [if_neg hlt] at hbn
      exact Option.noConfusion hbn
  · rintro ⟨h1, h2, h3⟩
    refine ⟨e.from_, (mem_objectKeys _ _).2 h1, ?_⟩
    rw [List.mem_filterMap]
    exact ⟨e.to_, h2, by rw [if_pos h3]⟩

theorem nodup_finalEdges {s : State} (h : GraphWF s.adj) : (finalEdges s).Nodup := by
  unfold finalEdges
  rw [List.nodup_flatMap]
  constructor
  · intro b _
    refine List.Nodup.filterMap ?_ (h.nodup b)
    intro n n2 e he he2
    by_cases h1 : jsLt b n = true <;> by_cases h2 : jsLt b n2 = true
    · rw [if_pos h1] at he
      rw [if_pos h2] at he2
      simp only [Option.mem_def, Option.some.injEq] at he he2
      rw [← he2] at he
      exact (Edge.mk.inj he).2
    · rw [if_neg h2] at he2
      exact Option.noConfusion he2
    · rw [if_neg h1] at he
      exact Option.noConfusion he
    · rw [if_neg h1] at he
      exact Option.noConfusion he
  · have hnd : (objectKeys s.adj).Nodup := (nodup_objectKeys _).2 h.nodupKeys
    refine hnd.imp ?_
    intro a b hab e hea heb
    rw [List.mem_filterMap] at hea heb
    obtain ⟨n, -, hn⟩ := hea
    obtain ⟨n2, -, hn2⟩ := heb
    by_cases h1 : jsLt a n = true <;> by_cases h2 : jsLt b n2 = true
    · rw [if_pos h1] at hn
      rw [if_pos h2] at hn2
      simp only [Option.some.injEq] at hn hn2
      rw [← hn2] at hn
      exact hab (Edge.mk.inj hn).1
    · rw [if_neg h2] at hn2
      exact Option.noConfusion hn2
    · rw [if_neg h1] at hn
      exact Option.noConfusion hn
    · rw [if_neg h1] at hn
      exact Option.noConfusion hn

section RunLemmas4

variable {nodes : List String} {edges : List Edge} {s0 s1 s2 : State}

theorem Run.irrefl2 (R : Run nodes edges s0 s1 s2) (a : String) : a ∉ adjGet s2.adj a := by
  intro h
  have hk := mem_keys_of_mem_adjGet h
  have h1 := ((R.inv2.induced.mem_iff hk).1 h).1
  exact ((mem_adjGet_removeSelfLoops _ _ _).1 h1).2 rfl

theorem Run.adj2_iff (R : Run nodes edges s0 s1 s2) {a b : String} (ha : a ∈ keys s2.adj)
    (hb : b ∈ keys s2.adj) : b ∈ adjGet s2.adj a ↔ b ≠ a ∧ adjacent edges a b := by
  rw [R.inv2.induced.mem_iff ha, R.mem_base2_iff (R.mem_keys1 ha)]
  constructor
  · rintro ⟨⟨_, h2, h3⟩, _⟩
    exact ⟨h2, h3⟩
  · rintro ⟨h1, h2⟩
    exact ⟨⟨R.mem_keys1 hb, h1, h2⟩, hb⟩

theorem Run.key_mem_members (R : Run nodes edges s0 s1 s2) {k : String}
    (hk : k ∈ keys s2.adj) : k ∈ members s2.labels k := by
  have hk1 := R.mem_keys1 hk
  obtain ⟨r, c, hr, hs, hc, hkc⟩ := R.cluster1 (R.mem_nodes hk1)
  have hrk : k = r := R.rep1_unique hk1 hr hs
  subst hrk
  obtain ⟨k2, hk2, hs2, hc2⟩ := R.cluster2 hk1 hc
  have : k = k2 := R.rep2_unique hk hk2 hs2
  subst this
  exact List.mem_flatten.2 ⟨c, hc2, hkc⟩

theorem Run.member_link (R : Run nodes edges s0 s1 s2) {k u : String}
    (hk : k ∈ keys s2.adj) (hu : u ∈ members s2.labels k) :
    ∃ r, r ∈ keys s1.adj ∧ Sib (removeSelfLoops s1.adj) r k ∧ u ∈ nodes ∧ Sib s0.adj u r := by
  obtain ⟨c, hc, huc⟩ := List.mem_flatten.1 hu
  obtain ⟨r, hr, hcr, hs⟩ := R.sound2 hk hc
  obtain ⟨h1, h2⟩ := R.sound1 hr (by simp [hcr]) huc
  exact ⟨r, hr, hs, h1, h2⟩

theorem Run.adj2_of_members (R : Run nodes edges s0 s1 s2) {X Y u v : String}
    (hX : X ∈ keys s2.adj) (hY : Y ∈ keys s2.adj) (hXY : X ≠ Y)
    (hu : u ∈ members s2.labels X) (hv : v ∈ members s2.labels Y)
    (huv : adjacent edges u v) : Y ∈ adjGet s2.adj X := by
  obtain ⟨r, hr, hsr, hun, hur⟩ := R.member_link hX hu
  obtain ⟨q, hq, hsq, _, hvq⟩ := R.member_link hY hv
  have hrq : r ≠ q := by
    rintro rfl
    exact hXY (R.rep2_unique hX hY (hsr.symm.trans hsq))
  have h1 : v ∈ adjGet s0.adj r := (hur v).1 ((R.adj0 u v).2 ⟨hun, Or.inr huv⟩)
  have h2 : r ∈ adjGet s0.adj q := (hvq r).1 (R.wf0.symm r v h1)
  have h3 : adjacent edges r q := by
    rcases ((R.adj0 r q).1 (R.wf0.symm q r h2)).2 with h | h
    · exact absurd h.symm hrq
    · exact h
  have h4 : q ∈ adjGet (removeSelfLoops s1.adj) X :=
    (hsr q).1 ((R.mem_base2_iff hr q).2 ⟨hq, Ne.symm hrq, h3⟩)
  have h5 : X ∈ adjGet (removeSelfLoops s1.adj) Y := (hsq X).1 (R.wf1.symm X q h4)
  exact (R.inv2.induced.mem_iff hX).2 ⟨R.wf1.symm Y X h5, hY⟩

theorem Run.edge_iff (R : Run nodes edges s0 s1 s2) {X Y : String} (hX : X ∈ keys s2.adj)
    (hXY : X ≠ Y) :
    ((⟨X, Y⟩ : Edge) ∈ finalEdges s2 ∨ (⟨Y, X⟩ : Edge) ∈ finalEdges s2) ↔
      Y ∈ adjGet s2.adj X := by
  rw [mem_finalEdges, mem_finalEdges]
  constructor
  · rintro (⟨_, h, _⟩ | ⟨_, h, _⟩)
    · exact h
    · exact R.wf2.symm Y X h
  · intro h
    have hY : Y ∈ keys s2.adj := R.wf2.closed X Y h
    rcases jsLt_total hXY with hlt | hlt
    · exact Or.inl ⟨hX, h, hlt⟩
    · exact Or.inr ⟨hY, R.wf2.symm X Y h, hlt⟩

end RunLemmas4

/-- C5: for edges between listed nodes and two distinct output metanodes `X` and `Y`, a
metaedge joins `X` and `Y` (in one of the two directions) exactly when some input edge
joins a node of the Label Group of `X` to a node of the Label Group of `Y`. -/
theorem createMergedGraph_metaedges (nodes : List String) (edges : List Edge)
    (hwf : WellFormed nodes edges) :
    ∃ out groups, createMergedGraph nodes edges = some out ∧
      labelGroups nodes edges = some groups ∧
      out.nodes = groups.map metaNodeOf ∧
      ∀ gX ∈ groups, ∀ gY ∈ groups, gX.1 ≠ gY.1 →
        (((⟨gX.1, gY.1⟩ : Edge) ∈ out.edges ∨ (⟨gY.1, gX.1⟩ : Edge) ∈ out.edges) ↔
          ∃ u ∈ gX.2.flatten, ∃ v ∈ gY.2.flatten, adjacent edges u v) := by
  obtain ⟨s0, s1, s2, R⟩ := reduce_run nodes edges hwf
  refine ⟨_, _, R.createMergedGraph_eq, R.labelGroups_eq, finalNodes_eq s2, ?_⟩
  intro gX hgX gY hgY hne
  obtain ⟨hX, hX2⟩ := (mem_groups s2 gX).1 hgX
  obtain ⟨hY, hY2⟩ := (mem_groups s2 gY).1 hgY
  show ((⟨gX.1, gY.1⟩ : Edge) ∈ finalEdges s2 ∨ (⟨gY.1, gX.1⟩ : Edge) ∈ finalEdges s2) ↔ _
  rw [R.edge_iff hX hne, hX2, hY2]
  constructor
  · intro h
    exact ⟨gX.1, R.key_mem_members hX, gY.1, R.key_mem_members hY,
      ((R.adj2_iff hX hY).1 h).2⟩
  · rintro ⟨u, hu, v, hv, huv⟩
    exact R.adj2_of_members hX hY hne hu hv huv

theorem createMergedGraph_metaedges_witness :
    WellFormed ["A", "B", "C"] [⟨"A", "B"⟩, ⟨"A", "C"⟩] ∧
      ∃ out groups, createMergedGraph ["A", "B", "C"] [⟨"A", "B"⟩, ⟨"A", "C"⟩] = some out ∧
        labelGroups ["A", "B", "C"] [⟨"A", "B"⟩, ⟨"A", "C"⟩] = some groups ∧
        out.nodes = groups.map metaNodeOf ∧
        ∀ gX ∈ groups, ∀ gY ∈ groups, gX.1 ≠ gY.1 →
          (((⟨gX.1, gY.1⟩ : Edge) ∈ out.edges ∨ (⟨gY.1, gX.1⟩ : Edge) ∈ out.edges) ↔
            ∃ u ∈ gX.2.flatten, ∃ v ∈ gY.2.flatten,
              adjacent [⟨"A", "B"⟩, ⟨"A", "C"⟩] u v) :=
  ⟨by unfold WellFormed; decide,
    createMergedGraph_metaedges ["A", "B", "C"] [⟨"A", "B"⟩, ⟨"A", "C"⟩]
      (by unfold WellFormed; decide)⟩

/-- C6: for edges between listed nodes, the reduced adjacency is symmetric, has no
self-reference and mentions only output metanode ids; every metaedge goes from an id to an
adjacent id that is strictly greater in the string order; for every adjacent pair exactly
one of the two directed metaedges is in the list, exactly once; and the list has no
repetition. -/
theorem createMergedGraph_edges_simple (nodes : List String) (edges : List Edge)
    (hwf : WellFormed nodes edges) :
    ∃ s out, reduce nodes edges = some s ∧ createMergedGraph nodes edges = some out ∧
      (∀ a b, b ∈ adjGet s.adj a → a ∈ adjGet s.adj b) ∧
      (∀ a b, b ∈ adjGet s.adj a →
        a ∈ out.nodes.map MetaNode.id ∧ b ∈ out.nodes.map MetaNode.id) ∧
      (∀ a, a ∉ adjGet s.adj a) ∧
      (∀ e ∈ out.edges, jsLt e.from_ e.to_ = true ∧ e.from_ ≠ e.to_ ∧
        e.to_ ∈ adjGet s.adj e.from_) ∧
      (∀ a b, b ∈ adjGet s.adj a →
        out.edges.count ⟨a, b⟩ + out.edges.count ⟨b, a⟩ = 1) ∧
      (∀ a b, (⟨a, b⟩ : Edge) ∈ out.edges → (⟨b, a⟩ : Edge) ∉ out.edges) ∧
      out.edges.Nodup := by
  obtain ⟨s0, s1, s2, R⟩ := reduce_run nodes edges hwf
  have hids : (finalNodes s2).map MetaNode.id = objectKeys s2.adj := by
    simp [finalNodes, Function.comp_def]
  have hnd := nodup_finalEdges R.wf2
  refine ⟨s2, _, R.result, R.createMergedGraph_eq, R.wf2.symm, ?_, R.irrefl2, ?_, ?_, ?_, hnd⟩
  · intro a b h
    show a ∈ (finalNodes s2).map MetaNode.id ∧ b ∈ (finalNodes s2).map MetaNode.id
    rw [hids, mem_objectKeys, mem_objectKeys]
    exact ⟨mem_keys_of_mem_adjGet h, R.wf2.closed a b h⟩
  · intro e he
    obtain ⟨_, h2, h3⟩ := (mem_finalEdges s2 e).1 he
    refine ⟨h3, ?_, h2⟩
    intro heq
    rw [heq, jsLt_irrefl] at h3
    exact Bool.noConfusion h3
  · intro a b h
    show (finalEdges s2).count ⟨a, b⟩ + (finalEdges s2).count ⟨b, a⟩ = 1
    have hab : a ≠ b := by
      rintro rfl
      exact R.irrefl2 a h
    have ha := mem_keys_of_mem_adjGet h
    have hb := R.wf2.closed a b h
    rcases jsLt_total hab with hlt | hlt
    · have h1 : (⟨a, b⟩ : Edge) ∈ finalEdges s2 := (mem_finalEdges s2 _).2 ⟨ha, h, hlt⟩
      have h2 : (⟨b, a⟩ : Edge) ∉ finalEdges s2 := by
        intro hm
        have := ((mem_finalEdges s2 _).1 hm).2.2
        rw [jsLt_asymm hlt] at this
        exact Bool.noConfusion this
      rw [List.count_eq_one_of_mem hnd h1, List.count_eq_zero.2 h2]
    · have h1 : (⟨b, a⟩ : Edge) ∈ finalEdges s2 :=
        (mem_finalEdges s2 _).2 ⟨hb, R.wf2.symm a b h, hlt⟩
      have h2 : (⟨a, b⟩ : Edge) ∉ finalEdges s2 := by
        intro hm
        have := ((mem_finalEdges s2 _).1 hm).2.2
        rw [jsLt_asymm hlt] at this
        exact Bool.noConfusion this
      rw [List.count_eq_one_of_mem hnd h1, List.count_eq_zero.2 h2]
  · intro a b h1 h2
    have h3 := ((mem_finalEdges s2 _).1 h1).2.2
    have h4 := ((mem_finalEdges s2 _).1 h2).2.2
    rw [jsLt_asymm h3] at h4
    exact Bool.noConfusion h4

theorem createMergedGraph_edges_simple_witness :
    WellFormed ["A", "B", "C"] [⟨"A", "B"⟩, ⟨"A", "C"⟩] ∧
      ∃ s out, reduce ["A", "B", "C"] [⟨"A", "B"⟩, ⟨"A", "C"⟩] = some s ∧
        createMergedGraph ["A", "B", "C"] [⟨"A", "B"⟩, ⟨"A", "C"⟩] = some out ∧
        (∀ a b, b ∈ adjGet s.adj a → a ∈ adjGet s.adj b) ∧
        (∀ a b, b ∈ adjGet s.adj a →
          a ∈ out.nodes.map MetaNode.id ∧ b ∈ out.nodes.map MetaNode.id) ∧
        (∀ a, a ∉ adjGet s.adj a) ∧
        (∀ e ∈ out.edges, jsLt e.from_ e.to_ = true ∧ e.from_ ≠ e.to_ ∧
          e.to_ ∈ adjGet s.adj e.from_) ∧
        (∀ a b, b ∈ adjGet s.adj a →
          out.edges.count ⟨a, b⟩ + out.edges.count ⟨b, a⟩ = 1) ∧
        (∀ a b, (⟨a, b⟩ : Edge) ∈ out.edges → (⟨b, a⟩ : Edge) ∉ out.edges) ∧
        out.edges.Nodup :=
  ⟨by unfold WellFormed; decide,
    createMergedGraph_edges_simple ["A", "B", "C"] [⟨"A", "B"⟩, ⟨"A", "C"⟩]
      (by unfold WellFormed; decide)⟩

/-! ## Running the reducer on its own output -/

theorem keys_foldl_objSet {β : Type} (f : String → β) : ∀ (L : List String) (o : Obj β),
    (keys o ++ L).Nodup →
      keys ((L.map (fun n => (n, f n))).foldl (fun o e => objSet o e.1 e.2) o) = keys o ++ L
  | [], o, _ => by simp
  | n :: ns, o, h => by
    have hn : n ∉ keys o := by
      intro hmem
      exact (List.nodup_append.1 h).2.2 hmem (List.mem_cons_self n ns)
    have hk : keys (objSet o n (f n)) = keys o ++ [n] := by
      rw [keys_objSet, if_neg hn]
    simp only [List.map_cons, List.foldl_cons]
    rw [keys_foldl_objSet f ns (objSet o n (f n)) (by rw [hk]; simpa using h), hk]
    simp

theorem keys_objectFromEntries {β : Type} (f : String → β) {L : List String} (h : L.Nodup) :
    keys (objectFromEntries (L.map (fun n => (n, f n)))) = L := by
  have := keys_foldl_objSet f L [] (by simpa [keys] using h)
  simpa [keys, objectFromEntries] using this

theorem mergeLoop_of_scan_none (c : Obj (List String) → String → String → Bool)
    (m : State → String → String → State) (fuel : Nat) (s : State)
    (h : scan c s.adj = none) : mergeLoop c m fuel s = s := by
  cases fuel with
  | zero => rfl
  | succ fuel =>
    unfold mergeLoop
    rw [h]

theorem scan_eq_none_of {c : Obj (List String) → String → String → Bool}
    {adj : Obj (List String)} (hnd : (keys adj).Nodup)
    (h : ∀ b0 b1, b0 ∈ keys adj → b1 ∈ keys adj → b0 ≠ b1 → c adj b0 b1 = false) :
    scan c adj = none := by
  unfold scan
  rw [List.findSome?_eq_none_iff]
  intro p hp
  rw [combinations_two, mem_subseqs] at hp
  obtain ⟨hsub, hlen⟩ := hp
  match p, hlen, hsub with
  | [x, y], _, hsub =>
    obtain ⟨hx, hy, hne⟩ := pair_sublist_nodup hsub ((nodup_objectKeys adj).2 hnd)
    simp only
    rw [if_neg]
    rw [h x y ((mem_objectKeys adj x).1 hx) ((mem_objectKeys adj y).1 hy) hne]
    exact Bool.false_ne_true

theorem adjacent_finalEdges_iff {s : State} (hwf : GraphWF s.adj)
    (hirr : ∀ a, a ∉ adjGet s.adj a) (k x : String) :
    adjacent (finalEdges s) k x ↔ x ∈ adjGet s.adj k := by
  constructor
  · rintro ⟨e, he, ⟨h1, h2⟩ | ⟨h1, h2⟩⟩
    · obtain ⟨_, h3, _⟩ := (mem_finalEdges s e).1 he
      rw [h1, h2] at h3
      exact h3
    · obtain ⟨_, h3, _⟩ := (mem_finalEdges s e).1 he
      rw [h1, h2] at h3
      exact hwf.symm x k h3
  · intro h
    have hk := mem_keys_of_mem_adjGet h
    have hx := hwf.closed k x h
    have hne : k ≠ x := by
      rintro rfl
      exact hirr k h
    rcases jsLt_total hne with hlt | hlt
    · exact ⟨⟨k, x⟩, (mem_finalEdges s _).2 ⟨hk, h, hlt⟩, Or.inl ⟨rfl, rfl⟩⟩
    · exact ⟨⟨x, k⟩, (mem_finalEdges s _).2 ⟨hx, hwf.symm k x h, hlt⟩, Or.inr ⟨rfl, rfl⟩⟩

/-- The second run of the reducer, on the output of a first run in which no two adjacent
metanodes have the same closed neighbourhood, merges nothing. -/
theorem Run.rerun {nodes : List String} {edges : List Edge} {s0 s1 s2 : State}
    (R : Run nodes edges s0 s1 s2)
    (hno : ∀ a b, a ≠ b → adjacent (finalEdges s2) a b → ¬ closedTwins (finalEdges s2) a b) :
    ∃ t0, initState (objectKeys s2.adj) (finalEdges s2) = some t0 ∧
      reduce (objectKeys s2.adj) (finalEdges s2) =
        some { adj := removeSelfLoops t0.adj, labels := t0.labels } ∧
      keys t0.adj = objectKeys s2.adj ∧
      (∀ k ∈ objectKeys s2.adj, labelsGet t0.labels k = [[k]]) ∧
      (∀ k x, x ∈ adjGet (removeSelfLoops t0.adj) k ↔ x ∈ adjGet s2.adj k) := by
  have hwf2 := R.wf2
  have hnd : (objectKeys s2.adj).Nodup := (nodup_objectKeys _).2 hwf2.nodupKeys
  have hwf : WellFormed (objectKeys s2.adj) (finalEdges s2) := by
    intro e he
    obtain ⟨h1, h2, _⟩ := (mem_finalEdges s2 e).1 he
    exact ⟨(mem_objectKeys _ _).2 h1, (mem_objectKeys _ _).2 (hwf2.closed _ _ h2)⟩
  obtain ⟨t0, hinit, hwft, hkeys, hadj, hlab, hk⟩ := initState_spec _ _ hwf
  rw [keys_objectFromEntries _ hnd] at hk
  have hadjE := adjacent_finalEdges_iff hwf2 R.irrefl2
  have hbase : ∀ k x, x ∈ adjGet (removeSelfLoops t0.adj) k ↔ x ∈ adjGet s2.adj k := by
    intro k x
    rw [mem_adjGet_removeSelfLoops, hadj k x, hadjE k x]
    constructor
    · rintro ⟨⟨_, h1 | h1⟩, h2⟩
      · exact absurd h1 h2
      · exact h1
    · intro h
      refine ⟨⟨(mem_objectKeys _ _).2 (mem_keys_of_mem_adjGet h), Or.inr h⟩, ?_⟩
      rintro rfl
      exact R.irrefl2 x h
  have hscan1 : scan cond1 t0.adj = none := by
    refine scan_eq_none_of hwft.nodupKeys ?_
    intro a b ha hb hne
    by_contra hc
    have hc2 : cond1 t0.adj a b = true := by simpa using hc
    simp only [cond1, Bool.and_eq_true, setHas_iff] at hc2
    obtain ⟨h1, h2⟩ := hc2
    have hsib : Sib t0.adj a b := (setEquals_adj_iff hwft a b).1 h2
    have han := (hkeys a).1 ha
    have hbn := (hkeys b).1 hb
    have hab : adjacent (finalEdges s2) a b := by
      rcases ((hadj a b).1 h1).2 with h | h
      · exact absurd h.symm hne
      · exact h
    refine hno a b hne hab ?_
    intro x
    have := hsib x
    rw [hadj a x, hadj b x] at this
    simpa [han, hbn] using this
  have hscan2 : scan cond2 (removeSelfLoops t0.adj) = none := by
    have hwfr := hwft.afterRemoveSelfLoops
    refine scan_eq_none_of hwfr.nodupKeys ?_
    intro a b ha hb hne
    by_contra hc
    have hc2 : cond2 (removeSelfLoops t0.adj) a b = true := by simpa using hc
    have hsib : Sib (removeSelfLoops t0.adj) a b := (setEquals_adj_iff hwfr a b).1 hc2
    have hsib2 : Sib s2.adj a b := by
      intro x
      rw [← hbase a x, ← hbase b x]
      exact hsib x
    rw [keys_removeSelfLoops, hk, mem_objectKeys] at ha hb
    rcases scan_eq_none R.fixed2 ha hb hne with h | h
    · rw [cond2, (setEquals_adj_iff hwf2 a b).2 hsib2] at h
      exact Bool.noConfusion h
    · rw [cond2, (setEquals_adj_iff hwf2 b a).2 hsib2.symm] at h
      exact Bool.noConfusion h
  refine ⟨t0, hinit, ?_, hk, hlab, hbase⟩
  have hp1 : pass1 t0.adj.length t0 = t0 := mergeLoop_of_scan_none _ _ _ _ hscan1
  simp only [reduce, hinit, Option.map_some', hp1]
  rw [pass2, mergeLoop_of_scan_none _ _ _ _ hscan2]

/-- C2 (amended): when no two adjacent metanodes of the output have the same closed
neighbourhood in the reduced graph, running `createMergedGraph` on the metanode ids and the
metaedges of its own output merges nothing: it returns the same ids in the same order, every
metanode labelled with its own id, and the same set of metaedges. -/
theorem createMergedGraph_idempotent (nodes : List String) (edges : List Edge)
    (out : MergedGraph) (hwf : WellFormed nodes edges)
    (hout : createMergedGraph nodes edges = some out)
    (hno : ∀ a b, a ≠ b → adjacent out.edges a b → ¬ closedTwins out.edges a b) :
    ∃ out2, createMergedGraph (out.nodes.map MetaNode.id) out.edges = some out2 ∧
      out2.nodes.map MetaNode.id = out.nodes.map MetaNode.id ∧
      (∀ n ∈ out2.nodes, n.label = n.id) ∧
      (∀ e, e ∈ out2.edges ↔ e ∈ out.edges) := by
  obtain ⟨s0, s1, s2, R⟩ := reduce_run nodes edges hwf
  have hids : ∀ s : State, (finalNodes s).map MetaNode.id = objectKeys s.adj := by
    intro s
    simp [finalNodes, Function.comp_def]
  rw [R.createMergedGraph_eq] at hout
  cases hout
  simp only at hno ⊢
  obtain ⟨t0, -, hred, hk, hlab, hbase⟩ := R.rerun hno
  have hkeys : objectKeys (removeSelfLoops t0.adj) = objectKeys s2.adj :=
    objectKeys_eq_of_keys_eq s2.adj (removeSelfLoops t0.adj)
      (by rw [keys_removeSelfLoops, hk])
  refine ⟨{ nodes := finalNodes { adj := removeSelfLoops t0.adj, labels := t0.labels },
            edges := finalEdges { adj := removeSelfLoops t0.adj, labels := t0.labels } },
    ?_, ?_, ?_, ?_⟩
  · rw [hids, createMergedGraph, hred]
    rfl
  · simp only
    rw [hids, hids, hkeys]
  · intro n hn
    simp only [finalNodes, List.mem_map] at hn
    obtain ⟨k, hkm, rfl⟩ := hn
    rw [hkeys] at hkm
    simp only
    rw [hlab k hkm]
    rfl
  · intro e
    simp only
    rw [mem_finalEdges, mem_finalEdges, hbase]
    simp only
    constructor
    · rintro ⟨_, h2, h3⟩
      exact ⟨mem_keys_of_mem_adjGet h2, h2, h3⟩
    · rintro ⟨h1, h2, h3⟩
      refine ⟨?_, h2, h3⟩
      rw [keys_removeSelfLoops, hk, mem_objectKeys]
      exact h1

theorem createMergedGraph_idempotent_witness :
    WellFormed ["A", "B", "C", "D"] [⟨"A", "B"⟩, ⟨"B", "C"⟩, ⟨"C", "D"⟩] ∧
      createMergedGraph ["A", "B", "C", "D"] [⟨"A", "B"⟩, ⟨"B", "C"⟩, ⟨"C", "D"⟩] =
        some { nodes := [⟨"A", "A", MERGED_METANODE_COLOR⟩, ⟨"B", "B", MERGED_METANODE_COLOR⟩,
                         ⟨"C", "C", MERGED_METANODE_COLOR⟩, ⟨"D", "D", MERGED_METANODE_COLOR⟩],
               edges := [⟨"A", "B"⟩, ⟨"B", "C"⟩, ⟨"C", "D"⟩] } ∧
      (∀ a b, a ≠ b → adjacent [⟨"A", "B"⟩, ⟨"B", "C"⟩, ⟨"C", "D"⟩] a b →
        ¬ closedTwins [⟨"A", "B"⟩, ⟨"B", "C"⟩, ⟨"C", "D"⟩] a b) ∧
      ∃ out2, createMergedGraph ["A", "B", "C", "D"] [⟨"A", "B"⟩, ⟨"B", "C"⟩, ⟨"C", "D"⟩] =
          some out2 ∧
        out2.nodes.map MetaNode.id = ["A", "B", "C", "D"] ∧
        (∀ n ∈ out2.nodes, n.label = n.id) ∧
        (∀ e, e ∈ out2.edges ↔ e ∈ [(⟨"A", "B"⟩ : Edge), ⟨"B", "C"⟩, ⟨"C", "D"⟩]) := by
  have hwf : WellFormed ["A", "B", "C", "D"] [⟨"A", "B"⟩, ⟨"B", "C"⟩, ⟨"C", "D"⟩] := by
    unfold WellFormed; decide
  have hno : ∀ a b, a ≠ b → adjacent [⟨"A", "B"⟩, ⟨"B", "C"⟩, ⟨"C", "D"⟩] a b →
      ¬ closedTwins [⟨"A", "B"⟩, ⟨"B", "C"⟩, ⟨"C", "D"⟩] a b := by
    intro a b _ hadj htw
    obtain ⟨e, he, h⟩ := hadj
    simp only [List.mem_cons, List.mem_singleton, List.not_mem_nil, or_false] at he
    rcases he with rfl | rfl | rfl <;> rcases h with ⟨rfl, rfl⟩ | ⟨rfl, rfl⟩
    · exact absurd ((htw "C").2 (by decide)) (by decide)
    · exact absurd ((htw "C").1 (by decide)) (by decide)
    · exact absurd ((htw "A").1 (by decide)) (by decide)
    · exact absurd ((htw "A").2 (by decide)) (by decide)
    · exact absurd ((htw "B").1 (by decide)) (by decide)
    · exact absurd ((htw "B").2 (by decide)) (by decide)
  exact ⟨hwf, by decide, hno,
    createMergedGraph_idempotent ["A", "B", "C", "D"] [⟨"A", "B"⟩, ⟨"B", "C"⟩, ⟨"C", "D"⟩]
      { nodes := [⟨"A", "A", MERGED_METANODE_COLOR⟩, ⟨"B", "B", MERGED_METANODE_COLOR⟩,
                  ⟨"C", "C", MERGED_METANODE_COLOR⟩, ⟨"D", "D", MERGED_METANODE_COLOR⟩],
        edges := [⟨"A", "B"⟩, ⟨"B", "C"⟩, ⟨"C", "D"⟩] } hwf (by decide) hno⟩

/-- C2 (counterexample): on the nodes `A`, `B`, `C` with the edges `A–B`, `A–C` the
reducer returns the metanodes `A`, `B` and the metaedge `A–B`; run again on these ids and
this metaedge it merges `A` and `B` into the single metanode `A` labelled `{A, B}` and
returns no metaedge. -/
theorem createMergedGraph_not_idempotent :
    createMergedGraph ["A", "B", "C"] [⟨"A", "B"⟩, ⟨"A", "C"⟩] =
      some { nodes := [⟨"A", "A", MERGED_METANODE_COLOR⟩,
                       ⟨"B", "[B,\nC]", UNMERGED_METANODE_COLOR⟩],
             edges := [⟨"A", "B"⟩] } ∧
    createMergedGraph ["A", "B"] [⟨"A", "B"⟩] =
      some { nodes := [⟨"A", "\x7bA, B\x7d", MERGED_METANODE_COLOR⟩], edges := [] } ∧
    ¬ ∃ out2, createMergedGraph ["A", "B"] [⟨"A", "B"⟩] = some out2 ∧
      out2.nodes.map MetaNode.id = ["A", "B"] ∧
      (∀ n ∈ out2.nodes, n.label = n.id) ∧
      (∀ e, e ∈ out2.edges ↔ e ∈ [(⟨"A", "B"⟩ : Edge)]) := by
  refine ⟨by decide, by decide, ?_⟩
  rintro ⟨out2, h1, h2, -, -⟩
  have h3 : createMergedGraph ["A", "B"] [⟨"A", "B"⟩] =
      some { nodes := [⟨"A", "\x7bA, B\x7d", MERGED_METANODE_COLOR⟩], edges := [] } := by decide
  rw [h3] at h1
  cases h1
  exact absurd h2 (by decide)

/-- C7 (the code at the failing input): on the nodes `[a`, `b` with the edge `[a–b` the
output is one metanode whose Label Group has the single cluster `{[a, b}`, and its color is
the unmerged color, because the label contains the bracket of the identifier `[a`. -/
theorem color_of_bracket_identifier :
    labelGroups ["[a", "b"] [⟨"[a", "b"⟩] = some [("[a", [["[a", "b"]])] ∧
    createMergedGraph ["[a", "b"] [⟨"[a", "b"⟩] =
      some { nodes := [⟨"[a", "\x7b[a, b\x7d", UNMERGED_METANODE_COLOR⟩], edges := [] } := by
  constructor <;> decide

/-! ## Failure of `createMergedGraph` -/

theorem addEdge_eq_none (adj : Obj (List String)) (e : Edge)
    (h : e.from_ ∉ keys adj ∨ e.to_ ∉ keys adj) : addEdge adj e = none := by
  unfold addEdge
  by_cases hf : e.from_ ∈ keys adj
  · obtain ⟨s, hs⟩ := objGet_of_mem_keys hf
    have ht : e.to_ ∉ keys adj := h.resolve_left (fun hn => hn hf)
    have hk1 : keys (objSet adj e.from_ (setAdd s e.to_)) = keys adj := by
      rw [keys_objSet, if_pos hf]
    have hnone : objGet (objSet adj e.from_ (setAdd s e.to_)) e.to_ = none :=
      (objGet_eq_none_iff _ _).2 (by rw [hk1]; exact ht)
    simp [hs, hnone]
  · simp [(objGet_eq_none_iff adj e.from_).2 hf]

theorem foldlM_addEdge_eq_none (edges : List Edge) : ∀ (adj : Obj (List String)),
    (∃ e ∈ edges, e.from_ ∉ keys adj ∨ e.to_ ∉ keys adj) →
      edges.foldlM addEdge adj = none := by
  induction edges with
  | nil =>
    rintro adj ⟨e, he, -⟩
    exact absurd he (List.not_mem_nil e)
  | cons e es ih =>
    rintro adj ⟨e2, he2, hbad⟩
    rw [List.foldlM_cons]
    by_cases hgood : e.from_ ∈ keys adj ∧ e.to_ ∈ keys adj
    · obtain ⟨adj1, h1, h2, -, -⟩ := addEdge_spec adj e hgood.1 hgood.2
      rw [h1]
      rcases List.mem_cons.1 he2 with rfl | he3
      · exact absurd hgood (by tauto)
      · exact ih adj1 ⟨e2, he3, by rw [h2]; exact hbad⟩
    · rw [addEdge_eq_none adj e (by tauto)]
      rfl

theorem initState_eq_none (nodes : List String) (edges : List Edge)
    (h : ¬ WellFormed nodes edges) : initState nodes edges = none := by
  obtain ⟨-, a2, -⟩ := objectFromEntries_nodes (fun node => setOf [node]) nodes
  have hbad : ∃ e ∈ edges, e.from_ ∉ nodes ∨ e.to_ ∉ nodes := by
    unfold WellFormed at h
    push_neg at h
    obtain ⟨e, he, hx⟩ := h
    exact ⟨e, he, by tauto⟩
  obtain ⟨e, he, hx⟩ := hbad
  have := foldlM_addEdge_eq_none edges
    (objectFromEntries (nodes.map (fun node => (node, setOf [node]))))
    ⟨e, he, by rw [a2, a2]; exact hx⟩
  simp [initState, this]

theorem createMergedGraph_eq_none (nodes : List String) (edges : List Edge)
    (h : ¬ WellFormed nodes edges) : createMergedGraph nodes edges = none := by
  simp [createMergedGraph, reduce, initState_eq_none nodes edges h]

/-- C16 (amended): `createMergedGraph` returns a result exactly when both endpoints of every
edge are in the node list, and fails (the method call on a missing adjacency set throws)
otherwise; when it returns on an empty node list, both returned collections are empty. -/
theorem createMergedGraph_returns_iff (nodes : List String) (edges : List Edge) :
    (WellFormed nodes edges →
      ∃ out, createMergedGraph nodes edges = some out ∧
        (nodes = [] → out.nodes = [] ∧ out.edges = [])) ∧
    (¬ WellFormed nodes edges → createMergedGraph nodes edges = none) := by
  refine ⟨?_, createMergedGraph_eq_none nodes edges⟩
  intro hwf
  obtain ⟨s0, s1, s2, R⟩ := reduce_run nodes edges hwf
  refine ⟨_, R.createMergedGraph_eq, ?_⟩
  rintro rfl
  have hedges : edges = [] := by
    cases edges with
    | nil => rfl
    | cons e es => exact absurd (hwf e (List.mem_cons_self e es)).1 (List.not_mem_nil _)
  subst hedges
  have h := R.createMergedGraph_eq
  have h2 : createMergedGraph [] [] = some { nodes := [], edges := [] } := by decide
  have h3 := Option.some.inj (h.symm.trans h2)
  exact ⟨congrArg MergedGraph.nodes h3, congrArg MergedGraph.edges h3⟩

theorem createMergedGraph_returns_iff_witness :
    WellFormed ["A", "B"] [⟨"A", "B"⟩] ∧ ¬ WellFormed ["A"] [⟨"A", "B"⟩] ∧
      (∃ out, createMergedGraph ["A", "B"] [⟨"A", "B"⟩] = some out ∧
        (["A", "B"] = [] → out.nodes = [] ∧ out.edges = [])) ∧
      createMergedGraph ["A"] [⟨"A", "B"⟩] = none :=
  ⟨by unfold WellFormed; decide, by unfold WellFormed; decide,
    (createMergedGraph_returns_iff ["A", "B"] [⟨"A", "B"⟩]).1 (by unfold WellFormed; decide),
    (createMergedGraph_returns_iff ["A"] [⟨"A", "B"⟩]).2 (by unfold WellFormed; decide)⟩

/-- C16 (counterexample): on the empty node list with one edge, and on a node list that
misses an endpoint of an edge, `createMergedGraph` fails and returns nothing. -/
theorem createMergedGraph_fails :
    createMergedGraph [] [⟨"A", "B"⟩] = none ∧
    createMergedGraph ["A"] [⟨"A", "B"⟩] = none ∧
    ¬ ∃ out, createMergedGraph [] [⟨"A", "B"⟩] = some out ∧ out.nodes = [] ∧ out.edges = [] := by
  refine ⟨by decide, by decide, ?_⟩
  rintro ⟨out, h, -⟩
  have h2 : createMergedGraph [] [⟨"A", "B"⟩] = none := by decide
  rw [h2] at h
  exact Option.noConfusion h

/-! ## The fixed point of the second loop -/

/-- C17: for edges between listed nodes, the last scan of the second loop finds no pair,
so no two distinct output metanodes have equal adjacency sets in the reduced graph, that
is, the same set of neighbouring metanodes along the metaedges. -/
theorem createMergedGraph_fixed_point (nodes : List String) (edges : List Edge)
    (hwf : WellFormed nodes edges) :
    ∃ s out, reduce nodes edges = some s ∧ createMergedGraph nodes edges = some out ∧
      scan cond2 s.adj = none ∧
      (∀ X ∈ out.nodes.map MetaNode.id, ∀ Y ∈ out.nodes.map MetaNode.id, X ≠ Y →
        setEquals (adjGet s.adj X) (adjGet s.adj Y) = false) ∧
      (∀ X ∈ out.nodes.map MetaNode.id, ∀ Y ∈ out.nodes.map MetaNode.id, X ≠ Y →
        ¬ openTwins out.edges X Y) := by
  obtain ⟨s0, s1, s2, R⟩ := reduce_run nodes edges hwf
  have hids : (finalNodes s2).map MetaNode.id = objectKeys s2.adj := by
    simp [finalNodes, Function.comp_def]
  have hno : ∀ X ∈ objectKeys s2.adj, ∀ Y ∈ objectKeys s2.adj, X ≠ Y →
      ¬ Sib s2.adj X Y := by
    intro X hX Y hY hne hs
    rw [mem_objectKeys] at hX hY
    rcases scan_eq_none R.fixed2 hX hY hne with h | h
    · rw [cond2, (setEquals_adj_iff R.wf2 X Y).2 hs] at h
      exact Bool.noConfusion h
    · rw [cond2, (setEquals_adj_iff R.wf2 Y X).2 hs.symm] at h
      exact Bool.noConfusion h
  refine ⟨s2, _, R.result, R.createMergedGraph_eq, R.fixed2, ?_, ?_⟩
  · intro X hX Y hY hne
    show setEquals (adjGet s2.adj X) (adjGet s2.adj Y) = false
    rw [show (MergedGraph.nodes { nodes := finalNodes s2, edges := finalEdges s2 }) =
      finalNodes s2 from rfl, hids] at hX hY
    cases hse : setEquals (adjGet s2.adj X) (adjGet s2.adj Y) with
    | false => rfl
    | true => exact absurd ((setEquals_adj_iff R.wf2 X Y).1 hse) (hno X hX Y hY hne)
  · intro X hX Y hY hne htw
    rw [show (MergedGraph.nodes { nodes := finalNodes s2, edges := finalEdges s2 }) =
      finalNodes s2 from rfl, hids] at hX hY
    refine hno X hX Y hY hne ?_
    intro x
    rw [← adjacent_finalEdges_iff R.wf2 R.irrefl2, ← adjacent_finalEdges_iff R.wf2 R.irrefl2]
    exact htw x

theorem createMergedGraph_fixed_point_witness :
    WellFormed ["A", "B", "C"] [⟨"A", "B"⟩, ⟨"A", "C"⟩] ∧
      ∃ s out, reduce ["A", "B", "C"] [⟨"A", "B"⟩, ⟨"A", "C"⟩] = some s ∧
        createMergedGraph ["A", "B", "C"] [⟨"A", "B"⟩, ⟨"A", "C"⟩] = some out ∧
        scan cond2 s.adj = none ∧
        (∀ X ∈ out.nodes.map MetaNode.id, ∀ Y ∈ out.nodes.map MetaNode.id, X ≠ Y →
          setEquals (adjGet s.adj X) (adjGet s.adj Y) = false) ∧
        (∀ X ∈ out.nodes.map MetaNode.id, ∀ Y ∈ out.nodes.map MetaNode.id, X ≠ Y →
          ¬ openTwins out.edges X Y) :=
  ⟨by unfold WellFormed; decide,
    createMergedGraph_fixed_point ["A", "B", "C"] [⟨"A", "B"⟩, ⟨"A", "C"⟩]
      (by unfold WellFormed; decide)⟩

/-! ## Termination and the number of merges -/

theorem length_removeKey (adj : Obj (List String)) (b : String) (hnd : (keys adj).Nodup)
    (h : b ∈ keys adj) : (removeKey adj b).length + 1 = adj.length := by
  have h1 : (removeKey adj b).length = (keys (removeKey adj b)).length := by simp [keys]
  have h2 : adj.length = (keys adj).length := by simp [keys]
  have hf : (keys adj).filter (fun x => decide (x ≠ b)) = (keys adj).erase b := by
    rw [hnd.erase_eq_filter b]
    refine List.filter_congr ?_
    intro x _
    by_cases hx : x = b <;> simp [hx]
  rw [h1, h2, keys_removeKey, hf, List.length_erase_of_mem h]
  have : 0 < (keys adj).length := List.length_pos_of_mem h
  omega

theorem mergeSteps_add_length (c : Obj (List String) → String → String → Bool)
    (m : State → String → String → State)
    (hm : ∀ s b0 b1, (m s b0 b1).adj = removeKey s.adj b1) :
    ∀ (fuel : Nat) (s : State), (keys s.adj).Nodup →
      (mergeLoop c m fuel s).adj.length + mergeSteps c m fuel s = s.adj.length
  | 0, s, _ => by simp [mergeLoop, mergeSteps]
  | fuel + 1, s, hnd => by
    unfold mergeLoop mergeSteps
    split
    · rfl
    · rename_i b0 b1 hs
      obtain ⟨-, h1, -, -⟩ := scan_some_mem hs hnd
      have ih := mergeSteps_add_length c m hm fuel (m s b0 b1) (by
        rw [hm, keys_removeKey]
        exact hnd.filter _)
      have hlen := length_removeKey s.adj b1 hnd h1
      rw [hm] at ih
      omega

theorem mergeLoop_add_fuel (c : Obj (List String) → String → String → Bool)
    (m : State → String → String → State) (extra : Nat) :
    ∀ (fuel : Nat) (s : State), scan c (mergeLoop c m fuel s).adj = none →
      mergeLoop c m (fuel + extra) s = mergeLoop c m fuel s
  | 0, s, h => by
    simp only [mergeLoop] at h
    rw [Nat.zero_add, mergeLoop_of_scan_none c m extra s h]
    rfl
  | fuel + 1, s, h => by
    have e : fuel + 1 + extra = (fuel + extra) + 1 := by omega
    rw [e]
    unfold mergeLoop at h ⊢
    cases hs : scan c s.adj with
    | none => rfl
    | some p =>
      obtain ⟨b0, b1⟩ := p
      rw [hs] at h
      exact mergeLoop_add_fuel c m extra fuel (m s b0 b1) h

/-- More fuel than the number of live keys changes nothing: the loop has already stopped at
a scan that found no pair. -/
theorem mergeLoop_fuel_stable (c : Obj (List String) → String → String → Bool)
    (m : State → String → String → State)
    (hm : ∀ s b0 b1, (m s b0 b1).adj = removeKey s.adj b1) (s : State)
    (hnd : (keys s.adj).Nodup) (fuel : Nat) (h : s.adj.length ≤ fuel) :
    mergeLoop c m fuel s = mergeLoop c m s.adj.length s ∧
      scan c (mergeLoop c m fuel s).adj = none := by
  have hfix := mergeLoop_fixed c m hm s.adj.length s hnd (le_refl _)
  have := mergeLoop_add_fuel c m (fuel - s.adj.length) s.adj.length s hfix
  have e : s.adj.length + (fuel - s.adj.length) = fuel := by omega
  rw [e] at this
  rw [this]
  exact ⟨rfl, hfix⟩

theorem reduce_eq_of_init {nodes : List String} {edges : List Edge} {s0 : State}
    (h : initState nodes edges = some s0) :
    reduce nodes edges = some (pass2 (startPass2 s0).adj.length (startPass2 s0)) := by
  simp [reduce, h, startPass2]

theorem run_of_init {nodes : List String} {edges : List Edge} {s0 : State}
    (hwf : WellFormed nodes edges) (h : initState nodes edges = some s0) :
    Run nodes edges s0 (pass1 s0.adj.length s0)
      (pass2 (startPass2 s0).adj.length (startPass2 s0)) := by
  obtain ⟨t0, hinit, hwf0, hkeys0, hadj0, hlab0, -⟩ := initState_spec nodes edges hwf
  have ht : t0 = s0 := Option.some.inj (hinit.symm.trans h)
  subst ht
  have hl0 : ∀ k ∈ keys t0.adj, labelsGet t0.labels k = [[k]] :=
    fun k hk => hlab0 k ((hkeys0 k).1 hk)
  have h1 := mergeLoop_induct cond1 merge1
    (fun s => Inv t0.adj (fun r => [r]) members s ∧
      ∀ k ∈ keys s.adj, ∃ c, labelsGet s.labels k = [c])
    (fun s b0 b1 h hs => inv1_step hwf0 s b0 b1 h hs) t0.adj.length t0
    ⟨inv1_init hwf0 hl0, fun k hk => ⟨[k], hl0 k hk⟩⟩
  have hfix1 := mergeLoop_fixed cond1 merge1 (fun _ _ _ => rfl) t0.adj.length t0
    hwf0.nodupKeys (le_refl _)
  have hwf1 : GraphWF (removeSelfLoops (pass1 t0.adj.length t0).adj) :=
    (h1.1.liveGraphWF hwf0).afterRemoveSelfLoops
  have h2 := mergeLoop_induct cond2 merge2
    (fun s => Inv (removeSelfLoops (pass1 t0.adj.length t0).adj)
      (labelsGet (pass1 t0.adj.length t0).labels) labelsGet s)
    (fun s b0 b1 h hs => inv2_step hwf1 s b0 b1 h hs)
    (startPass2 t0).adj.length (startPass2 t0) (inv2_init _ _ hwf1)
  have hfix2 := mergeLoop_fixed cond2 merge2 (fun _ _ _ => rfl)
    (startPass2 t0).adj.length (startPass2 t0) hwf1.nodupKeys (le_refl _)
  exact {
    result := reduce_eq_of_init hinit
    wf0 := hwf0
    keys0 := hkeys0
    adj0 := hadj0
    inv1 := h1.1
    single1 := h1.2
    fixed1 := hfix1
    wf1 := hwf1
    inv2 := h2
    fixed2 := hfix2 }

/-- C18: for a duplicate-free list of `n` nodes and edges between listed nodes, every round
that merges removes exactly one live key, both loops stop at a scan that finds no pair
whatever fuel of at least `n` rounds they are given, the two loops together perform at most
`n - 1` merges, and the number of output metanodes is `n` minus the number of merges: at
most `n`, and at least `1` when `n ≥ 1`. -/
theorem createMergedGraph_terminates (nodes : List String) (edges : List Edge)
    (hnd : nodes.Nodup) (hwf : WellFormed nodes edges) :
    ∃ s0 out, initState nodes edges = some s0 ∧ createMergedGraph nodes edges = some out ∧
      (∀ s b0 b1, (keys s.adj).Nodup → scan cond1 s.adj = some (b0, b1) →
        (merge1 s b0 b1).adj.length + 1 = s.adj.length) ∧
      (∀ s b0 b1, (keys s.adj).Nodup → scan cond2 s.adj = some (b0, b1) →
        (merge2 s b0 b1).adj.length + 1 = s.adj.length) ∧
      (∀ fuel, nodes.length ≤ fuel →
        pass1 fuel s0 = pass1 s0.adj.length s0 ∧ scan cond1 (pass1 fuel s0).adj = none) ∧
      (∀ fuel, nodes.length ≤ fuel →
        pass2 fuel (startPass2 s0) = pass2 (startPass2 s0).adj.length (startPass2 s0) ∧
          scan cond2 (pass2 fuel (startPass2 s0)).adj = none) ∧
      out.nodes.length + (mergeSteps cond1 merge1 s0.adj.length s0 +
        mergeSteps cond2 merge2 (startPass2 s0).adj.length (startPass2 s0)) = nodes.length ∧
      mergeSteps cond1 merge1 s0.adj.length s0 +
        mergeSteps cond2 merge2 (startPass2 s0).adj.length (startPass2 s0) ≤ nodes.length - 1 ∧
      out.nodes.length ≤ nodes.length ∧
      (1 ≤ nodes.length → 1 ≤ out.nodes.length) := by
  obtain ⟨s0, hinit, hwf0, -, -, -, hk⟩ := initState_spec nodes edges hwf
  rw [keys_objectFromEntries _ hnd] at hk
  have R := run_of_init hwf hinit
  have hlen0 : s0.adj.length = nodes.length := by
    have : s0.adj.length = (keys s0.adj).length := by simp [keys]
    rw [this, hk]
  have hwf1 := R.inv1.liveGraphWF hwf0
  have hlen1 : (startPass2 s0).adj.length = (pass1 s0.adj.length s0).adj.length := by
    simp [startPass2, removeSelfLoops]
  have hc1 : (pass1 s0.adj.length s0).adj.length + mergeSteps cond1 merge1 s0.adj.length s0 =
      s0.adj.length :=
    mergeSteps_add_length cond1 merge1 (fun _ _ _ => rfl) s0.adj.length s0 hwf0.nodupKeys
  have hc2 : (pass2 (startPass2 s0).adj.length (startPass2 s0)).adj.length +
      mergeSteps cond2 merge2 (startPass2 s0).adj.length (startPass2 s0) =
      (startPass2 s0).adj.length :=
    mergeSteps_add_length cond2 merge2 (fun _ _ _ => rfl)
      (startPass2 s0).adj.length (startPass2 s0) R.wf1.nodupKeys
  have hout : (finalNodes (pass2 (startPass2 s0).adj.length (startPass2 s0))).length =
      (pass2 (startPass2 s0).adj.length (startPass2 s0)).adj.length := by
    have h1 : (finalNodes (pass2 (startPass2 s0).adj.length (startPass2 s0))).length =
        (objectKeys (pass2 (startPass2 s0).adj.length (startPass2 s0)).adj).length := by
      simp [finalNodes]
    rw [h1, (objectKeys_perm _).length_eq]
    simp [keys]
  have hpos : 1 ≤ nodes.length →
      1 ≤ (pass2 (startPass2 s0).adj.length (startPass2 s0)).adj.length := by
    intro hn
    have hperm := R.members_perm.length_eq
    rw [hk] at hperm
    by_contra hlt
    have hnil : (pass2 (startPass2 s0).adj.length (startPass2 s0)).adj = [] :=
      List.length_eq_zero.1 (by omega)
    rw [hnil] at hperm
    simp [objectKeys, jsKeyOrder] at hperm
    omega
  refine ⟨s0, _, hinit, R.createMergedGraph_eq, ?_, ?_, ?_, ?_, ?_, ?_, ?_, ?_⟩
  · intro s b0 b1 hs hscan
    exact length_removeKey s.adj b1 hs (scan_some_mem hscan hs).2.1
  · intro s b0 b1 hs hscan
    exact length_removeKey s.adj b1 hs (scan_some_mem hscan hs).2.1
  · intro fuel hf
    exact mergeLoop_fuel_stable cond1 merge1 (fun _ _ _ => rfl) s0 hwf0.nodupKeys fuel
      (by omega)
  · intro fuel hf
    exact mergeLoop_fuel_stable cond2 merge2 (fun _ _ _ => rfl) (startPass2 s0)
      R.wf1.nodupKeys fuel (by omega)
  · show (finalNodes _).length + _ = _
    rw [hout]
    omega
  · by_cases hn : 1 ≤ nodes.length
    · have := hpos hn
      omega
    · omega
  · show (finalNodes _).length ≤ _
    rw [hout]
    omega
  · intro hn
    show 1 ≤ (finalNodes _).length
    rw [hout]
    exact hpos hn

theorem createMergedGraph_terminates_witness :
    ["A", "B", "C"].Nodup ∧ WellFormed ["A", "B", "C"] [⟨"A", "B"⟩, ⟨"A", "C"⟩] ∧
      ∃ s0 out, initState ["A", "B", "C"] [⟨"A", "B"⟩, ⟨"A", "C"⟩] = some s0 ∧
        createMergedGraph ["A", "B", "C"] [⟨"A", "B"⟩, ⟨"A", "C"⟩] = some out ∧
        out.nodes.length + (mergeSteps cond1 merge1 s0.adj.length s0 +
          mergeSteps cond2 merge2 (startPass2 s0).adj.length (startPass2 s0)) = 3 ∧
        1 ≤ out.nodes.length := by
  obtain ⟨s0, out, h1, h2, -, -, -, -, h3, -, -, h4⟩ :=
    createMergedGraph_terminates ["A", "B", "C"] [⟨"A", "B"⟩, ⟨"A", "C"⟩] (by decide)
      (by unfold WellFormed; decide)
  exact ⟨by decide, by unfold WellFormed; decide, s0, out, h1, h2, h3, h4 (by decide)⟩

/-! ## The test of the first loop -/

theorem findSome?_congr_mem {α β : Type} {f g : α → Option β} :
    ∀ l : List α, (∀ x ∈ l, f x = g x) → l.findSome? f = l.findSome? g
  | [], _ => rfl
  | a :: l, h => by
    rw [List.findSome?_cons, List.findSome?_cons, h a (List.mem_cons_self a l),
      findSome?_congr_mem l (fun x hx => h x (List.mem_cons_of_mem a hx))]

theorem scan_congr {c d : Obj (List String) → String → String → Bool}
    {adj : Obj (List String)}
    (h : ∀ b0 b1, b0 ∈ keys adj → b1 ∈ keys adj → c adj b0 b1 = d adj b0 b1) :
    scan c adj = scan d adj := by
  unfold scan
  refine findSome?_congr_mem _ ?_
  intro p hp
  rw [combinations_two, mem_subseqs] at hp
  obtain ⟨hsub, hlen⟩ := hp
  match p, hlen, hsub with
  | [x, y], _, hsub =>
    have hx : x ∈ keys adj := (mem_objectKeys adj x).1 (hsub.subset (by simp))
    have hy : y ∈ keys adj := (mem_objectKeys adj y).1 (hsub.subset (by simp))
    simp only
    rw [h x y hx hy]

theorem mergeLoop_congr (c d : Obj (List String) → String → String → Bool)
    (m : State → String → String → State) (P : State → Prop)
    (hstep : ∀ s b0 b1, P s → scan c s.adj = some (b0, b1) → P (m s b0 b1))
    (hcd : ∀ s, P s → scan d s.adj = scan c s.adj) :
    ∀ (fuel : Nat) (s : State), P s → mergeLoop d m fuel s = mergeLoop c m fuel s
  | 0, _, _ => rfl
  | fuel + 1, s, h => by
    unfold mergeLoop
    rw [hcd s h]
    cases hs : scan c s.adj with
    | none => rfl
    | some p =>
      obtain ⟨b0, b1⟩ := p
      exact mergeLoop_congr c d m P hstep hcd fuel _ (hstep s b0 b1 h hs)

/-- In a graph in which every live key is in its own adjacency set, the equality test of
the first loop implies its adjacency test. -/
theorem cond1_eq_cond2 {adj : Obj (List String)} (hwf : GraphWF adj)
    (hrefl : ∀ k ∈ keys adj, k ∈ adjGet adj k) {b0 b1 : String} (h1 : b1 ∈ keys adj) :
    cond1 adj b0 b1 = cond2 adj b0 b1 := by
  unfold cond1 cond2
  cases hse : setEquals (adjGet adj b0) (adjGet adj b1) with
  | false => simp
  | true =>
    have hs : Sib adj b0 b1 := (setEquals_adj_iff hwf b0 b1).1 hse
    have : setHas (adjGet adj b0) b1 = true := (setHas_iff _ _).2 ((hs b1).2 (hrefl b1 h1))
    simp [this]

theorem pass1_inv {nodes : List String} {edges : List Edge} {s0 : State}
    (hwf : WellFormed nodes edges) (h : initState nodes edges = some s0) (fuel : Nat) :
    GraphWF s0.adj ∧ Inv s0.adj (fun r => [r]) members (pass1 fuel s0) ∧
      (∀ k ∈ keys (pass1 fuel s0).adj, k ∈ adjGet (pass1 fuel s0).adj k) := by
  obtain ⟨t0, hinit, hwf0, hkeys0, hadj0, hlab0, -⟩ := initState_spec nodes edges hwf
  have ht : t0 = s0 := Option.some.inj (hinit.symm.trans h)
  subst ht
  have hl0 : ∀ k ∈ keys t0.adj, labelsGet t0.labels k = [[k]] :=
    fun k hk => hlab0 k ((hkeys0 k).1 hk)
  have h1 := mergeLoop_induct cond1 merge1
    (fun s => Inv t0.adj (fun r => [r]) members s ∧
      ∀ k ∈ keys s.adj, ∃ c, labelsGet s.labels k = [c])
    (fun s b0 b1 h hs => inv1_step hwf0 s b0 b1 h hs) fuel t0
    ⟨inv1_init hwf0 hl0, fun k hk => ⟨[k], hl0 k hk⟩⟩
  refine ⟨hwf0, h1.1, ?_⟩
  intro k hk
  have hk0 : k ∈ keys t0.adj := h1.1.mem_base hk
  exact (h1.1.induced.mem_iff hk).2 ⟨(hadj0 k k).2 ⟨(hkeys0 k).1 hk0, Or.inl rfl⟩, hk⟩

theorem pass1SetEquals_eq {nodes : List String} {edges : List Edge} {s0 : State}
    (hwf : WellFormed nodes edges) (h : initState nodes edges = some s0) (fuel : Nat) :
    pass1SetEquals fuel s0 = pass1 fuel s0 := by
  obtain ⟨t0, hinit, hwf0, hkeys0, hadj0, hlab0, -⟩ := initState_spec nodes edges hwf
  have ht : t0 = s0 := Option.some.inj (hinit.symm.trans h)
  subst ht
  have hl0 : ∀ k ∈ keys t0.adj, labelsGet t0.labels k = [[k]] :=
    fun k hk => hlab0 k ((hkeys0 k).1 hk)
  refine mergeLoop_congr cond1 cond2 merge1
    (fun s => Inv t0.adj (fun r => [r]) members s ∧
      ∀ k ∈ keys s.adj, ∃ c, labelsGet s.labels k = [c])
    (fun s b0 b1 h hs => inv1_step hwf0 s b0 b1 h hs) ?_ fuel t0
    ⟨inv1_init hwf0 hl0, fun k hk => ⟨[k], hl0 k hk⟩⟩
  intro s hP
  refine scan_congr ?_
  intro b0 b1 _ hb1
  refine (cond1_eq_cond2 (hP.1.liveGraphWF hwf0) ?_ hb1).symm
  intro k hk
  have hk0 : k ∈ keys t0.adj := hP.1.mem_base hk
  exact (hP.1.induced.mem_iff hk).2 ⟨(hadj0 k k).2 ⟨(hkeys0 k).1 hk0, Or.inl rfl⟩, hk⟩

/-- C20: at every state that the first loop reaches every live key is in its own adjacency
set, so for two live keys the equality test implies the adjacency test and both tests give
the same scan; the first loop with the equality test alone reaches the same states, and
`createMergedGraph` with that loop returns the same result on every input. -/
theorem pass1_test_redundant (nodes : List String) (edges : List Edge) :
    createMergedGraphSetEquals nodes edges = createMergedGraph nodes edges ∧
    ∀ s0, initState nodes edges = some s0 → ∀ fuel,
      pass1SetEquals fuel s0 = pass1 fuel s0 ∧
      (∀ k ∈ keys (pass1 fuel s0).adj, k ∈ adjGet (pass1 fuel s0).adj k) ∧
      (∀ b0 ∈ keys (pass1 fuel s0).adj, ∀ b1 ∈ keys (pass1 fuel s0).adj,
        setEquals (adjGet (pass1 fuel s0).adj b0) (adjGet (pass1 fuel s0).adj b1) = true →
          setHas (adjGet (pass1 fuel s0).adj b0) b1 = true) ∧
      scan cond2 (pass1 fuel s0).adj = scan cond1 (pass1 fuel s0).adj := by
  by_cases hwf : WellFormed nodes edges
  · constructor
    · obtain ⟨s0, hinit, -⟩ := initState_spec nodes edges hwf
      simp only [createMergedGraphSetEquals, createMergedGraph, reduce, hinit,
        Option.map_some', pass1SetEquals_eq hwf hinit]
    · intro s0 hinit fuel
      obtain ⟨hwf0, hinv, hrefl⟩ := pass1_inv hwf hinit fuel
      have hg := hinv.liveGraphWF hwf0
      refine ⟨pass1SetEquals_eq hwf hinit fuel, hrefl, ?_, ?_⟩
      · intro b0 _ b1 hb1 hse
        have : cond1 (pass1 fuel s0).adj b0 b1 = cond2 (pass1 fuel s0).adj b0 b1 :=
          cond1_eq_cond2 hg hrefl hb1
        simp only [cond1, cond2, hse, Bool.and_true] at this
        exact this
      · exact scan_congr (fun b0 b1 _ hb1 => (cond1_eq_cond2 hg hrefl hb1).symm)
  · constructor
    · simp [createMergedGraphSetEquals, createMergedGraph, reduce,
        initState_eq_none nodes edges hwf]
    · intro s0 hinit
      rw [initState_eq_none nodes edges hwf] at hinit
      exact Option.noConfusion hinit

theorem pass1_test_redundant_witness :
    ∃ s0, initState ["A", "B", "C"] [⟨"A", "B"⟩, ⟨"B", "C"⟩, ⟨"A", "C"⟩] = some s0 ∧
      pass1SetEquals 3 s0 = pass1 3 s0 ∧
      scan cond2 (pass1 1 s0).adj = scan cond1 (pass1 1 s0).adj ∧
      createMergedGraphSetEquals ["A", "B", "C"] [⟨"A", "B"⟩, ⟨"B", "C"⟩, ⟨"A", "C"⟩] =
        createMergedGraph ["A", "B", "C"] [⟨"A", "B"⟩, ⟨"B", "C"⟩, ⟨"A", "C"⟩] := by
  obtain ⟨s0, h, -⟩ := initState_spec ["A", "B", "C"] [⟨"A", "B"⟩, ⟨"B", "C"⟩, ⟨"A", "C"⟩]
    (by unfold WellFormed; decide)
  have key := pass1_test_redundant ["A", "B", "C"] [⟨"A", "B"⟩, ⟨"B", "C"⟩, ⟨"A", "C"⟩]
  exact ⟨s0, h, (key.2 s0 h 3).1, (key.2 s0 h 1).2.2.2, key.1⟩

/-! ## Independence of the input order -/

section RunLemmas5

variable {nodes : List String} {edges : List Edge} {s0 s1 s2 : State}

theorem Run.adjacent_mem_nodes (R : Run nodes edges s0 s1 s2) {u y : String}
    (hu : u ∈ nodes) (h : adjacent edges u y) : y ∈ nodes :=
  (R.keys0 y).1 (R.wf0.closed u y ((R.adj0 u y).2 ⟨hu, Or.inr h⟩))

/-- A neighbour of `w` that is not a twin of `w` can be replaced by any of its twins. -/
theorem Run.transfer (R : Run nodes edges s0 s1 s2) {w x y : String} (hw : w ∈ nodes)
    (hxy : Sib s0.adj y x) (h : adjacent edges w y ∧ ¬ Sib s0.adj w y) :
    adjacent edges w x ∧ ¬ Sib s0.adj w x := by
  obtain ⟨h1, h2⟩ := h
  have h3 : y ∈ adjGet s0.adj w := (R.adj0 w y).2 ⟨hw, Or.inr h1⟩
  have h4 : w ∈ adjGet s0.adj x := (hxy w).1 (R.wf0.symm w y h3)
  have h5 : x ∈ adjGet s0.adj w := R.wf0.symm x w h4
  have h6 : ¬ Sib s0.adj w x := fun hs => h2 (hs.trans hxy.symm)
  refine ⟨?_, h6⟩
  rcases ((R.adj0 w x).1 h5).2 with h7 | h7
  · exact absurd (h7 ▸ Sib.refl s0.adj w) h6
  · exact h7

/-- The neighbours of a key of the first loop in the graph of the second loop are the live
neighbours of its twins that are not twins of them. -/
theorem Run.mem_base2_of_rep (R : Run nodes edges s0 s1 s2) {u r x : String}
    (hu : u ∈ nodes) (hr : r ∈ keys s1.adj) (hur : Sib s0.adj u r) (hx : x ∈ keys s1.adj) :
    x ∈ adjGet (removeSelfLoops s1.adj) r ↔ adjacent edges u x ∧ ¬ Sib s0.adj u x := by
  rw [R.mem_base2_iff hr x]
  have hrn := R.mem_nodes hr
  constructor
  · rintro ⟨_, hne, hadj⟩
    have h1 : x ∈ adjGet s0.adj u := (hur x).2 ((R.adj0 r x).2 ⟨hrn, Or.inr hadj⟩)
    have h2 : ¬ Sib s0.adj u x := by
      intro hs
      exact hne (R.rep1_unique hx hr (hs.symm.trans hur))
    refine ⟨?_, h2⟩
    rcases ((R.adj0 u x).1 h1).2 with h3 | h3
    · exact absurd (h3 ▸ Sib.refl s0.adj u) h2
    · exact h3
  · rintro ⟨hadj, hns⟩
    have h1 : x ∈ adjGet s0.adj r := (hur x).1 ((R.adj0 u x).2 ⟨hu, Or.inr hadj⟩)
    have hne : x ≠ r := by
      rintro rfl
      exact hns hur
    refine ⟨hx, hne, ?_⟩
    rcases ((R.adj0 r x).1 h1).2 with h3 | h3
    · exact absurd h3 hne
    · exact h3

theorem Run.groupTwins_iff (R : Run nodes edges s0 s1 s2) {u v : String} (hu : u ∈ nodes)
    (hv : v ∈ nodes) :
    groupTwins edges u v ↔
      ∀ y, (adjacent edges u y ∧ ¬ Sib s0.adj u y) ↔ (adjacent edges v y ∧ ¬ Sib s0.adj v y) := by
  unfold groupTwins
  refine forall_congr' (fun y => ?_)
  have e1 : (adjacent edges u y ∧ ¬ closedTwins edges u y) ↔
      (adjacent edges u y ∧ ¬ Sib s0.adj u y) :=
    and_congr_right (fun h => by rw [R.sib0_iff hu (R.adjacent_mem_nodes hu h)])
  have e2 : (adjacent edges v y ∧ ¬ closedTwins edges v y) ↔
      (adjacent edges v y ∧ ¬ Sib s0.adj v y) :=
    and_congr_right (fun h => by rw [R.sib0_iff hv (R.adjacent_mem_nodes hv h)])
  rw [e1, e2]

/-- Two input nodes have the same neighbours up to twins exactly when their keys of the
first loop have the same neighbours in the graph of the second loop. -/
theorem Run.sib_base2_iff (R : Run nodes edges s0 s1 s2) {u v ru rv : String}
    (hu : u ∈ nodes) (hv : v ∈ nodes) (hru : ru ∈ keys s1.adj) (hrv : rv ∈ keys s1.adj)
    (hur : Sib s0.adj u ru) (hvr : Sib s0.adj v rv) :
    Sib (removeSelfLoops s1.adj) ru rv ↔ groupTwins edges u v := by
  rw [R.groupTwins_iff hu hv]
  constructor
  · intro hs y
    have key : ∀ {a b ra rb : String}, a ∈ nodes → b ∈ nodes → ra ∈ keys s1.adj →
        rb ∈ keys s1.adj → Sib s0.adj a ra → Sib s0.adj b rb →
        Sib (removeSelfLoops s1.adj) ra rb →
        adjacent edges a y ∧ ¬ Sib s0.adj a y → adjacent edges b y ∧ ¬ Sib s0.adj b y := by
      intro a b ra rb ha hb hra hrb har hbr hsab hy
      have hyn := R.adjacent_mem_nodes ha hy.1
      obtain ⟨x, c, hx, hyx, -, -⟩ := R.cluster1 hyn
      have h1 := R.transfer ha hyx hy
      have h2 := (R.mem_base2_of_rep ha hra har hx).2 h1
      have h3 := (R.mem_base2_of_rep hb hrb hbr hx).1 ((hsab x).1 h2)
      exact R.transfer hb hyx.symm h3
    exact ⟨key hu hv hru hrv hur hvr hs, key hv hu hrv hru hvr hur hs.symm⟩
  · intro hq x
    constructor
    · intro hx
      have hx1 : x ∈ keys s1.adj := ((R.mem_base2_iff hru x).1 hx).1
      exact (R.mem_base2_of_rep hv hrv hvr hx1).2
        ((hq x).1 ((R.mem_base2_of_rep hu hru hur hx1).1 hx))
    · intro hx
      have hx1 : x ∈ keys s1.adj := ((R.mem_base2_iff hrv x).1 hx).1
      exact (R.mem_base2_of_rep hu hru hur hx1).2
        ((hq x).2 ((R.mem_base2_of_rep hv hrv hvr hx1).1 hx))

theorem Run.sameGroup_iff (R : Run nodes edges s0 s1 s2) {u v : String}
    (hu : u ∈ nodes) (hv : v ∈ nodes) :
    sameGroup ((objectKeys s2.adj).map (fun k => (k, labelsGet s2.labels k))) u v ↔
      groupTwins edges u v := by
  constructor
  · rintro ⟨g, hg, hug, hvg⟩
    obtain ⟨hg1, hg2⟩ := (mem_groups s2 g).1 hg
    rw [hg2] at hug hvg
    obtain ⟨cu, hcu, hucu⟩ := List.mem_flatten.1 hug
    obtain ⟨cv, hcv, hvcv⟩ := List.mem_flatten.1 hvg
    obtain ⟨ru, hru, hlu, hsu⟩ := R.sound2 hg1 hcu
    obtain ⟨rv, hrv, hlv, hsv⟩ := R.sound2 hg1 hcv
    have hur := (R.sound1 hru (by simp [hlu]) hucu).2
    have hvr := (R.sound1 hrv (by simp [hlv]) hvcv).2
    exact (R.sib_base2_iff hu hv hru hrv hur hvr).1 (hsu.trans hsv.symm)
  · intro hq
    obtain ⟨ru, cu, hru, hur, hlu, hucu⟩ := R.cluster1 hu
    obtain ⟨rv, cv, hrv, hvr, hlv, hvcv⟩ := R.cluster1 hv
    have hs := (R.sib_base2_iff hu hv hru hrv hur hvr).2 hq
    obtain ⟨ku, hku, hsu, hcku⟩ := R.cluster2 hru hlu
    obtain ⟨kv, hkv, hsv, hckv⟩ := R.cluster2 hrv hlv
    have hk : ku = kv := R.rep2_unique hku hkv (hsu.symm.trans (hs.trans hsv))
    subst hk
    exact ⟨(ku, labelsGet s2.labels ku), (mem_groups s2 _).2 ⟨hku, rfl⟩,
      List.mem_flatten.2 ⟨cu, hcku, hucu⟩, List.mem_flatten.2 ⟨cv, hckv, hvcv⟩⟩

end RunLemmas5

theorem unique_of_nodup_flatMap {α β : Type} {L : List α} {f : α → List β}
    (h : (L.flatMap f).Nodup) {a b : α} (ha : a ∈ L) (hb : b ∈ L) {u : β} (hua : u ∈ f a)
    (hub : u ∈ f b) : a = b := by
  by_contra hne
  have hp := (List.nodup_flatMap.1 h).2
  have hsymm : Symmetric (fun a b : α => (f a).Disjoint (f b)) :=
    fun _ _ hd => hd.symm
  exact hp.forall hsymm ha hb hne hua hub

section PartitionLemmas

variable {nodes : List String} {G H : List (String × List (List String))}

theorem Partitioned.group_unique (P : Partitioned nodes G) {g1 g2 : String × List (List String)}
    (h1 : g1 ∈ G) (h2 : g2 ∈ G) {u : String} (hu1 : u ∈ g1.2.flatten)
    (hu2 : u ∈ g2.2.flatten) : g1 = g2 :=
  unique_of_nodup_flatMap P.nodup h1 h2 hu1 hu2

theorem Partitioned.cluster_unique (P : Partitioned nodes G)
    {g1 g2 : String × List (List String)} (h1 : g1 ∈ G) (h2 : g2 ∈ G) {c1 c2 : List String}
    (hc1 : c1 ∈ g1.2) (hc2 : c2 ∈ g2.2) {u : String} (hu1 : u ∈ c1) (hu2 : u ∈ c2) :
    c1 = c2 := by
  have hg : g1 = g2 := P.group_unique h1 h2 (List.mem_flatten.2 ⟨c1, hc1, hu1⟩)
    (List.mem_flatten.2 ⟨c2, hc2, hu2⟩)
  subst hg
  have hnd : (g1.2.flatMap id).Nodup := by
    rw [List.flatMap_id]
    exact (List.nodup_flatMap.1 P.nodup).1 g1 h1
  exact unique_of_nodup_flatMap hnd hc1 hc2 hu1 hu2

/-- Two partitions of the same nodes that put the same pairs of nodes in one group consist
of the same groups, as sets of nodes. -/
theorem Partitioned.groups_match (P : Partitioned nodes G) (Q : Partitioned nodes H)
    (h : ∀ u ∈ nodes, ∀ v ∈ nodes, (sameGroup G u v ↔ sameGroup H u v)) :
    ∀ g ∈ G, ∃ g2 ∈ H, ∀ x, x ∈ g.2.flatten ↔ x ∈ g2.2.flatten := by
  intro g hg
  obtain ⟨c, hc⟩ := P.groupNonempty g hg
  obtain ⟨u, hu⟩ := P.nonempty g hg c hc
  have hun := P.sound g hg c hc u hu
  have hug : u ∈ g.2.flatten := List.mem_flatten.2 ⟨c, hc, hu⟩
  obtain ⟨g2, hg2, c2, hc2, hu2⟩ := Q.cover u hun
  have hug2 : u ∈ g2.2.flatten := List.mem_flatten.2 ⟨c2, hc2, hu2⟩
  refine ⟨g2, hg2, fun x => ⟨fun hx => ?_, fun hx => ?_⟩⟩
  · obtain ⟨cx, hcx, hxc⟩ := List.mem_flatten.1 hx
    have hxn := P.sound g hg cx hcx x hxc
    obtain ⟨g3, hg3, h1, h2⟩ := (h u hun x hxn).1 ⟨g, hg, hug, hx⟩
    have := Q.group_unique hg3 hg2 h1 hug2
    subst this
    exact h2
  · obtain ⟨cx, hcx, hxc⟩ := List.mem_flatten.1 hx
    have hxn := Q.sound g2 hg2 cx hcx x hxc
    obtain ⟨g3, hg3, h1, h2⟩ := (h u hun x hxn).2 ⟨g2, hg2, hug2, hx⟩
    have := P.group_unique hg3 hg h1 hug
    subst this
    exact h2

/-- Two partitions of the same nodes that put the same pairs of nodes in one cluster
consist of the same clusters, as sets of nodes. -/
theorem Partitioned.clusters_match (P : Partitioned nodes G) (Q : Partitioned nodes H)
    (h : ∀ u ∈ nodes, ∀ v ∈ nodes, (sameCluster G u v ↔ sameCluster H u v)) :
    ∀ g ∈ G, ∀ c ∈ g.2, ∃ g2 ∈ H, ∃ c2 ∈ g2.2, ∀ x, x ∈ c ↔ x ∈ c2 := by
  intro g hg c hc
  obtain ⟨u, hu⟩ := P.nonempty g hg c hc
  have hun := P.sound g hg c hc u hu
  obtain ⟨g2, hg2, c2, hc2, hu2⟩ := Q.cover u hun
  refine ⟨g2, hg2, c2, hc2, fun x => ⟨fun hx => ?_, fun hx => ?_⟩⟩
  · have hxn := P.sound g hg c hc x hx
    obtain ⟨g3, hg3, c3, hc3, h1, h2⟩ := (h u hun x hxn).1 ⟨g, hg, c, hc, hu, hx⟩
    have := Q.cluster_unique hg3 hg2 hc3 hc2 h1 hu2
    subst this
    exact h2
  · have hxn := Q.sound g2 hg2 c2 hc2 x hx
    obtain ⟨g3, hg3, c3, hc3, h1, h2⟩ := (h u hun x hxn).2 ⟨g2, hg2, c2, hc2, hu2, hx⟩
    have := P.cluster_unique hg3 hg hc3 hc h1 hu
    subst this
    exact h2

end PartitionLemmas

theorem Run.partitioned {nodes : List String} {edges : List Edge} {s0 s1 s2 : State}
    (R : Run nodes edges s0 s1 s2) :
    Partitioned nodes ((objectKeys s2.adj).map (fun k => (k, labelsGet s2.labels k))) := by
  have hflat : ((objectKeys s2.adj).map (fun k => (k, labelsGet s2.labels k))).flatMap
      (fun g => g.2.flatten) = (objectKeys s2.adj).flatMap (members s2.labels) := by
    rw [List.flatMap_map]
    rfl
  refine ⟨?_, ?_, ?_, ?_, ?_⟩
  · rw [hflat]
    exact R.members_nodup
  · intro u hu
    have := (R.mem_members_iff u).2 hu
    rw [← hflat] at this
    obtain ⟨g, hg, hug⟩ := List.mem_flatMap.1 this
    obtain ⟨c, hc, huc⟩ := List.mem_flatten.1 hug
    exact ⟨g, hg, c, hc, huc⟩
  · intro g hg c hc u hu
    apply (R.mem_members_iff u).1
    rw [← hflat]
    exact List.mem_flatMap.2 ⟨g, hg, List.mem_flatten.2 ⟨c, hc, hu⟩⟩
  · intro g hg c hc
    obtain ⟨hg1, hg2⟩ := (mem_groups s2 g).1 hg
    rw [hg2] at hc
    obtain ⟨r, hr, hlr, -⟩ := R.sound2 hg1 hc
    obtain ⟨k, c2, hk, hs, hl, hrc⟩ := R.cluster1 (R.mem_nodes hr)
    have hrk : r = k := R.rep1_unique hr hk hs
    subst hrk
    rw [hlr] at hl
    have : c = c2 := by simpa using hl
    subst this
    exact ⟨r, hrc⟩
  · intro g hg
    obtain ⟨hg1, hg2⟩ := (mem_groups s2 g).1 hg
    obtain ⟨c, hc, -⟩ := List.mem_flatten.1 (R.key_mem_members hg1)
    exact ⟨c, by rw [hg2]; exact hc⟩

theorem adjacent_congr {edges edges2 : List Edge} (h : ∀ e, e ∈ edges ↔ e ∈ edges2)
    (u v : String) : adjacent edges u v ↔ adjacent edges2 u v := by
  unfold adjacent
  constructor
  · rintro ⟨e, he, hx⟩
    exact ⟨e, (h e).1 he, hx⟩
  · rintro ⟨e, he, hx⟩
    exact ⟨e, (h e).2 he, hx⟩

theorem closedTwins_congr {edges edges2 : List Edge} (h : ∀ e, e ∈ edges ↔ e ∈ edges2)
    (u v : String) : closedTwins edges u v ↔ closedTwins edges2 u v := by
  unfold closedTwins
  refine forall_congr' (fun x => ?_)
  rw [adjacent_congr h u x, adjacent_congr h v x]

theorem groupTwins_congr {edges edges2 : List Edge} (h : ∀ e, e ∈ edges ↔ e ∈ edges2)
    (u v : String) : groupTwins edges u v ↔ groupTwins edges2 u v := by
  unfold groupTwins
  refine forall_congr' (fun y => ?_)
  rw [adjacent_congr h u y, adjacent_congr h v y, closedTwins_congr h u y,
    closedTwins_congr h v y]

/-- C19: for two orderings of the same nodes and of the same edges (edges between listed
nodes), the two outputs put the same pairs of nodes in one Label Group and the same pairs
of nodes in one cluster, so the Label Groups of the two outputs are the same sets of nodes
and so are their clusters. -/
theorem createMergedGraph_order_independent (nodes nodes2 : List String)
    (edges edges2 : List Edge) (hn : nodes.Perm nodes2) (he : edges.Perm edges2)
    (hwf : WellFormed nodes edges) :
    ∃ G H, labelGroups nodes edges = some G ∧ labelGroups nodes2 edges2 = some H ∧
      (∀ u ∈ nodes, ∀ v ∈ nodes,
        (sameGroup G u v ↔ sameGroup H u v) ∧ (sameCluster G u v ↔ sameCluster H u v)) ∧
      (∀ g ∈ G, ∃ g2 ∈ H, ∀ x, x ∈ g.2.flatten ↔ x ∈ g2.2.flatten) ∧
      (∀ g2 ∈ H, ∃ g ∈ G, ∀ x, x ∈ g2.2.flatten ↔ x ∈ g.2.flatten) ∧
      (∀ g ∈ G, ∀ c ∈ g.2, ∃ g2 ∈ H, ∃ c2 ∈ g2.2, ∀ x, x ∈ c ↔ x ∈ c2) ∧
      (∀ g2 ∈ H, ∀ c2 ∈ g2.2, ∃ g ∈ G, ∃ c ∈ g.2, ∀ x, x ∈ c2 ↔ x ∈ c) := by
  have hwf2 : WellFormed nodes2 edges2 := by
    intro e he2
    have := hwf e (he.mem_iff.2 he2)
    exact ⟨hn.mem_iff.1 this.1, hn.mem_iff.1 this.2⟩
  obtain ⟨s0, s1, s2, R⟩ := reduce_run nodes edges hwf
  obtain ⟨t0, t1, t2, T⟩ := reduce_run nodes2 edges2 hwf2
  have hE : ∀ e, e ∈ edges ↔ e ∈ edges2 := fun e => he.mem_iff
  have hrel : ∀ u ∈ nodes, ∀ v ∈ nodes,
      (sameGroup ((objectKeys s2.adj).map (fun k => (k, labelsGet s2.labels k))) u v ↔
        sameGroup ((objectKeys t2.adj).map (fun k => (k, labelsGet t2.labels k))) u v) ∧
      (sameCluster ((objectKeys s2.adj).map (fun k => (k, labelsGet s2.labels k))) u v ↔
        sameCluster ((objectKeys t2.adj).map (fun k => (k, labelsGet t2.labels k))) u v) := by
    intro u hu v hv
    have hu2 := hn.mem_iff.1 hu
    have hv2 := hn.mem_iff.1 hv
    constructor
    · rw [R.sameGroup_iff hu hv, T.sameGroup_iff hu2 hv2, groupTwins_congr hE]
    · rw [R.sameCluster_iff hu hv, T.sameCluster_iff hu2 hv2, closedTwins_congr hE]
  have P := R.partitioned
  have Q : Partitioned nodes
      ((objectKeys t2.adj).map (fun k => (k, labelsGet t2.labels k))) := by
    have Q0 := T.partitioned
    exact ⟨Q0.nodup, fun u hu => Q0.cover u (hn.mem_iff.1 hu),
      fun g hg c hc u hu => hn.mem_iff.2 (Q0.sound g hg c hc u hu), Q0.nonempty,
      Q0.groupNonempty⟩
  refine ⟨_, _, R.labelGroups_eq, T.labelGroups_eq, hrel, ?_, ?_, ?_, ?_⟩
  · exact P.groups_match Q (fun u hu v hv => (hrel u hu v hv).1)
  · exact Q.groups_match P (fun u hu v hv => (hrel u hu v hv).1.symm)
  · exact P.clusters_match Q (fun u hu v hv => (hrel u hu v hv).2)
  · exact Q.clusters_match P (fun u hu v hv => (hrel u hu v hv).2.symm)

theorem createMergedGraph_order_independent_witness :
    ["A", "B", "C"].Perm ["C", "B", "A"] ∧
      [(⟨"A", "B"⟩ : Edge), ⟨"A", "C"⟩].Perm [⟨"A", "C"⟩, ⟨"A", "B"⟩] ∧
      WellFormed ["A", "B", "C"] [⟨"A", "B"⟩, ⟨"A", "C"⟩] ∧
      labelGroups ["A", "B", "C"] [⟨"A", "B"⟩, ⟨"A", "C"⟩] =
        some [("A", [["A"]]), ("B", [["B"], ["C"]])] ∧
      labelGroups ["C", "B", "A"] [⟨"A", "C"⟩, ⟨"A", "B"⟩] =
        some [("C", [["C"], ["B"]]), ("A", [["A"]])] ∧
      ∃ G H, labelGroups ["A", "B", "C"] [⟨"A", "B"⟩, ⟨"A", "C"⟩] = some G ∧
        labelGroups ["C", "B", "A"] [⟨"A", "C"⟩, ⟨"A", "B"⟩] = some H ∧
        (∀ u ∈ ["A", "B", "C"], ∀ v ∈ ["A", "B", "C"],
          (sameGroup G u v ↔ sameGroup H u v) ∧ (sameCluster G u v ↔ sameCluster H u v)) := by
  have hn : ["A", "B", "C"].Perm ["C", "B", "A"] := by decide
  have he : [(⟨"A", "B"⟩ : Edge), ⟨"A", "C"⟩].Perm [⟨"A", "C"⟩, ⟨"A", "B"⟩] := by decide
  have hwf : WellFormed ["A", "B", "C"] [⟨"A", "B"⟩, ⟨"A", "C"⟩] := by
    unfold WellFormed; decide
  obtain ⟨G, H, h1, h2, h3, -⟩ :=
    createMergedGraph_order_independent ["A", "B", "C"] ["C", "B", "A"]
      [⟨"A", "B"⟩, ⟨"A", "C"⟩] [⟨"A", "C"⟩, ⟨"A", "B"⟩] hn he hwf
  exact ⟨hn, he, hwf, by decide, by decide, G, H, h1, h2, h3⟩

/-! ## The suggestion functions: the neighbour index -/

theorem foldl_setAdd_spec {α : Type} [DecidableEq α] (l : List α) :
    ∀ acc : List α, (∀ x, x ∈ l.foldl setAdd acc ↔ x ∈ acc ∨ x ∈ l) ∧
      (acc.Nodup → (l.foldl setAdd acc).Nodup) := by
  induction l with
  | nil =>
    intro acc
    exact ⟨fun x => by simp, fun h => h⟩
  | cons a l ih =>
    intro acc
    obtain ⟨h1, h2⟩ := ih (setAdd acc a)
    refine ⟨fun x => ?_, fun h => h2 (nodup_setAdd a h)⟩
    rw [List.foldl_cons, h1 x, mem_setAdd, List.mem_cons]
    tauto

theorem mem_setOf {α : Type} [DecidableEq α] (l : List α) (x : α) : x ∈ setOf l ↔ x ∈ l := by
  have := (foldl_setAdd_spec l []).1 x
  simpa [setOf] using this

theorem nodup_setOf {α : Type} [DecidableEq α] (l : List α) : (setOf l).Nodup :=
  (foldl_setAdd_spec l []).2 List.nodup_nil

theorem length_setOf {α : Type} [DecidableEq α] (l : List α) :
    (setOf l).length = l.toFinset.card := by
  rw [← List.toFinset_card_of_nodup (nodup_setOf l)]
  congr 1
  ext x
  simp [mem_setOf]

theorem emptyIndex_spec (key : GraphNode → String) (nodes : List GraphNode) :
    (keys (nodes.foldl (fun o node => objSet o (key node) ([] : List String)) [])).Nodup ∧
    (∀ k, k ∈ keys (nodes.foldl (fun o node => objSet o (key node) ([] : List String)) []) ↔
      k ∈ nodes.map key) ∧
    (∀ k, adjGet (nodes.foldl (fun o node => objSet o (key node) ([] : List String)) []) k =
      []) := by
  have e : nodes.foldl (fun o node => objSet o (key node) ([] : List String)) [] =
      objectFromEntries ((nodes.map key).map (fun n => (n, ([] : List String)))) := by
    simp [objectFromEntries, List.foldl_map]
  rw [e]
  obtain ⟨h1, h2, h3⟩ := objectFromEntries_nodes (fun _ => ([] : List String)) (nodes.map key)
  refine ⟨h1, h2, ?_⟩
  intro k
  unfold adjGet
  rw [h3 k]
  split <;> rfl

theorem neighborsById_spec (g : GraphData) (h : EdgesBetweenNodes g) :
    ∃ nn, neighborsById g = some nn ∧
      (∀ k x, x ∈ adjGet nn k ↔ adjacent g.edges k x) ∧ ∀ k, (adjGet nn k).Nodup := by
  obtain ⟨-, h2, h3⟩ := emptyIndex_spec (fun n => n.id) g.nodes
  obtain ⟨nn, g1, -, g3, g4⟩ := foldlM_addEdge g.edges
    (g.nodes.foldl (fun o node => objSet o node.id ([] : List String)) []) (by
      intro e he
      rw [h2, h2]
      exact h e he)
  refine ⟨nn, g1, ?_, g4 (fun k => by rw [h3 k]; exact List.nodup_nil)⟩
  intro k x
  rw [g3 k x, h3 k]
  simp

/-! ## The suggestion functions: pairs of non-neighbours -/

theorem filterMap_ite_eq_map_filter {α β : Type} (p : α → Bool) (f : α → β) :
    ∀ l : List α, l.filterMap (fun x => if p x then some (f x) else none) =
      (l.filter p).map f
  | [] => rfl
  | a :: l => by
    by_cases h : p a = true
    · simp [List.filterMap_cons, h, filterMap_ite_eq_map_filter p f l]
    · simp [List.filterMap_cons, h, filterMap_ite_eq_map_filter p f l]

theorem pairsOf_eq_map (g : GraphData) (nn : Obj (List String)) :
    pairsOf g nn = (candidatePairs g nn).map (fun p => pairRecord nn p.1 p.2) := by
  unfold pairsOf candidatePairs
  rw [List.map_flatMap]
  refine List.flatMap_congr ?_
  intro node1 _
  rw [filterMap_ite_eq_map_filter, List.map_map]
  rfl

theorem mem_candidatePairs (g : GraphData) (nn : Obj (List String)) (p : GraphNode × GraphNode) :
    p ∈ candidatePairs g nn ↔
      p.1 ∈ g.nodes ∧ p.2 ∈ g.nodes ∧ jsLt p.1.id p.2.id = true ∧
        p.2.id ∉ adjGet nn p.1.id := by
  unfold candidatePairs
  simp only [List.mem_flatMap, List.mem_map, List.mem_filter, Bool.and_eq_true,
    Bool.not_eq_true', setHas]
  constructor
  · rintro ⟨n1, h1, n2, ⟨h2, h3, h4⟩, rfl⟩
    exact ⟨h1, h2, h3, by simpa using h4⟩
  · rintro ⟨h1, h2, h3, h4⟩
    exact ⟨p.1, h1, p.2, ⟨h2, h3, by simpa using h4⟩, rfl⟩

theorem nodup_candidatePairs (g : GraphData) (nn : Obj (List String))
    (h : (g.nodes.map (fun n => n.id)).Nodup) : (candidatePairs g nn).Nodup := by
  have hn : g.nodes.Nodup := List.Nodup.of_map _ h
  unfold candidatePairs
  rw [List.nodup_flatMap]
  constructor
  · intro n1 _
    refine List.Nodup.map ?_ (hn.filter _)
    intro a b hab
    exact (Prod.mk.inj hab).2
  · refine hn.imp ?_
    intro a b hab p hpa hpb
    obtain ⟨x, -, rfl⟩ := List.mem_map.1 hpa
    obtain ⟨y, -, hy⟩ := List.mem_map.1 hpb
    exact hab (Prod.mk.inj hy).1.symm

theorem topPairs_eq_map (g : GraphData) (nn : Obj (List String)) :
    (jsSort (fun a b : PairSuggestion => b.score - a.score) (pairsOf g nn)).take 10 =
      (((candidatePairs g nn).insertionSort (fun p q =>
        (pairRecord nn q.1 q.2).score - (pairRecord nn p.1 p.2).score ≤ 0)).take 10).map
        (fun p => pairRecord nn p.1 p.2) := by
  rw [pairsOf_eq_map, jsSort, List.map_take]
  congr 1
  exact (List.map_insertionSort
    (fun p q : GraphNode × GraphNode =>
      (pairRecord nn q.1 q.2).score - (pairRecord nn p.1 p.2).score ≤ 0)
    (fun a b : PairSuggestion => b.score - a.score ≤ 0)
    (fun p => pairRecord nn p.1 p.2) (candidatePairs g nn)
    (fun a _ b _ => Iff.rfl)).symm

/-- C11: on a displayed graph with distinct node ids and edges between them, every entry
returned by `suggestSimilarNonneighborsToPair` is the entry of a pair of nodes with
different ids and no edge between them in either direction, and no unordered pair of nodes
gets two entries, neither among the returned ones nor among all those computed. -/
theorem nonneighbor_pairs_sound (g : GraphData)
    (hid : (g.nodes.map (fun n => n.id)).Nodup) (hwf : EdgesBetweenNodes g) :
    ∃ nn top, ∃ sel : List (GraphNode × GraphNode),
      neighborsById g = some nn ∧ topPairs g = some top ∧
      suggestSimilarNonneighborsToPair g = some (top.map formatPair) ∧
      pairsOf g nn = (candidatePairs g nn).map (fun p => pairRecord nn p.1 p.2) ∧
      top = sel.map (fun p => pairRecord nn p.1 p.2) ∧
      sel.Subperm (candidatePairs g nn) ∧
      (∀ p ∈ candidatePairs g nn, p.1 ∈ g.nodes ∧ p.2 ∈ g.nodes ∧ p.1.id ≠ p.2.id ∧
        ∀ e ∈ g.edges, ¬ (e.from_ = p.1.id ∧ e.to_ = p.2.id) ∧
          ¬ (e.from_ = p.2.id ∧ e.to_ = p.1.id)) ∧
      ((candidatePairs g nn).map (fun p => (p.1.id, p.2.id))).Nodup ∧
      (∀ p ∈ candidatePairs g nn, ∀ q ∈ candidatePairs g nn,
        ¬ (q.1.id = p.2.id ∧ q.2.id = p.1.id)) ∧
      (sel.map (fun p => (p.1.id, p.2.id))).Nodup := by
  obtain ⟨nn, hnn, hadj, -⟩ := neighborsById_spec g hwf
  have hnd := nodup_candidatePairs g nn hid
  have hinj : ∀ x ∈ candidatePairs g nn, ∀ y ∈ candidatePairs g nn,
      (x.1.id, x.2.id) = (y.1.id, y.2.id) → x = y := by
    intro x hx y hy hxy
    obtain ⟨hx1, hx2, -, -⟩ := (mem_candidatePairs g nn x).1 hx
    obtain ⟨hy1, hy2, -, -⟩ := (mem_candidatePairs g nn y).1 hy
    obtain ⟨e1, e2⟩ := Prod.mk.inj hxy
    exact Prod.ext (List.inj_on_of_nodup_map hid hx1 hy1 e1)
      (List.inj_on_of_nodup_map hid hx2 hy2 e2)
  have hsub : (((candidatePairs g nn).insertionSort (fun p q =>
      (pairRecord nn q.1 q.2).score - (pairRecord nn p.1 p.2).score ≤ 0)).take 10).Subperm
      (candidatePairs g nn) :=
    (List.take_sublist _ _).subperm.trans (List.perm_insertionSort _ _).subperm
  refine ⟨nn, _, _, hnn, by simp [topPairs, hnn], by simp [suggestSimilarNonneighborsToPair,
    topPairs, hnn], pairsOf_eq_map g nn, topPairs_eq_map g nn, hsub, ?_, ?_, ?_, ?_⟩
  · intro p hp
    obtain ⟨h1, h2, h3, h4⟩ := (mem_candidatePairs g nn p).1 hp
    refine ⟨h1, h2, ?_, ?_⟩
    · intro heq
      rw [heq, jsLt_irrefl] at h3
      exact Bool.noConfusion h3
    · intro e he
      rw [hadj] at h4
      exact ⟨fun hx => h4 ⟨e, he, Or.inl hx⟩, fun hx => h4 ⟨e, he, Or.inr ⟨hx.2, hx.1⟩⟩⟩
  · exact hnd.map_on hinj
  · intro p hp q hq hx
    have h3 := ((mem_candidatePairs g nn p).1 hp).2.2.1
    have h4 := ((mem_candidatePairs g nn q).1 hq).2.2.1
    rw [hx.1, hx.2, jsLt_asymm h3] at h4
    exact Bool.noConfusion h4
  · have hnds : (((candidatePairs g nn).insertionSort (fun p q =>
        (pairRecord nn q.1 q.2).score - (pairRecord nn p.1 p.2).score ≤ 0)).take 10).Nodup :=
      ((List.perm_insertionSort _ _).nodup_iff.2 hnd).sublist (List.take_sublist _ _)
    exact hnds.map_on (fun x hx y hy => hinj x (hsub.subset hx) y (hsub.subset hy))

theorem nonneighbor_pairs_sound_witness :
    ((plainGraph ["A", "B", "C"] [⟨"A", "B"⟩, ⟨"A", "C"⟩]).nodes.map (fun n => n.id)).Nodup ∧
      EdgesBetweenNodes (plainGraph ["A", "B", "C"] [⟨"A", "B"⟩, ⟨"A", "C"⟩]) ∧
      topPairs (plainGraph ["A", "B", "C"] [⟨"A", "B"⟩, ⟨"A", "C"⟩]) =
        some [⟨("B", "C"), 1, 0, 42⟩] ∧
      ∃ nn top, ∃ sel : List (GraphNode × GraphNode),
        neighborsById (plainGraph ["A", "B", "C"] [⟨"A", "B"⟩, ⟨"A", "C"⟩]) = some nn ∧
        topPairs (plainGraph ["A", "B", "C"] [⟨"A", "B"⟩, ⟨"A", "C"⟩]) = some top ∧
        top = sel.map (fun p => pairRecord nn p.1 p.2) ∧
        (sel.map (fun p => (p.1.id, p.2.id))).Nodup := by
  have h1 : ((plainGraph ["A", "B", "C"] [⟨"A", "B"⟩, ⟨"A", "C"⟩]).nodes.map
      (fun n => n.id)).Nodup := by decide
  have h2 : EdgesBetweenNodes (plainGraph ["A", "B", "C"] [⟨"A", "B"⟩, ⟨"A", "C"⟩]) := by
    unfold EdgesBetweenNodes; decide
  obtain ⟨nn, top, sel, a1, a2, -, -, a3, -, -, -, -, a4⟩ :=
    nonneighbor_pairs_sound (plainGraph ["A", "B", "C"] [⟨"A", "B"⟩, ⟨"A", "C"⟩]) h1 h2
  exact ⟨h1, h2, by decide, nn, top, sel, a1, a2, a3, a4⟩

theorem mem_specNeighbours (g : GraphData) (k x : String) :
    x ∈ specNeighbours g k ↔ adjacent g.edges k x := by
  unfold specNeighbours
  rw [List.mem_toFinset, List.mem_filter]
  constructor
  · rintro ⟨-, h⟩
    simpa using h
  · intro h
    refine ⟨?_, by simpa using h⟩
    obtain ⟨e, he, h1 | h1⟩ := h
    · exact List.mem_flatMap.2 ⟨e, he, by simp [h1.2]⟩
    · exact List.mem_flatMap.2 ⟨e, he, by simp [h1.2]⟩

theorem filter_product {α β : Type} (p : α × β → Bool) (l2 : List β) :
    ∀ l1 : List α, (l1.product l2).filter p =
      l1.flatMap (fun a => (l2.filter (fun b => p (a, b))).map (fun b => (a, b)))
  | [] => rfl
  | a :: l1 => by
    have ih := filter_product p l2 l1
    show ((a :: l1) ×ˢ l2).filter p = _
    rw [List.product_cons, List.filter_append, List.flatMap_cons, List.filter_map]
    exact congrArg _ ih

theorem mem_specCandidatePairs (g : GraphData) (p : GraphNode × GraphNode) :
    p ∈ specCandidatePairs g ↔
      p.1 ∈ g.nodes ∧ p.2 ∈ g.nodes ∧ jsLt p.1.id p.2.id = true ∧
        ¬ adjacent g.edges p.1.id p.2.id := by
  obtain ⟨a, b⟩ := p
  unfold specCandidatePairs
  rw [List.mem_filter]
  have h : (a, b) ∈ g.nodes.product g.nodes ↔ a ∈ g.nodes ∧ b ∈ g.nodes := List.mem_product
  rw [h]
  simp [and_assoc]

theorem candidatePairs_eq_spec (g : GraphData) (nn : Obj (List String))
    (hadj : ∀ k x, x ∈ adjGet nn k ↔ adjacent g.edges k x) :
    candidatePairs g nn = specCandidatePairs g := by
  unfold candidatePairs specCandidatePairs
  rw [filter_product]
  refine List.flatMap_congr ?_
  intro node1 _
  congr 1
  refine List.filter_congr ?_
  intro node2 _
  have : setHas (adjGet nn node1.id) node2.id = decide (adjacent g.edges node1.id node2.id) := by
    unfold setHas
    exact decide_eq_decide.2 (hadj node1.id node2.id)
  rw [this]

theorem pairRecord_eq_spec (g : GraphData) (nn : Obj (List String))
    (hadj : ∀ k x, x ∈ adjGet nn k ↔ adjacent g.edges k x) (p : GraphNode × GraphNode) :
    pairRecord nn p.1 p.2 = specPairEntry g p := by
  have hset : ∀ k, (adjGet nn k).toFinset = specNeighbours g k := by
    intro k
    ext x
    rw [List.mem_toFinset, hadj, mem_specNeighbours]
  have hc : (setOf ((adjGet nn p.1.id).filter (fun x => setHas (adjGet nn p.2.id) x))).length =
      (specNeighbours g p.1.id ∩ specNeighbours g p.2.id).card := by
    rw [length_setOf, ← hset, ← hset]
    congr 1
    ext x
    simp [setHas]
  have hu : (setOf (adjGet nn p.1.id ++ adjGet nn p.2.id)).length =
      (specNeighbours g p.1.id ∪ specNeighbours g p.2.id).card := by
    rw [length_setOf, List.toFinset_append, hset, hset]
  simp only [pairRecord, specPairEntry, hc, hu]

theorem pairsOf_eq_spec (g : GraphData) (nn : Obj (List String))
    (hadj : ∀ k x, x ∈ adjGet nn k ↔ adjacent g.edges k x) :
    pairsOf g nn = (specCandidatePairs g).map (specPairEntry g) := by
  rw [pairsOf_eq_map, candidatePairs_eq_spec g nn hadj]
  exact List.map_congr_left (fun p _ => pairRecord_eq_spec g nn hadj p)

/-- C13: on a displayed graph with edges between its node ids,
`suggestSimilarNonneighborsToPair` returns the first ten entries (all of them when there are
fewer) of an arrangement by non-increasing score of the entries of the candidate pairs. The
candidate pairs are the pairs of nodes `n1`, `n2` with `n1.id < n2.id` and no edge between
them, with `N(k)` the set of ids joined to `k` by an edge; the entry of a pair reports the
size of `N(n1) ∩ N(n2)` as Common, the size of `N(n1) ∪ N(n2)` minus the size of
`N(n1) ∩ N(n2)` as Non-Common, and has score `42 × Common − Non-Common`. No candidate whose
entry is left out scores higher than a returned entry. -/
theorem nonneighbor_pairs_ranked (g : GraphData) (hwf : EdgesBetweenNodes g) :
    ∃ nn top, ∃ sorted : List PairSuggestion,
      neighborsById g = some nn ∧ topPairs g = some top ∧
      suggestSimilarNonneighborsToPair g = some (top.map formatPair) ∧
      (∀ k x, x ∈ adjGet nn k ↔ adjacent g.edges k x) ∧
      top.length ≤ 10 ∧
      sorted.Perm (pairsOf g nn) ∧
      sorted.Pairwise (fun a b => b.score ≤ a.score) ∧
      top = sorted.take 10 ∧
      (∀ r ∈ top, ∀ r2 ∈ sorted.drop 10, r2.score ≤ r.score) ∧
      (∀ r ∈ pairsOf g nn, ∃ n1 ∈ g.nodes, ∃ n2 ∈ g.nodes,
        r.pair = (n1.label, n2.label) ∧
        r.commonCount = ((adjGet nn n1.id).toFinset ∩ (adjGet nn n2.id).toFinset).card ∧
        r.nonCommonCount =
          (((adjGet nn n1.id).toFinset ∪ (adjGet nn n2.id).toFinset).card : Int) -
            (((adjGet nn n1.id).toFinset ∩ (adjGet nn n2.id).toFinset).card : Int) ∧
        r.score = 42 * (r.commonCount : Int) - r.nonCommonCount) ∧
      pairsOf g nn = (specCandidatePairs g).map (specPairEntry g) ∧
      sorted.Perm ((specCandidatePairs g).map (specPairEntry g)) ∧
      top.length = min 10 (specCandidatePairs g).length ∧
      (∀ p ∈ specCandidatePairs g, specPairEntry g p ∉ top →
        ∀ r ∈ top, (specPairEntry g p).score ≤ r.score) ∧
      (∀ p, p ∈ specCandidatePairs g ↔
        p.1 ∈ g.nodes ∧ p.2 ∈ g.nodes ∧ jsLt p.1.id p.2.id = true ∧
          ¬ adjacent g.edges p.1.id p.2.id) ∧
      (∀ k x, x ∈ specNeighbours g k ↔ adjacent g.edges k x) := by
  obtain ⟨nn, hnn, hadj, -⟩ := neighborsById_spec g hwf
  haveI htot : IsTotal PairSuggestion (fun a b => b.score - a.score ≤ 0) :=
    ⟨fun a b => by
      show b.score - a.score ≤ 0 ∨ a.score - b.score ≤ 0
      omega⟩
  haveI htr : IsTrans PairSuggestion (fun a b => b.score - a.score ≤ 0) :=
    ⟨fun a b c h1 h2 => by
      show c.score - a.score ≤ 0
      have h1' : b.score - a.score ≤ 0 := h1
      have h2' : c.score - b.score ≤ 0 := h2
      omega⟩
  have hs := List.sorted_insertionSort (fun a b : PairSuggestion => b.score - a.score ≤ 0)
    (pairsOf g nn)
  have hs2 : (jsSort (fun a b : PairSuggestion => b.score - a.score) (pairsOf g nn)).Pairwise
      (fun a b => b.score ≤ a.score) := by
    refine List.Pairwise.imp ?_ hs
    intro a b hab
    have hab' : b.score - a.score ≤ 0 := hab
    omega
  have hperm : (jsSort (fun a b : PairSuggestion => b.score - a.score) (pairsOf g nn)).Perm
      (pairsOf g nn) := List.perm_insertionSort _ _
  have hspec := pairsOf_eq_spec g nn hadj
  have hdrop : ∀ r ∈ (jsSort (fun a b : PairSuggestion => b.score - a.score)
      (pairsOf g nn)).take 10,
      ∀ r2 ∈ (jsSort (fun a b : PairSuggestion => b.score - a.score) (pairsOf g nn)).drop 10,
        r2.score ≤ r.score := by
    intro r hr r2 hr2
    have hsplit := hs2
    rw [← List.take_append_drop 10
      (jsSort (fun a b : PairSuggestion => b.score - a.score) (pairsOf g nn))] at hsplit
    exact (List.pairwise_append.1 hsplit).2.2 r hr r2 hr2
  refine ⟨nn, _, jsSort (fun a b : PairSuggestion => b.score - a.score) (pairsOf g nn), hnn,
    by simp [topPairs, hnn], by simp [suggestSimilarNonneighborsToPair, topPairs, hnn], hadj,
    ?_, hperm, hs2, rfl, hdrop, ?_, hspec, hspec ▸ hperm, ?_, ?_,
    mem_specCandidatePairs g, mem_specNeighbours g⟩
  · rw [List.length_take]
    omega
  · intro r hr
    rw [pairsOf_eq_map] at hr
    obtain ⟨p, hp, rfl⟩ := List.mem_map.1 hr
    obtain ⟨h1, h2, -, -⟩ := (mem_candidatePairs g nn p).1 hp
    have hc : (setOf ((adjGet nn p.1.id).filter (fun x => setHas (adjGet nn p.2.id) x))).length =
        ((adjGet nn p.1.id).toFinset ∩ (adjGet nn p.2.id).toFinset).card := by
      rw [length_setOf]
      congr 1
      ext x
      simp [setHas]
    have hu : (setOf (adjGet nn p.1.id ++ adjGet nn p.2.id)).length =
        ((adjGet nn p.1.id).toFinset ∪ (adjGet nn p.2.id).toFinset).card := by
      rw [length_setOf, List.toFinset_append]
    refine ⟨p.1, h1, p.2, h2, rfl, ?_, ?_, ?_⟩
    · simp only [pairRecord]
      exact hc
    · simp only [pairRecord]
      rw [hc, hu]
    · simp only [pairRecord]
  · rw [List.length_take, hperm.length_eq, hspec, List.length_map]
  · intro p hp hnot r hr
    have hmem : specPairEntry g p ∈
        jsSort (fun a b : PairSuggestion => b.score - a.score) (pairsOf g nn) := by
      refine hperm.mem_iff.2 ?_
      rw [hspec]
      exact List.mem_map.2 ⟨p, hp, rfl⟩
    rw [← List.take_append_drop 10
      (jsSort (fun a b : PairSuggestion => b.score - a.score) (pairsOf g nn)),
      List.mem_append] at hmem
    rcases hmem with hmem | hmem
    · exact absurd hmem hnot
    · exact hdrop r hr _ hmem

theorem nonneighbor_pairs_ranked_witness :
    EdgesBetweenNodes (plainGraph ["A", "B", "C", "D", "E", "F"]
        [⟨"A", "B"⟩, ⟨"B", "C"⟩, ⟨"C", "D"⟩, ⟨"E", "F"⟩]) ∧
      (specCandidatePairs (plainGraph ["A", "B", "C", "D", "E", "F"]
        [⟨"A", "B"⟩, ⟨"B", "C"⟩, ⟨"C", "D"⟩, ⟨"E", "F"⟩])).map
          (specPairEntry (plainGraph ["A", "B", "C", "D", "E", "F"]
            [⟨"A", "B"⟩, ⟨"B", "C"⟩, ⟨"C", "D"⟩, ⟨"E", "F"⟩])) =
        [⟨("A", "C"), 1, 1, 41⟩, ⟨("A", "D"), 0, 2, -2⟩, ⟨("A", "E"), 0, 2, -2⟩,
          ⟨("A", "F"), 0, 2, -2⟩, ⟨("B", "D"), 1, 1, 41⟩, ⟨("B", "E"), 0, 3, -3⟩,
          ⟨("B", "F"), 0, 3, -3⟩, ⟨("C", "E"), 0, 3, -3⟩, ⟨("C", "F"), 0, 3, -3⟩,
          ⟨("D", "E"), 0, 2, -2⟩, ⟨("D", "F"), 0, 2, -2⟩] ∧
      topPairs (plainGraph ["A", "B", "C", "D", "E", "F"]
          [⟨"A", "B"⟩, ⟨"B", "C"⟩, ⟨"C", "D"⟩, ⟨"E", "F"⟩]) =
        some [⟨("A", "C"), 1, 1, 41⟩, ⟨("B", "D"), 1, 1, 41⟩, ⟨("A", "D"), 0, 2, -2⟩,
          ⟨("A", "E"), 0, 2, -2⟩, ⟨("A", "F"), 0, 2, -2⟩, ⟨("D", "E"), 0, 2, -2⟩,
          ⟨("D", "F"), 0, 2, -2⟩, ⟨("B", "E"), 0, 3, -3⟩, ⟨("B", "F"), 0, 3, -3⟩,
          ⟨("C", "E"), 0, 3, -3⟩] ∧
      ∃ top, ∃ sorted : List PairSuggestion,
        topPairs (plainGraph ["A", "B", "C", "D", "E", "F"]
          [⟨"A", "B"⟩, ⟨"B", "C"⟩, ⟨"C", "D"⟩, ⟨"E", "F"⟩]) = some top ∧
        sorted.Pairwise (fun a b => b.score ≤ a.score) ∧
        top = sorted.take 10 ∧
        sorted.Perm ((specCandidatePairs (plainGraph ["A", "B", "C", "D", "E", "F"]
          [⟨"A", "B"⟩, ⟨"B", "C"⟩, ⟨"C", "D"⟩, ⟨"E", "F"⟩])).map
            (specPairEntry (plainGraph ["A", "B", "C", "D", "E", "F"]
              [⟨"A", "B"⟩, ⟨"B", "C"⟩, ⟨"C", "D"⟩, ⟨"E", "F"⟩]))) ∧
        top.length = min 10 (specCandidatePairs (plainGraph ["A", "B", "C", "D", "E", "F"]
          [⟨"A", "B"⟩, ⟨"B", "C"⟩, ⟨"C", "D"⟩, ⟨"E", "F"⟩])).length := by
  have h2 : EdgesBetweenNodes (plainGraph ["A", "B", "C", "D", "E", "F"]
      [⟨"A", "B"⟩, ⟨"B", "C"⟩, ⟨"C", "D"⟩, ⟨"E", "F"⟩]) := by
    unfold EdgesBetweenNodes; decide
  obtain ⟨nn, top, sorted, -, a2, -, -, -, -, a4, a5, -, -, -, a6, a7, -⟩ :=
    nonneighbor_pairs_ranked (plainGraph ["A", "B", "C", "D", "E", "F"]
      [⟨"A", "B"⟩, ⟨"B", "C"⟩, ⟨"C", "D"⟩, ⟨"E", "F"⟩]) h2
  exact ⟨h2, by decide, by decide, top, sorted, a2, a4, a5, a6, a7⟩

/-! ## The suggestion functions: neighbours of neighbours -/

theorem labelOf_of_mem (nodes : List GraphNode) (id : String)
    (h : id ∈ nodes.map (fun n => n.id)) :
    ∃ l, labelOf nodes id = some l ∧ l ∈ nodes.map (fun n => n.label) := by
  unfold labelOf
  cases hf : nodes.find? (fun n => decide (n.id = id)) with
  | none =>
    rw [List.find?_eq_none] at hf
    obtain ⟨n, hn, hid⟩ := List.mem_map.1 h
    exact absurd (by simpa using hid) (hf n hn)
  | some n =>
    exact ⟨n.label, rfl, List.mem_map.2 ⟨n, List.mem_of_find?_eq_some hf, rfl⟩⟩

theorem foldlM_addEdgeByLabel (nodes : List GraphNode) (edges : List Edge) :
    (∀ e ∈ edges, e.from_ ∈ nodes.map (fun n => n.id) ∧ e.to_ ∈ nodes.map (fun n => n.id)) →
    ∀ adj : Obj (List String),
      edges.foldlM (addEdgeByLabel nodes) adj = (labelEdges nodes edges).foldlM addEdge adj := by
  induction edges with
  | nil =>
    intro _ adj
    rfl
  | cons e es ih =>
    intro h adj
    obtain ⟨a, ha, -⟩ := labelOf_of_mem nodes e.from_ (h e (List.mem_cons_self e es)).1
    obtain ⟨b, hb, -⟩ := labelOf_of_mem nodes e.to_ (h e (List.mem_cons_self e es)).2
    have hstep : addEdgeByLabel nodes adj e = addEdge adj { from_ := a, to_ := b } := by
      simp [addEdgeByLabel, ha, hb]
    have hle : labelEdges nodes (e :: es) = { from_ := a, to_ := b } :: labelEdges nodes es := by
      simp [labelEdges, List.filterMap_cons, ha, hb]
    rw [hle, List.foldlM_cons, List.foldlM_cons, hstep]
    cases addEdge adj { from_ := a, to_ := b } with
    | none => rfl
    | some adj1 => exact ih (fun e2 he2 => h e2 (List.mem_cons_of_mem e he2)) adj1

theorem mem_labelEdges (nodes : List GraphNode) (edges : List Edge) (le : Edge) :
    le ∈ labelEdges nodes edges ↔
      ∃ e ∈ edges, labelOf nodes e.from_ = some le.from_ ∧
        labelOf nodes e.to_ = some le.to_ := by
  unfold labelEdges
  rw [List.mem_filterMap]
  constructor
  · rintro ⟨e, he, hx⟩
    cases ha : labelOf nodes e.from_ with
    | none => simp [ha] at hx
    | some a =>
      cases hb : labelOf nodes e.to_ with
      | none => simp [ha, hb] at hx
      | some b =>
        simp only [ha, hb, Option.some.injEq] at hx
        subst hx
        exact ⟨e, he, ha, hb⟩
  · rintro ⟨e, he, ha, hb⟩
    exact ⟨e, he, by simp [ha, hb]⟩

theorem neighborsByLabel_spec (g : GraphData) (h : EdgesBetweenNodes g) :
    ∃ nn, neighborsByLabel g = some nn ∧
      (∀ l x, x ∈ adjGet nn l ↔ adjacent (labelEdges g.nodes g.edges) l x) ∧
      ∀ l, (adjGet nn l).Nodup := by
  obtain ⟨-, h2, h3⟩ := emptyIndex_spec (fun n => n.label) g.nodes
  have hmem : ∀ id, labelOf g.nodes id ≠ none →
      ∀ l, labelOf g.nodes id = some l → l ∈ g.nodes.map (fun n => n.label) := by
    intro id _ l hl
    unfold labelOf at hl
    cases hf : g.nodes.find? (fun n => decide (n.id = id)) with
    | none => simp [hf] at hl
    | some n =>
      simp only [hf, Option.map_some', Option.some.injEq] at hl
      subst hl
      exact List.mem_map.2 ⟨n, List.mem_of_find?_eq_some hf, rfl⟩
  obtain ⟨nn, g1, -, g3, g4⟩ := foldlM_addEdge (labelEdges g.nodes g.edges)
    (g.nodes.foldl (fun o node => objSet o node.label ([] : List String)) []) (by
      intro le hle
      obtain ⟨e, -, ha, hb⟩ := (mem_labelEdges g.nodes g.edges le).1 hle
      rw [h2, h2]
      exact ⟨hmem e.from_ (by simp [ha]) _ ha, hmem e.to_ (by simp [hb]) _ hb⟩)
  refine ⟨nn, ?_, ?_, g4 (fun k => by rw [h3 k]; exact List.nodup_nil)⟩
  · unfold neighborsByLabel
    rw [foldlM_addEdgeByLabel g.nodes g.edges h]
    exact g1
  · intro l x
    rw [g3 l x, h3 l]
    simp

theorem mem_suggestionsOf (g : GraphData) (nn : Obj (List String)) (s : Suggestion)
    (hs : s ∈ suggestionsOf g nn) :
    (∃ nodeA ∈ g.nodes, nodeA.label = s.nodeA) ∧ s.nodeB ∈ adjGet nn s.nodeA ∧
      s.nodeC ∈ adjGet nn s.nodeB ∧ s.nodeC ∉ adjGet nn s.nodeA ∧ s.nodeC ≠ s.nodeA ∧
      s.nodeC ≠ s.nodeB ∧
      s.commonNeighbors =
        (setOf ((adjGet nn s.nodeA).filter (fun x => setHas (adjGet nn s.nodeB) x))).length ∧
      s.uniqueNeighborsOfB =
        ((setOf ((adjGet nn s.nodeB).filter
          (fun x => !setHas (adjGet nn s.nodeA) x))).length : Int) - 1 := by
  unfold suggestionsOf at hs
  obtain ⟨nodeA, hA, hs1⟩ := List.mem_flatMap.1 hs
  obtain ⟨nodeB, hB, hs2⟩ := List.mem_flatMap.1 hs1
  simp only [List.mem_filterMap] at hs2
  obtain ⟨nodeC, hC, hs3⟩ := hs2
  by_cases hc : nodeC ≠ nodeA.label ∧ nodeC ≠ nodeB
  · rw [if_pos hc] at hs3
    simp only [Option.some.injEq] at hs3
    subst hs3
    have hC2 := (mem_setOf _ _).1 hC
    rw [List.mem_filter] at hC2
    refine ⟨⟨nodeA, hA, rfl⟩, hB, hC2.1, ?_, hc.1, hc.2, rfl, rfl⟩
    have := hC2.2
    simpa [setHas] using this
  · rw [if_neg hc] at hs3
    exact Option.noConfusion hs3

/-- C12: on a displayed graph with edges between its node ids, every suggestion
`C x A (which is similar to B ...)` returned by `suggestSimilarNeighborsToMerge` has, on
the labels: `A` the label of a node, `B` a neighbour of `A`, `C` a neighbour of `B`, `C` not
a neighbour of `A`, `C ≠ A` and `C ≠ B`. -/
theorem neighbor_suggestions_sound (g : GraphData) (hwf : EdgesBetweenNodes g) :
    ∃ nn top, neighborsByLabel g = some nn ∧ topSuggestions g = some top ∧
      suggestSimilarNeighborsToMerge g = some (top.map formatSuggestion) ∧
      (∀ l x, x ∈ adjGet nn l ↔ adjacent (labelEdges g.nodes g.edges) l x) ∧
      top.length ≤ 10 ∧
      ∀ s ∈ top, s ∈ suggestionsOf g nn ∧
        (∃ nodeA ∈ g.nodes, nodeA.label = s.nodeA) ∧ s.nodeB ∈ adjGet nn s.nodeA ∧
        s.nodeC ∈ adjGet nn s.nodeB ∧ s.nodeC ∉ adjGet nn s.nodeA ∧ s.nodeC ≠ s.nodeA ∧
        s.nodeC ≠ s.nodeB := by
  obtain ⟨nn, hnn, hadj, -⟩ := neighborsByLabel_spec g hwf
  refine ⟨nn, (jsSort compareSuggestions (suggestionsOf g nn)).take 10, hnn,
    by simp [topSuggestions, hnn],
    by simp [suggestSimilarNeighborsToMerge, topSuggestions, hnn], hadj, ?_, ?_⟩
  · rw [List.length_take]
    omega
  · intro s hs
    have hs1 : s ∈ suggestionsOf g nn :=
      (List.perm_insertionSort _ _).mem_iff.1 (List.mem_of_mem_take hs)
    obtain ⟨h1, h2, h3, h4, h5, h6, -, -⟩ := mem_suggestionsOf g nn s hs1
    exact ⟨hs1, h1, h2, h3, h4, h5, h6⟩

theorem neighbor_suggestions_sound_witness :
    EdgesBetweenNodes (plainGraph ["A", "B", "C"] [⟨"A", "B"⟩, ⟨"B", "C"⟩]) ∧
      topSuggestions (plainGraph ["A", "B", "C"] [⟨"A", "B"⟩, ⟨"B", "C"⟩]) =
        some [⟨"A", "B", "C", 0, 1⟩, ⟨"C", "B", "A", 0, 1⟩] ∧
      ∃ nn top, neighborsByLabel (plainGraph ["A", "B", "C"] [⟨"A", "B"⟩, ⟨"B", "C"⟩]) =
          some nn ∧
        topSuggestions (plainGraph ["A", "B", "C"] [⟨"A", "B"⟩, ⟨"B", "C"⟩]) = some top ∧
        ∀ s ∈ top, s.nodeB ∈ adjGet nn s.nodeA ∧ s.nodeC ∈ adjGet nn s.nodeB ∧
          s.nodeC ∉ adjGet nn s.nodeA ∧ s.nodeC ≠ s.nodeA ∧ s.nodeC ≠ s.nodeB := by
  have h2 : EdgesBetweenNodes (plainGraph ["A", "B", "C"] [⟨"A", "B"⟩, ⟨"B", "C"⟩]) := by
    unfold EdgesBetweenNodes; decide
  obtain ⟨nn, top, a1, a2, -, -, -, a3⟩ :=
    neighbor_suggestions_sound (plainGraph ["A", "B", "C"] [⟨"A", "B"⟩, ⟨"B", "C"⟩]) h2
  exact ⟨h2, by decide, nn, top, a1, a2, fun s hs => (a3 s hs).2.2⟩

/-- C14 (the code at the failing input): on the plain graph of the lines `A x B`, `A x M`,
`B x M`, `B x C`, `B x D`, `C x E` the first returned suggestion has no common neighbour and
one unique extra, and it comes before the suggestions with one common neighbour and two
unique extras: the comparator weights the unique extras by 42. -/
theorem suggestions_sorted_by_extras_first :
    topSuggestions (plainGraph ["A", "B", "M", "C", "D", "E"]
        [⟨"A", "B"⟩, ⟨"A", "M"⟩, ⟨"B", "M"⟩, ⟨"B", "C"⟩, ⟨"B", "D"⟩, ⟨"C", "E"⟩]) =
      some [⟨"B", "C", "E", 0, 1⟩, ⟨"E", "C", "B", 0, 1⟩, ⟨"A", "B", "C", 1, 2⟩,
        ⟨"A", "B", "D", 1, 2⟩, ⟨"M", "B", "C", 1, 2⟩, ⟨"M", "B", "D", 1, 2⟩,
        ⟨"C", "B", "A", 0, 3⟩, ⟨"C", "B", "M", 0, 3⟩, ⟨"C", "B", "D", 0, 3⟩,
        ⟨"D", "B", "A", 0, 3⟩] ∧
    compareSuggestions ⟨"B", "C", "E", 0, 1⟩ ⟨"A", "B", "C", 1, 2⟩ = -41 := by
  constructor <;> decide

/-- C15 (the code at the failing input): on the plain graph of the lines `A x A`, `A x B`,
`B x C` the suggestion `C x A (which is similar to B ...)` reports 0 unique extras, while
`B` has one neighbour, `C`, that is neither `A` nor a neighbour of `A`: `A` is its own
neighbour, so it is not among the unique neighbours of `B` from which one is subtracted. -/
theorem unique_extras_with_self_loop :
    neighborsByLabel (plainGraph ["A", "B", "C"] [⟨"A", "A"⟩, ⟨"A", "B"⟩, ⟨"B", "C"⟩]) =
      some [("A", ["A", "B"]), ("B", ["A", "C"]), ("C", ["B"])] ∧
    topSuggestions (plainGraph ["A", "B", "C"] [⟨"A", "A"⟩, ⟨"A", "B"⟩, ⟨"B", "C"⟩]) =
      some [⟨"A", "B", "C", 1, 0⟩, ⟨"C", "B", "A", 0, 1⟩] ∧
    suggestSimilarNeighborsToMerge
        (plainGraph ["A", "B", "C"] [⟨"A", "A"⟩, ⟨"A", "B"⟩, ⟨"B", "C"⟩]) =
      some ["C x A (which is similar to B - Common neighbors: 1, Unique extras: 0)",
        "A x C (which is similar to B - Common neighbors: 0, Unique extras: 1)"] ∧
    ((["A", "C"] : List String).filter
      (fun x => decide (x ∉ ["A", "B"] ∧ x ≠ "A"))).length = 1 := by
  refine ⟨by decide, by decide, by decide, by decide⟩

end Paquerette
